import Mathlib

/-!
Shallow embedding of the grid-pairing repository (`src/gridpairing/grid.py`,
`src/gridpairing/solvers.py`) and proofs about its claims.

Python dictionaries are modelled as insertion-ordered association lists,
Python lists as Lean lists, machine integers as `Int`/`Nat`.  Code that can
raise a `KeyError` (dictionary lookup of a missing key) is modelled in an
`Except` monad; unbounded `while` loops carry an explicit fuel parameter and
report exhaustion as a distinguished error.
-/

namespace GridPairing

/-- A grid cell `(i, j)`: row `i`, column `j` (0-indexed), as in `grid.py`. -/
abbrev Cell : Type := Nat × Nat

/-- A pair of cells `((i1, j1), (i2, j2))`, as produced by `Grid.all_pairs`. -/
abbrev Pair : Type := Cell × Cell

/-! ### Insertion-ordered association lists (model of Python `dict`) -/

/-- Model of a Python `dict`: an association list in insertion order. -/
abbrev AList (κ ν : Type) : Type := List (κ × ν)

/-- `d.get(k)` as an `Option`: `none` models a missing key (`KeyError` site). -/
def aget? {κ ν : Type} [DecidableEq κ] : AList κ ν → κ → Option ν
  | [], _ => none
  | (k, v) :: t, k' => if k = k' then some v else aget? t k'

/-- `d[k] = v`: update in place if `k` is present, else append (Python dicts
keep insertion order). -/
def aset {κ ν : Type} [DecidableEq κ] : AList κ ν → κ → ν → AList κ ν
  | [], k, v => [(k, v)]
  | (k0, v0) :: t, k, v => if k0 = k then (k0, v) :: t else (k0, v0) :: aset t k v

/-- The keys of a dict, in insertion order. -/
def akeys {κ ν : Type} (l : AList κ ν) : List κ := l.map Prod.fst

/-! ### The `Grid` class (`grid.py`) -/

/-- The `Grid` class of `grid.py`: `n` rows, `m` columns, a color matrix
(entries `0..4` standing for white, red, blue, green, black) and a value
matrix. -/
structure Grid where
  n : Nat
  m : Nat
  color : List (List Nat)
  value : List (List Int)
deriving DecidableEq, Repr

/-- `Grid.__init__`: falsy (`[]`) color/value arguments are replaced by the
all-white / all-ones defaults. -/
def Grid.init (n m : Nat) (color : List (List Nat)) (value : List (List Int)) : Grid :=
  { n := n
    m := m
    color := if color.isEmpty then (List.range n).map (fun _ => (List.range m).map fun _ => 0)
             else color
    value := if value.isEmpty then (List.range n).map (fun _ => (List.range m).map fun _ => 1)
             else value }

/-- `self.color[i][j]` (total model; all claims are about in-bounds cells of
well-formed grids, where the `getD` defaults never fire). -/
def Grid.colorAt (g : Grid) (i j : Nat) : Nat := (g.color.getD i []).getD j 0

/-- `self.value[i][j]` (total model, as for `colorAt`). -/
def Grid.valueAt (g : Grid) (i j : Nat) : Int := (g.value.getD i []).getD j 0

/-- `Grid.is_forbidden`: the cell is black (color code 4). -/
def Grid.is_forbidden (g : Grid) (i j : Nat) : Bool := g.colorAt i j = 4

/-- `Grid.non_adjacent`: cells do not differ by exactly one unit in exactly
one coordinate.  Python subtracts `int`s, so coordinates are compared in `ℤ`. -/
def Grid.non_adjacent (g : Grid) (c1 c2 : Cell) : Bool :=
  if (c1.2 = c2.2 ∧ ((c1.1 : Int) - c2.1).natAbs = 1) ∨
     (c1.1 = c2.1 ∧ ((c1.2 : Int) - c2.2).natAbs = 1) then false else true

/-- The `color_rules` table of `Grid.colors_forbidden`: given the first
cell's color, decide whether the second cell's color is forbidden.
Colors are `0..4`; out-of-range colors are rejected at ingestion
(`grid_from_file` raises), so the catch-all arm is never reached on
well-formed grids. -/
def color_rules : Nat → Nat → Bool
  | 0, _ => false              -- White can pair with any non-black
  | 1, c => decide (2 < c)     -- Red can pair with red, blue, or white
  | 2, c => decide (2 < c)     -- Blue can pair with red, blue, or white
  | 3, c => !(c = 0 || c = 3)  -- Green can only pair with green or white
  | _, _ => true               -- Black is always forbidden

/-- `Grid.colors_forbidden`: true iff pairing the two cells' colors is not
allowed. -/
def Grid.colors_forbidden (g : Grid) (c1 c2 : Cell) : Bool :=
  color_rules (g.colorAt c1.1 c1.2) (g.colorAt c2.1 c2.2)

/-- `Grid.test_pair`: neither cell forbidden, cells adjacent, colors
compatible. -/
def Grid.test_pair (g : Grid) (c1 c2 : Cell) : Bool :=
  !(g.is_forbidden c1.1 c1.2 || g.is_forbidden c2.1 c2.2 ||
    g.non_adjacent c1 c2 || g.colors_forbidden c1 c2)

/-- `Grid.cost`: absolute difference of the two cells' values. -/
def Grid.cost (g : Grid) (pair : Pair) : Int :=
  |g.valueAt pair.1.1 pair.1.2 - g.valueAt pair.2.1 pair.2.2|

/-- The pair list generated by the scan in `Grid.all_pairs`, before the
`list(set(...))` deduplication: for each cell, its right and below
neighbors are tested. -/
def Grid.all_pairs_scan (g : Grid) : List Pair :=
  (List.range g.n).flatMap fun i =>
    (List.range g.m).flatMap fun j =>
      (if j + 1 < g.m ∧ g.test_pair (i, j) (i, j + 1) = true
       then [((i, j), (i, j + 1))] else []) ++
      (if i + 1 < g.n ∧ g.test_pair (i, j) (i + 1, j) = true
       then [((i, j), (i + 1, j))] else [])

/-- First-occurrence deduplication with an accumulator of already-seen
elements: the model of `list(set(...))` (the scan of `all_pairs` never
produces duplicates, so only the Python set's arbitrary iteration order is
abstracted — we keep generation order). -/
def py_dedup {α : Type} [DecidableEq α] (seen : List α) : List α → List α
  | [] => []
  | x :: xs =>
    if seen.contains x then py_dedup seen xs
    else x :: py_dedup (seen ++ [x]) xs

/-- `Grid.all_pairs`: the scan, deduplicated (`list(set(pairs))`). -/
def Grid.all_pairs (g : Grid) : List Pair := py_dedup [] g.all_pairs_scan

/-! ### The base `Solver` class (`solvers.py`) -/

/-- State of the base `Solver` class: the grid and the current `pairs`
attribute. -/
structure Solver where
  grid : Grid
  pairs : List Pair
deriving Repr

/-- `Solver.__init__`: stores the grid and initializes `pairs` to
`grid.all_pairs()`. -/
def Solver.init (grid : Grid) : Solver :=
  { grid := grid, pairs := grid.all_pairs }

/-- The `used_cells` set of `Solver.score`: every cell occurring in a
selected pair. -/
def used_cells (pairs : List Pair) : List Cell :=
  pairs.flatMap fun pair => [pair.1, pair.2]

/-- All cells of the grid in the row-major order of the
`for i ... for j ...` scans. -/
def grid_cells (g : Grid) : List Cell :=
  (List.range g.n).flatMap fun i => (List.range g.m).map fun j => (i, j)

/-- `Solver.score`: sum of the selected pairs' costs plus the values of
non-forbidden cells not used by any pair. -/
def Solver.score (s : Solver) : Int :=
  let S := (s.pairs.map s.grid.cost).sum
  S + (((grid_cells s.grid).filter
           (fun c : Cell => !s.grid.is_forbidden c.1 c.2 && !(used_cells s.pairs).contains c))
       |>.map fun c : Cell => s.grid.valueAt c.1 c.2).sum

/-! ### `SolverNaive` -/

/-- Stable insertion into an already-sorted accumulator: the new element goes
after every element that compares `le` to it. -/
def stable_insert {α : Type} (le : α → α → Bool) (x : α) : List α → List α
  | [] => [x]
  | y :: ys => if le y x then y :: stable_insert le x ys else x :: y :: ys

/-- Stable sort by a total preorder, processing elements left to right: the
model of Python's stable `list.sort(key=...)`. -/
def stable_sort {α : Type} (le : α → α → Bool) (l : List α) : List α :=
  l.foldl (fun acc x => stable_insert le x acc) []

/-- The greedy selection loop of `SolverNaive.run`: accept a pair iff neither
of its cells is already used. -/
def naive_select : List Pair → List Cell → List Pair → List Pair
  | [], _, selected => selected
  | pair :: rest, used, selected =>
    if !used.contains pair.1 && !used.contains pair.2 then
      naive_select rest (used ++ [pair.1, pair.2]) (selected ++ [pair])
    else
      naive_select rest used selected

/-- `SolverNaive.run`: re-enumerate all valid pairs, sort them by ascending
cost (Python's `list.sort` is a stable sort), greedily select non-overlapping
pairs, store them in `pairs`, and return the score (paired with the updated
solver state, which Python mutates in place). -/
def SolverNaive.run (s : Solver) : Int × Solver :=
  let pairs := s.grid.all_pairs
  let sorted := stable_sort (fun a b => decide (s.grid.cost a ≤ s.grid.cost b)) pairs
  let selected := naive_select sorted [] []
  let s' : Solver := { s with pairs := selected }
  (s'.score, s')

/-! ### The `Graph` class (min-cost-flow network, `solvers.py`) -/

/-- Graph nodes: the sentinel strings `"S"`, `"T"` and grid cells `(i, j)`. -/
inductive Node where
  | S : Node
  | T : Node
  | cell : Nat → Nat → Node
deriving DecidableEq, Repr

/-- Python exceptions the embedded code can raise (`keyError` models a
`KeyError` on a missing dictionary key) plus fuel exhaustion of the model's
explicitly-bounded loops (`fuel`, modelling nontermination). -/
inductive PyErr where
  | keyError : PyErr
  | fuel : PyErr
deriving DecidableEq, Repr

/-- Lookup in a nested dict: `m[u][v]`. -/
def dget? (m : AList Node (AList Node Int)) (u v : Node) : Option Int :=
  (aget? m u).bind fun row => aget? row v

/-- Assignment in a nested dict: `m[u][v] = x` (`u`'s row is created by
`add_edge`'s node-registration loop before this is ever used, so the `getD`
default never fires there). -/
def dset (m : AList Node (AList Node Int)) (u v : Node) (x : Int) :
    AList Node (AList Node Int) :=
  aset m u (aset ((aget? m u).getD []) v x)

/-- In-place arithmetic on a nested dict entry, e.g. `m[u][v] += f`; `none`
models the `KeyError` when either key is missing. -/
def dmod? (m : AList Node (AList Node Int)) (u v : Node) (f : Int → Int) :
    Option (AList Node (AList Node Int)) :=
  match aget? m u with
  | none => none
  | some row =>
    match aget? row v with
    | none => none
    | some x => some (aset m u (aset row v (f x)))

/-- `self.neigh[u].add(v)` (a Python `set`; modelled as a duplicate-free
list). -/
def sadd (m : AList Node (List Node)) (u v : Node) : AList Node (List Node) :=
  let s := (aget? m u).getD []
  aset m u (if s.contains v then s else s ++ [v])

/-- `self.adj_list[u].append(v)`. -/
def ladd (m : AList Node (List Node)) (u v : Node) : AList Node (List Node) :=
  aset m u (((aget? m u).getD []) ++ [v])

/-- The `Graph` class: nested dicts for capacity, cost and flow, a neighbor
set and an adjacency list per node. -/
structure Graph where
  capacity : AList Node (AList Node Int)
  cost : AList Node (AList Node Int)
  flow : AList Node (AList Node Int)
  neigh : AList Node (List Node)
  adj_list : AList Node (List Node)
deriving Repr

/-- `Graph.__init__`: all five dicts empty. -/
def Graph.empty : Graph :=
  { capacity := [], cost := [], flow := [], neigh := [], adj_list := [] }

/-- The node-registration loop of `Graph.add_edge`: `if node not in
self.capacity: ...` initializes the node's entry in all five dicts. -/
def Graph.ensure_node (g : Graph) (node : Node) : Graph :=
  if (aget? g.capacity node).isSome then g
  else
    { capacity := g.capacity ++ [(node, [])]
      cost := g.cost ++ [(node, [])]
      flow := g.flow ++ [(node, [])]
      neigh := g.neigh ++ [(node, [])]
      adj_list := g.adj_list ++ [(node, [])] }

/-- `Graph.add_edge`: register both endpoints, create the principal edge
`u→v` with the given capacity/cost and flow 0, and the reciprocal edge
`v→u` with capacity 0, cost `-cost` and flow 0; append to both adjacency
lists. -/
def Graph.add_edge (g : Graph) (u v : Node) (cap cost : Int) : Graph :=
  let g := (g.ensure_node u).ensure_node v
  -- Principal edge
  let g := { g with
    capacity := dset g.capacity u v cap
    cost := dset g.cost u v cost
    flow := dset g.flow u v 0
    neigh := sadd g.neigh u v
    adj_list := ladd g.adj_list u v }
  -- Reciprocal edge
  { g with
    capacity := dset g.capacity v u 0
    cost := dset g.cost v u (-cost)
    flow := dset g.flow v u 0
    neigh := sadd g.neigh v u
    adj_list := ladd g.adj_list v u }

/-! ### `Graph.bellman_ford` (SPFA-style label correction)

Distances are `Option Int`: `none` models `float("inf")`. -/

/-- `inf`-aware strict comparison: `a < b` with `none` as `+∞`. -/
def einf_lt : Option Int → Option Int → Bool
  | some a, some b => decide (a < b)
  | some _, none => true
  | none, _ => false

/-- The relaxation of `for v in self.adj_list[u]` in `bellman_ford`:
relax every residual out-edge of `u`, updating queue, `in_queue`, `dist`
and `pred`. -/
def relax_neighbors (g : Graph) (u : Node) :
    List Node → List Node → AList Node Bool → AList Node (Option Int) →
    AList Node (Option Node) →
    Except PyErr (List Node × AList Node Bool × AList Node (Option Int) ×
      AList Node (Option Node))
  | [], queue, in_queue, dist, pred => .ok (queue, in_queue, dist, pred)
  | v :: vs, queue, in_queue, dist, pred =>
    match dget? g.capacity u v, dget? g.flow u v with
    | some cap, some fl =>
      if cap > fl then
        match aget? dist u, dget? g.cost u v with
        | some du, some c =>
          let new_cost := du.map (· + c)
          match aget? dist v with
          | some dv =>
            if einf_lt new_cost dv then
              let dist := aset dist v new_cost
              let pred := aset pred v (some u)
              match aget? in_queue v with
              | some b =>
                if !b then
                  relax_neighbors g u vs (queue ++ [v]) (aset in_queue v true) dist pred
                else relax_neighbors g u vs queue in_queue dist pred
              | none => .error .keyError
            else relax_neighbors g u vs queue in_queue dist pred
          | none => .error .keyError
        | _, _ => .error .keyError
      else relax_neighbors g u vs queue in_queue dist pred
    | _, _ => .error .keyError

/-- The `while queue:` loop of `bellman_ford`, with explicit fuel.  After
relaxing `u`'s out-edges, if the queue is empty the code evaluates
`dist[sink]` (a `KeyError` when the sink was never registered) and returns
`(dist, pred)` whether that distance is finite (early exit) or infinite
(normal loop exit). -/
def bf_loop (g : Graph) (sink : Node) :
    Nat → List Node → AList Node Bool → AList Node (Option Int) →
    AList Node (Option Node) →
    Except PyErr (AList Node (Option Int) × AList Node (Option Node))
  | 0, _, _, _, _ => .error .fuel
  | _ + 1, [], _, dist, pred => .ok (dist, pred)
  | fuel + 1, u :: queue, in_queue, dist, pred =>
    let in_queue := aset in_queue u false
    match aget? g.adj_list u with
    | none => .error .keyError
    | some adj =>
      match relax_neighbors g u adj queue in_queue dist pred with
      | .error e => .error e
      | .ok (queue, in_queue, dist, pred) =>
        if queue.isEmpty then
          match aget? dist sink with
          | none => .error .keyError
          | some _ => .ok (dist, pred)
        else bf_loop g sink fuel queue in_queue dist pred

/-- `Graph.bellman_ford`: initialize `dist` to `inf` (source: 0), `pred` to
`None`, seed the FIFO queue with the source, and run the label-correcting
loop. -/
def Graph.bellman_ford (g : Graph) (source sink : Node) (fuel : Nat) :
    Except PyErr (AList Node (Option Int) × AList Node (Option Node)) :=
  let dist : AList Node (Option Int) := (akeys g.capacity).map fun node => (node, none)
  let pred : AList Node (Option Node) := (akeys g.capacity).map fun node => (node, none)
  let dist := aset dist source (some 0)
  let in_queue : AList Node Bool := (akeys g.capacity).map fun node => (node, node = source)
  bf_loop g sink fuel [source] in_queue dist pred

/-! ### `Graph.min_cost_flow` (successive shortest augmenting paths) -/

/-- The predecessor walk of `min_cost_flow`: from the sink back to the
source, collecting path edges and the bottleneck residual capacity
(`none` models the initial `float("inf")`); a `None` predecessor yields
bottleneck 0 (the defensive break). -/
def walk_path (g : Graph) (pred : AList Node (Option Node)) (source : Node) :
    Nat → Node → List (Node × Node) → Option Int →
    Except PyErr (List (Node × Node) × Option Int)
  | 0, _, _, _ => .error .fuel
  | fuel + 1, v, path, flow =>
    if v = source then .ok (path, flow)
    else
      match aget? pred v with
      | none => .error .keyError
      | some none => .ok (path, some 0)
      | some (some u) =>
        let path := path ++ [(u, v)]
        match dget? g.capacity u v, dget? g.flow u v with
        | some cap, some fl =>
          let flow := some (match flow with
            | none => cap - fl
            | some x => min x (cap - fl))
          walk_path g pred source fuel u path flow
        | _, _ => .error .keyError

/-- The flow-update loop of `min_cost_flow`: for every path edge `(u, v)`,
`flow[u][v] += f`, `flow[v][u] -= f`, `total_cost += cost[u][v] * f`. -/
def augment_edges : Graph → Int → List (Node × Node) → Int → Option (Graph × Int)
  | g, _, [], total => some (g, total)
  | g, f, (u, v) :: rest, total =>
    match dmod? g.flow u v (· + f) with
    | none => none
    | some flow1 =>
      match dmod? flow1 v u (· - f) with
      | none => none
      | some flow2 =>
        match dget? g.cost u v with
        | none => none
        | some c => augment_edges { g with flow := flow2 } f rest (total + c * f)

/-- One iteration of the `while True:` augmentation loop of `min_cost_flow`:
find a shortest augmenting path, stop (`ok none`) if the sink is unreachable
or the bottleneck is 0, otherwise push the bottleneck along the path.  (When
the predecessor walk produced an empty path its `inf` bottleneck is never
used: `augment_edges` over `[]` is the identity, so `getD 0` is
unobservable.) -/
def mcf_step (source sink : Node) (bfFuel walkFuel : Nat) (g : Graph)
    (total_cost : Int) : Except PyErr (Option (Graph × Int)) :=
  match g.bellman_ford source sink bfFuel with
  | .error e => .error e
  | .ok (dist, pred) =>
    match aget? dist sink with
    | none => .error .keyError
    | some none => .ok none
    | some (some _) =>
      match walk_path g pred source walkFuel sink [] none with
      | .error e => .error e
      | .ok (path, flow) =>
        if flow = some 0 then .ok none
        else
          match augment_edges g (flow.getD 0) path total_cost with
          | none => .error .keyError
          | some r => .ok (some r)

/-- The `while True:` augmentation loop of `min_cost_flow`, with explicit
fuel, iterating `mcf_step` until it reports a break. -/
def mcf_loop (source sink : Node) (bfFuel walkFuel : Nat) :
    Nat → Graph → Int → Except PyErr (Graph × Int)
  | 0, _, _ => .error .fuel
  | fuel + 1, g, total_cost =>
    match mcf_step source sink bfFuel walkFuel g total_cost with
    | .error e => .error e
    | .ok none => .ok (g, total_cost)
    | .ok (some (g', total_cost')) =>
      mcf_loop source sink bfFuel walkFuel fuel g' total_cost'

/-- The inner loop of the pair extraction in `min_cost_flow`: the non-sentinel
entries `v` of `u`'s adjacency list with `flow[u][v] == 1`. -/
def collect_row (g : Graph) (source sink u : Node) :
    List Node → Except PyErr (List (Node × Node))
  | [] => .ok []
  | v :: vs =>
    if v = source ∨ v = sink then collect_row g source sink u vs
    else
      match dget? g.flow u v with
      | none => .error .keyError
      | some fl =>
        match collect_row g source sink u vs with
        | .error e => .error e
        | .ok rest => .ok (if fl = 1 then (u, v) :: rest else rest)

/-- The outer loop of the pair extraction: every non-sentinel node `u` of the
graph, in insertion order. -/
def collect_pairs (g : Graph) (source sink : Node) :
    List Node → Except PyErr (List (Node × Node))
  | [] => .ok []
  | u :: us =>
    if u = source ∨ u = sink then collect_pairs g source sink us
    else
      match aget? g.adj_list u with
      | none => .error .keyError
      | some adj =>
        match collect_row g source sink u adj, collect_pairs g source sink us with
        | .ok r, .ok rest => .ok (r ++ rest)
        | .error e, _ => .error e
        | .ok _, .error e => .error e

/-- `Graph.min_cost_flow`: run the augmentation loop, then report the total
cost and all positive-flow non-sentinel pairs (together with the mutated
graph). -/
def Graph.min_cost_flow (g : Graph) (source sink : Node)
    (bfFuel walkFuel mcfFuel : Nat) :
    Except PyErr (Int × List (Node × Node) × Graph) :=
  match mcf_loop source sink bfFuel walkFuel mcfFuel g 0 with
  | .error e => .error e
  | .ok (g, total_cost) =>
    match collect_pairs g source sink (akeys g.capacity) with
    | .error e => .error e
    | .ok pairs => .ok (total_cost, pairs, g)

/-! ### `SolverBellmanFord` -/

/-- State of `SolverBellmanFord`: the base solver's fields plus the flow
network and the two caches (the `source`/`sink` attributes are the constants
`Node.S`/`Node.T`). -/
structure SolverBellmanFord where
  grid : Grid
  pairs : List Pair
  graph : Graph
  cost_cache : AList Pair Int
  forbidden_cache : AList Cell Bool
deriving Repr

/-- `SolverBellmanFord.__init__`: `super().__init__` (which computes
`grid.all_pairs()`) followed by resetting `pairs` to `[]` and creating the
empty graph and caches. -/
def SolverBellmanFord.init (grid : Grid) : SolverBellmanFord :=
  let base := Solver.init grid
  { grid := base.grid, pairs := [], graph := Graph.empty,
    cost_cache := [], forbidden_cache := [] }

/-- `SolverBellmanFord.is_forbidden_cached`. -/
def SolverBellmanFord.is_forbidden_cached (s : SolverBellmanFord) (i j : Nat) :
    Bool × SolverBellmanFord :=
  match aget? s.forbidden_cache (i, j) with
  | some b => (b, s)
  | none =>
    let b := s.grid.is_forbidden i j
    (b, { s with forbidden_cache := aset s.forbidden_cache (i, j) b })

/-- `SolverBellmanFord.get_cost_cached`. -/
def SolverBellmanFord.get_cost_cached (s : SolverBellmanFord) (pair : Pair) :
    Int × SolverBellmanFord :=
  match aget? s.cost_cache pair with
  | some c => (c, s)
  | none =>
    let c := s.grid.cost pair
    (c, { s with cost_cache := aset s.cost_cache pair c })

/-- The neighbor offsets of `add_edges_from`. -/
def directions : List (Int × Int) := [(0, 1), (1, 0), (0, -1), (-1, 0)]

/-- One iteration of the direction loop of `add_edges_from`: if the offset
neighbor is in bounds, not forbidden and passes `test_pair`, add a
unit-capacity edge with the pair's (cached) cost. -/
def add_edge_step (cell : Cell) (s : SolverBellmanFord) (d : Int × Int) :
    SolverBellmanFord :=
  let ni : Int := (cell.1 : Int) + d.1
  let nj : Int := (cell.2 : Int) + d.2
  if 0 ≤ ni ∧ ni < (s.grid.n : Int) ∧ 0 ≤ nj ∧ nj < (s.grid.m : Int) then
    let neighbor : Cell := (ni.toNat, nj.toNat)
    let fs := s.is_forbidden_cached neighbor.1 neighbor.2
    if !fs.1 && fs.2.grid.test_pair cell neighbor then
      let cs := fs.2.get_cost_cached (cell, neighbor)
      let g2 := cs.2.graph.add_edge (Node.cell cell.1 cell.2)
        (Node.cell neighbor.1 neighbor.2) 1 cs.1
      { cs.2 with graph := g2 }
    else fs.2
  else s

/-- `SolverBellmanFord.add_edges_from`: add a unit-capacity edge from `cell`
to each in-bounds, non-forbidden neighbor passing `test_pair`, with the
pair's (cached) cost. -/
def SolverBellmanFord.add_edges_from (s : SolverBellmanFord) (cell : Cell) :
    SolverBellmanFord :=
  directions.foldl (add_edge_step cell) s

/-- The cell-partition scan of `build_graph`: split the non-forbidden cells
by parity of `i + j` (threading the forbidden-cell cache; the `valid_cells`
list the Python code also builds is never read afterwards). -/
def SolverBellmanFord.partition_cells (s : SolverBellmanFord) :
    SolverBellmanFord × List Cell × List Cell :=
  (grid_cells s.grid).foldl
    (fun acc c =>
      let fs := acc.1.is_forbidden_cached c.1 c.2
      if fs.1 then (fs.2, acc.2.1, acc.2.2)
      else if (c.1 + c.2) % 2 = 0 then (fs.2, acc.2.1 ++ [c], acc.2.2)
      else (fs.2, acc.2.1, acc.2.2 ++ [c]))
    (s, [], [])

/-- `SolverBellmanFord.build_graph`: source→even edges (capacity 1, cost 0)
interleaved with each even cell's pair edges, then odd→sink edges. -/
def SolverBellmanFord.build_graph (s : SolverBellmanFord) : SolverBellmanFord :=
  let p := s.partition_cells
  let s1 := p.2.1.foldl
    (fun s cell =>
      let s' : SolverBellmanFord :=
        { s with graph := s.graph.add_edge Node.S (Node.cell cell.1 cell.2) 1 0 }
      s'.add_edges_from cell)
    p.1
  p.2.2.foldl
    (fun s cell =>
      { s with graph := s.graph.add_edge (Node.cell cell.1 cell.2) Node.T 1 0 })
    s1

/-- `SolverBellmanFord.score`: delegates to the base `Solver.score`. -/
def SolverBellmanFord.score (s : SolverBellmanFord) : Int :=
  Solver.score { grid := s.grid, pairs := s.pairs }

/-- The reset at the start of `SolverBellmanFord.run`: discard the previous
graph, caches and pairs. -/
def SolverBellmanFord.reset (s : SolverBellmanFord) : SolverBellmanFord :=
  { s with graph := Graph.empty, cost_cache := [], forbidden_cache := [],
           pairs := ([] : List Pair) }

/-- Decode the node pairs returned by `min_cost_flow` back into cell pairs
(`min_cost_flow` only returns non-sentinel nodes, i.e. cells, so this drops
nothing). -/
def node_pairs_to_cells (node_pairs : List (Node × Node)) : List Pair :=
  node_pairs.filterMap fun uv =>
    match uv with
    | (Node.cell i j, Node.cell k l) => some (((i, j) : Cell), ((k, l) : Cell))
    | _ => none

/-- `SolverBellmanFord.run`: reset the graph, caches and pairs, rebuild the
network, run min-cost flow, store the decoded cell pairs and return the
score. -/
def SolverBellmanFord.run (s : SolverBellmanFord) (bfFuel walkFuel mcfFuel : Nat) :
    Except PyErr (Int × SolverBellmanFord) :=
  let s1 := s.reset.build_graph
  match s1.graph.min_cost_flow Node.S Node.T bfFuel walkFuel mcfFuel with
  | .error e => .error e
  | .ok r =>
    let s2 := { s1 with graph := r.2.2, pairs := node_pairs_to_cells r.2.1 }
    .ok (s2.score, s2)

/-- The solver state after `run()` (on an exception Python propagates it;
this projection then returns the pre-call state, which trivially has the
same grid). -/
def run_state (s : SolverBellmanFord) (bfFuel walkFuel mcfFuel : Nat) :
    SolverBellmanFord :=
  match SolverBellmanFord.run s bfFuel walkFuel mcfFuel with
  | .ok r => r.2
  | .error _ => s

/-! ## Spec-side definitions -/

/-- Sum of the values of all non-forbidden cells (spec §3 / §7: the score of
the empty pairing). -/
def sum_values_non_forbidden (g : Grid) : Int :=
  (((grid_cells g).filter fun c : Cell => !g.is_forbidden c.1 c.2).map
    fun c : Cell => g.valueAt c.1 c.2).sum

/-- The documented symmetric color-compatibility table of spec §4.1:
white pairs with any non-black, red/blue with white/red/blue, green with
white/green, black with nothing (colors: 0 white, 1 red, 2 blue, 3 green,
4 black). -/
def allowed_by_table : Nat → Nat → Bool
  | 0, c => !(c = 4)
  | 1, c => c = 0 || c = 1 || c = 2
  | 2, c => c = 0 || c = 1 || c = 2
  | 3, c => c = 0 || c = 3
  | _, _ => false

/-! ## Claim C1 -/

/-- The failing input for claim C1: a 1×5 all-white grid with values
`[4, 5, 5, 6, 9]`. -/
def C1_grid : Grid := Grid.init 1 5 [[0, 0, 0, 0, 0]] [[4, 5, 5, 6, 9]]

/-- C2's degenerate inputs: a 1×1 grid (default all-white, all-ones) and an
all-black 2×2 grid. -/
def C2_grid_one : Grid := Grid.init 1 1 [] []

/-- The all-black grid of claim C2. -/
def C2_grid_black : Grid := Grid.init 2 2 [[4, 4], [4, 4]] [[1, 2], [3, 4]]

/-- Shared concrete grid for witnesses: 2×2 with colors white, red / green,
black and values 3, 5 / 2, 2. -/
def Wgrid : Grid := Grid.init 2 2 [[0, 1], [3, 4]] [[3, 5], [2, 2]]

/-- Number of occurrences of an element in a list (multiplicity). -/
def count_occ {α : Type} [DecidableEq α] (a : α) (l : List α) : Nat :=
  (l.filter fun x => x = a).length

/-- The canonical (left/upper cell first) orientation of an unordered pair. -/
def canonical_pair (c1 c2 : Cell) : Pair :=
  if c1.1 < c2.1 ∨ (c1.1 = c2.1 ∧ c1.2 < c2.2) then (c1, c2) else (c2, c1)

/-- One `add_edge` call: `(u, v, capacity, cost)`. -/
abbrev BEdge : Type := Node × Node × Int × Int

/-- Apply a list of `add_edge` calls in order. -/
def apply_edges (g : Graph) (l : List BEdge) : Graph :=
  l.foldl (fun g e => g.add_edge e.1 e.2.1 e.2.2.1 e.2.2.2) g

/-- Directed distinctness of an `add_edge` call list: no ordered pair is
added twice, and no pair is added in both directions (which also rules out
self-loops). -/
def EdgeListOK (l : List BEdge) : Prop :=
  (l.map fun e => (e.1, e.2.1)).Nodup ∧
  ∀ e ∈ l, ∀ e' ∈ l, ¬ (e.1 = e'.2.1 ∧ e.2.1 = e'.1)

/-- The `add_edge` call (if any) that one direction-loop iteration of
`add_edges_from` performs, read off the grid alone. -/
def step_edge (g : Grid) (cell : Cell) (d : Int × Int) : List BEdge :=
  let ni : Int := (cell.1 : Int) + d.1
  let nj : Int := (cell.2 : Int) + d.2
  if 0 ≤ ni ∧ ni < (g.n : Int) ∧ 0 ≤ nj ∧ nj < (g.m : Int) then
    let neighbor : Cell := (ni.toNat, nj.toNat)
    if !g.is_forbidden neighbor.1 neighbor.2 && g.test_pair cell neighbor then
      [(Node.cell cell.1 cell.2, Node.cell neighbor.1 neighbor.2, 1,
        g.cost (cell, neighbor))]
    else []
  else []

/-- The `add_edge` calls of `add_edges_from cell`, read off the grid alone. -/
def cell_edges (g : Grid) (cell : Cell) : List BEdge :=
  directions.flatMap (step_edge g cell)

/-- The even-parity non-forbidden cells, in scan order (the `even_cells`
list of `build_graph`). -/
def even_cells (g : Grid) : List Cell :=
  (grid_cells g).filter fun c =>
    !g.is_forbidden c.1 c.2 && decide ((c.1 + c.2) % 2 = 0)

/-- The odd-parity non-forbidden cells, in scan order (the `odd_cells`
list of `build_graph`). -/
def odd_cells (g : Grid) : List Cell :=
  (grid_cells g).filter fun c =>
    !g.is_forbidden c.1 c.2 && !decide ((c.1 + c.2) % 2 = 0)

/-- The full `add_edge` call sequence of `build_graph`, read off the grid
alone. -/
def build_edge_list (g : Grid) : List BEdge :=
  ((even_cells g).flatMap fun c =>
    (Node.S, Node.cell c.1 c.2, 1, 0) :: cell_edges g c) ++
  (odd_cells g).map fun c => (Node.cell c.1 c.2, Node.T, 1, 0)

/-- The caches of a `SolverBellmanFord` agree with the grid (trivially true
for the empty caches `run` resets to; maintained by every cache fill). -/
def CacheOK (s : SolverBellmanFord) : Prop :=
  (∀ p c, aget? s.cost_cache p = some c → c = s.grid.cost p) ∧
  (∀ ij b, aget? s.forbidden_cache ij = some b → b = s.grid.is_forbidden ij.1 ij.2)

/-- Structural alignment of the five dictionaries of a `Graph`: they share
their (duplicate-free) key set, each node's adjacency list equals its rows'
key lists, and all rows are duplicate-free. -/
structure AlignInv (G : Graph) : Prop where
  keys_nodup : (akeys G.capacity).Nodup
  keys_flow : akeys G.flow = akeys G.capacity
  keys_cost : akeys G.cost = akeys G.capacity
  keys_adj : akeys G.adj_list = akeys G.capacity
  adj_align : ∀ u, aget? G.adj_list u = (aget? G.capacity u).map akeys
  flow_align : ∀ u, (aget? G.flow u).map akeys = (aget? G.capacity u).map akeys
  cost_align : ∀ u, (aget? G.cost u).map akeys = (aget? G.capacity u).map akeys
  rows_nodup : ∀ u row, aget? G.capacity u = some row → (akeys row).Nodup

/-- Full characterization of the dictionaries of a graph built from an
`EdgeListOK` sequence of `add_edge` calls. -/
structure BuiltFacts (l : List BEdge) (G : Graph) : Prop where
  align : AlignInv G
  cap_iff : ∀ a b x, dget? G.capacity a b = some x ↔
    ((∃ k, (a, b, x, k) ∈ l) ∨ (x = 0 ∧ ∃ c k, (b, a, c, k) ∈ l))
  cost_iff : ∀ a b x, dget? G.cost a b = some x ↔
    ((∃ c, (a, b, c, x) ∈ l) ∨ (∃ c k, (b, a, c, k) ∈ l ∧ x = -k))
  flow_iff : ∀ a b x, dget? G.flow a b = some x ↔
    (x = 0 ∧ ((∃ c k, (a, b, c, k) ∈ l) ∨ (∃ c k, (b, a, c, k) ∈ l)))

/-- Flow antisymmetry (`flow[v][u] = -flow[u][v]`). -/
def Skew (G : Graph) : Prop :=
  ∀ u v x, dget? G.flow u v = some x → dget? G.flow v u = some (-x)

/-- Every flow value is bounded by its edge's capacity. -/
def FlowLeCap (G : Graph) : Prop :=
  ∀ u v x, dget? G.flow u v = some x →
    ∃ c, dget? G.capacity u v = some c ∧ x ≤ c

/-- Flow conservation: every non-terminal node's flow row sums to 0. -/
def Conserve (source sink : Node) (G : Graph) : Prop :=
  ∀ u row, ¬ u = source → ¬ u = sink → aget? G.flow u = some row →
    (row.map Prod.snd).sum = 0

/-- The flow rows have duplicate-free key lists. -/
def RowsNodupF (G : Graph) : Prop :=
  ∀ u row, aget? G.flow u = some row → (akeys row).Nodup

/-- A residual edge recorded by `bellman_ford`'s predecessor map: present in
the graph with positive residual capacity. -/
def Res (G : Graph) (z w : Node) : Prop :=
  ∃ c fl, dget? G.capacity z w = some c ∧ dget? G.flow z w = some fl ∧ fl < c

/-- The predecessor chains walked by `min_cost_flow`: `PredChain pred source
v l` says the walk from `v` following `pred` reaches `source`, collecting
the edges `l` in walk order. -/
inductive PredChain (pred : AList Node (Option Node)) (source : Node) :
    Node → List (Node × Node) → Prop where
  | nil : PredChain pred source source []
  | cons {v u : Node} {rest : List (Node × Node)} :
      ¬ v = source → aget? pred v = some (some u) →
      PredChain pred source u rest → PredChain pred source v ((u, v) :: rest)

/-- `k` successful augmentations of `mcf_step` starting from a graph. -/
inductive AugSteps (source sink : Node) (bfFuel walkFuel : Nat) (g0 : Graph)
    (tc0 : Int) : Nat → Graph → Int → Prop where
  | refl : AugSteps source sink bfFuel walkFuel g0 tc0 0 g0 tc0
  | step {k : Nat} {g g' : Graph} {tc tc' : Int} :
      AugSteps source sink bfFuel walkFuel g0 tc0 k g tc →
      mcf_step source sink bfFuel walkFuel g tc = .ok (some (g', tc')) →
      AugSteps source sink bfFuel walkFuel g0 tc0 (k + 1) g' tc'

/-- Every predecessor entry records a residual edge of the (unchanged)
graph. -/
def PredInv (g : Graph) (pred : AList Node (Option Node)) : Prop :=
  ∀ w z, aget? pred w = some (some z) → Res g z w

/-- The flow invariants maintained by the successive-shortest-path loop:
skew symmetry, capacity bounds, conservation at non-terminal nodes, and
duplicate-free flow rows. -/
structure FlowInvs (source sink : Node) (G : Graph) : Prop where
  skew : Skew G
  bound : FlowLeCap G
  conserve : Conserve source sink G
  nodup : RowsNodupF G

/-- C1: the claim "`SolverBellmanFord.run()`'s score is ≤ `SolverNaive.run()`'s
score on every grid" fails on the code: on the 1×5 all-white grid with values
`[4, 5, 5, 6, 9]`, the naive solver returns score 7 while the flow solver is
forced to a maximum (2-pair) matching and returns score 11 > 7. -/
theorem C1_flow_score_exceeds_naive :
    (SolverNaive.run (Solver.init C1_grid)).1 = 7 ∧
    (SolverBellmanFord.run (SolverBellmanFord.init C1_grid) 100 100 100).map Prod.fst =
      Except.ok 11 ∧
    ¬ ((11 : Int) ≤ 7) :=
  ⟨by rfl, by rfl, by decide⟩

/-! ## Claim C2 -/

/-- C2: the claim "degenerate grids produce an empty pairing and the sum of
non-forbidden values, not an error" fails on the code: on a 1×1 grid
`bellman_ford` evaluates `dist[sink]` with the sink never registered, and on
an all-black grid it evaluates `self.adj_list[source]` with the source never
registered; both raise `KeyError` (regardless of fuel: the errors are
genuine `KeyError`s, not fuel exhaustion).  The claimed scores (1 and 0)
are never returned. -/
theorem C2_degenerate_grids_raise :
    SolverBellmanFord.run (SolverBellmanFord.init C2_grid_one) 100 100 100 =
      Except.error PyErr.keyError ∧
    SolverBellmanFord.run (SolverBellmanFord.init C2_grid_black) 100 100 100 =
      Except.error PyErr.keyError ∧
    sum_values_non_forbidden C2_grid_one = 1 ∧
    sum_values_non_forbidden C2_grid_black = 0 :=
  ⟨by rfl, by rfl, by rfl, by rfl⟩

/-! ## Claim C10 -/

/-- C10: before any `run()`, a fresh `SolverBellmanFord` has `pairs = []` and
its score is the sum of all non-forbidden values, whereas a fresh base
`Solver` (hence `SolverNaive`) has `pairs = grid.all_pairs()` and its score
adds every valid pair's cost (including overlapping pairs) plus the values
of cells covered by none of them. -/
theorem C10_initial_scores (g : Grid) :
    (SolverBellmanFord.init g).pairs = [] ∧
    (SolverBellmanFord.init g).score = sum_values_non_forbidden g ∧
    (Solver.init g).pairs = g.all_pairs ∧
    (Solver.init g).score =
      ((g.all_pairs).map g.cost).sum +
      (((grid_cells g).filter fun c : Cell =>
          !g.is_forbidden c.1 c.2 && !(used_cells g.all_pairs).contains c).map
        fun c : Cell => g.valueAt c.1 c.2).sum := by
  refine ⟨rfl, ?_, rfl, rfl⟩
  show Solver.score ⟨g, []⟩ = _
  simp only [Solver.score, sum_values_non_forbidden, used_cells]
  simp

/-! ## Claim C4 -/

/-- On the five recognized colors, the combined check used by `test_pair`
(neither color black, colors not forbidden) is exactly the documented
table. -/
lemma color_rules_realizes_table :
    ∀ a < 5, ∀ b < 5,
      (!decide (a = 4) && !decide (b = 4) && !color_rules a b) = allowed_by_table a b := by
  decide

/-- On the five recognized colors, `color_rules` is symmetric away from
black. -/
lemma color_rules_symm :
    ∀ a < 5, ∀ b < 5, a ≠ 4 → b ≠ 4 → color_rules a b = color_rules b a := by
  decide

/-- `non_adjacent` is symmetric. -/
lemma non_adjacent_comm (g : Grid) (c1 c2 : Cell) :
    g.non_adjacent c1 c2 = g.non_adjacent c2 c1 := by
  simp only [Grid.non_adjacent]
  refine if_congr ?_ rfl rfl
  constructor
  · rintro (⟨h1, h2⟩ | ⟨h1, h2⟩)
    · exact Or.inl ⟨h1.symm, by omega⟩
    · exact Or.inr ⟨h1.symm, by omega⟩
  · rintro (⟨h1, h2⟩ | ⟨h1, h2⟩)
    · exact Or.inl ⟨h1.symm, by omega⟩
    · exact Or.inr ⟨h1.symm, by omega⟩

/-- C4: on in-range colors, the color-compatibility check used by
`Grid.test_pair` (both `is_forbidden` guards plus `colors_forbidden`)
realizes the documented symmetric table of spec §4.1, and `test_pair` is
symmetric. -/
theorem C4_color_table (g : Grid) (c1 c2 : Cell)
    (h1 : g.colorAt c1.1 c1.2 < 5) (h2 : g.colorAt c2.1 c2.2 < 5) :
    ((!g.is_forbidden c1.1 c1.2 && !g.is_forbidden c2.1 c2.2 &&
        !g.colors_forbidden c1 c2)
      = allowed_by_table (g.colorAt c1.1 c1.2) (g.colorAt c2.1 c2.2)) ∧
    g.test_pair c1 c2 = g.test_pair c2 c1 := by
  constructor
  · simpa only [Grid.is_forbidden, Grid.colors_forbidden] using
      color_rules_realizes_table _ h1 _ h2
  · simp only [Grid.test_pair, Grid.is_forbidden, Grid.colors_forbidden,
      non_adjacent_comm g c1 c2]
    by_cases e1 : g.colorAt c1.1 c1.2 = 4
    · simp [e1]
    · by_cases e2 : g.colorAt c2.1 c2.2 = 4
      · simp [e2]
      · rw [color_rules_symm _ h1 _ h2 e1 e2]
        simp [e1, e2]

/-- Witness for C4 at a concrete grid and cells. -/
theorem C4_color_table_witness :
    (Wgrid.colorAt 0 0 < 5 ∧ Wgrid.colorAt 0 1 < 5) ∧
    (((!Wgrid.is_forbidden 0 0 && !Wgrid.is_forbidden 0 1 &&
        !Wgrid.colors_forbidden (0, 0) (0, 1))
      = allowed_by_table (Wgrid.colorAt 0 0) (Wgrid.colorAt 0 1)) ∧
     Wgrid.test_pair (0, 0) (0, 1) = Wgrid.test_pair (0, 1) (0, 0)) :=
  ⟨⟨by decide, by decide⟩, C4_color_table Wgrid (0, 0) (0, 1) (by decide) (by decide)⟩

/-! ## Claims C8 and C9: grid preservation and idempotence -/

lemma is_forbidden_cached_grid (s : SolverBellmanFord) (i j : Nat) :
    (s.is_forbidden_cached i j).2.grid = s.grid := by
  unfold SolverBellmanFord.is_forbidden_cached
  cases aget? s.forbidden_cache (i, j) <;> rfl

lemma get_cost_cached_grid (s : SolverBellmanFord) (p : Pair) :
    (s.get_cost_cached p).2.grid = s.grid := by
  unfold SolverBellmanFord.get_cost_cached
  cases aget? s.cost_cache p <;> rfl

lemma add_edge_step_grid (cell : Cell) (s : SolverBellmanFord) (d : Int × Int) :
    (add_edge_step cell s d).grid = s.grid := by
  unfold add_edge_step
  dsimp only
  split
  · split
    · simp only [get_cost_cached_grid, is_forbidden_cached_grid]
    · exact is_forbidden_cached_grid ..
  · rfl

/-- A fold whose step preserves the grid preserves the grid. -/
lemma foldl_grid {α : Type} (F : SolverBellmanFord → α → SolverBellmanFord)
    (h : ∀ s a, (F s a).grid = s.grid) :
    ∀ (l : List α) (s : SolverBellmanFord), (l.foldl F s).grid = s.grid := by
  intro l
  induction l with
  | nil => intro s; rfl
  | cons a t ih => intro s; rw [List.foldl_cons, ih, h]

lemma add_edges_from_grid (s : SolverBellmanFord) (cell : Cell) :
    (s.add_edges_from cell).grid = s.grid := by
  unfold SolverBellmanFord.add_edges_from
  exact foldl_grid _ (add_edge_step_grid cell) directions s

lemma partition_cells_grid (s : SolverBellmanFord) :
    s.partition_cells.1.grid = s.grid := by
  unfold SolverBellmanFord.partition_cells
  generalize grid_cells s.grid = l
  suffices h : ∀ (l : List Cell) (acc : SolverBellmanFord × List Cell × List Cell),
      (l.foldl (fun acc c =>
        let fs := acc.1.is_forbidden_cached c.1 c.2
        if fs.1 then (fs.2, acc.2.1, acc.2.2)
        else if (c.1 + c.2) % 2 = 0 then (fs.2, acc.2.1 ++ [c], acc.2.2)
        else (fs.2, acc.2.1, acc.2.2 ++ [c])) acc).1.grid = acc.1.grid by
    exact h l (s, [], [])
  intro l
  induction l with
  | nil => intro acc; rfl
  | cons c t ih =>
    intro acc
    rw [List.foldl_cons, ih]
    dsimp only
    split
    · exact is_forbidden_cached_grid ..
    · split <;> exact is_forbidden_cached_grid ..

lemma build_graph_grid (s : SolverBellmanFord) :
    s.build_graph.grid = s.grid := by
  unfold SolverBellmanFord.build_graph
  dsimp only
  refine Eq.trans (foldl_grid _ ?_ _ _)
    (Eq.trans (foldl_grid _ ?_ _ _) (partition_cells_grid s))
  · intro s' c; rfl
  · intro s' c; exact Eq.trans (add_edges_from_grid _ c) rfl

lemma run_state_grid (s : SolverBellmanFord) (b w m : Nat) :
    (run_state s b w m).grid = s.grid := by
  unfold run_state SolverBellmanFord.run
  cases hmc : (s.reset.build_graph.graph.min_cost_flow Node.S Node.T b w m) with
  | error e => simp [hmc]
  | ok r =>
    simp only [hmc]
    exact build_graph_grid s.reset

/-- C9: running a solver leaves the grid (hence its `n`, `m`, `color` and
`value` fields) unchanged: `SolverNaive.run` only reassigns `pairs`, and
`SolverBellmanFord.run` only rebuilds its own graph and caches. -/
theorem C9_solvers_leave_grid_unchanged (s : Solver) (sb : SolverBellmanFord)
    (b w m : Nat) :
    (SolverNaive.run s).2.grid = s.grid ∧
    (run_state sb b w m).grid = sb.grid :=
  ⟨rfl, run_state_grid sb b w m⟩

/-- `SolverNaive.run` depends only on the grid. -/
lemma naive_run_congr (s t : Solver) (h : s.grid = t.grid) :
    SolverNaive.run s = SolverNaive.run t := by
  unfold SolverNaive.run
  rw [show s.grid = t.grid from h]

/-- `SolverBellmanFord.reset` depends only on the grid. -/
lemma reset_congr (s t : SolverBellmanFord) (h : s.grid = t.grid) :
    s.reset = t.reset := by
  unfold SolverBellmanFord.reset
  rw [show s.grid = t.grid from h]

/-- `SolverBellmanFord.run` depends only on the grid. -/
lemma bf_run_congr (s t : SolverBellmanFord) (h : s.grid = t.grid) (b w m : Nat) :
    SolverBellmanFord.run s b w m = SolverBellmanFord.run t b w m := by
  unfold SolverBellmanFord.run
  rw [reset_congr s t h]

/-- C8: `run()` is idempotent for both solvers: a second call on the
unchanged grid returns exactly the same result (in particular the same
score), because each invocation discards all previous pair/network/cache
state and rebuilds from the grid alone. -/
theorem C8_run_idempotent (s : Solver) (sb : SolverBellmanFord) (b w m : Nat) :
    SolverNaive.run (SolverNaive.run s).2 = SolverNaive.run s ∧
    SolverBellmanFord.run (run_state sb b w m) b w m =
      SolverBellmanFord.run sb b w m :=
  ⟨naive_run_congr _ _ rfl, bf_run_congr _ _ (run_state_grid sb b w m) b w m⟩

/-! ## Claim C5: properties of `Grid.all_pairs` -/

lemma mem_ite_singleton {α : Type} {c : Prop} [Decidable c] {x a : α} :
    (a ∈ if c then [x] else []) ↔ c ∧ a = x := by
  split <;> simp_all

lemma py_dedup_subset {α : Type} [DecidableEq α] :
    ∀ (l seen : List α) (x : α), x ∈ py_dedup seen l → x ∈ l := by
  intro l
  induction l with
  | nil => intro seen x h; exact absurd h (List.not_mem_nil x)
  | cons y ys ih =>
    intro seen x h
    unfold py_dedup at h
    split at h
    · exact List.mem_cons_of_mem y (ih _ _ h)
    · rcases List.mem_cons.1 h with rfl | h'
      · exact List.mem_cons_self x ys
      · exact List.mem_cons_of_mem y (ih _ _ h')

lemma py_dedup_nodup {α : Type} [DecidableEq α] :
    ∀ (l seen : List α),
      (py_dedup seen l).Nodup ∧ ∀ x ∈ py_dedup seen l, ¬ x ∈ seen := by
  intro l
  induction l with
  | nil => intro seen; exact ⟨List.nodup_nil, by intro x h; cases h⟩
  | cons y ys ih =>
    intro seen
    unfold py_dedup
    split
    · exact ih seen
    · next hy =>
      have hns : ¬ y ∈ seen := by simpa using hy
      obtain ⟨hnd, hsub⟩ := ih (seen ++ [y])
      refine ⟨List.nodup_cons.2 ⟨?_, hnd⟩, ?_⟩
      · intro hmem
        exact hsub y hmem (List.mem_append.2 (Or.inr (List.mem_singleton.2 rfl)))
      · intro x hx
        rcases List.mem_cons.1 hx with rfl | hx'
        · exact hns
        · intro hxs
          exact hsub x hx' (List.mem_append.2 (Or.inl hxs))

lemma py_dedup_mem {α : Type} [DecidableEq α] :
    ∀ (l seen : List α) (x : α), x ∈ l → ¬ x ∈ seen → x ∈ py_dedup seen l := by
  intro l
  induction l with
  | nil => intro seen x h; exact absurd h (List.not_mem_nil x)
  | cons y ys ih =>
    intro seen x h hns
    unfold py_dedup
    rcases List.mem_cons.1 h with rfl | h'
    · have : ¬ seen.contains x := by simpa using hns
      simp only [this, Bool.false_eq_true, if_false]
      exact List.mem_cons_self x _
    · split
      · next hy =>
        exact ih seen x h' hns
      · next hy =>
        by_cases hxy : x = y
        · subst hxy; exact List.mem_cons_self x _
        · refine List.mem_cons_of_mem y (ih _ x h' ?_)
          intro hmem
          rcases List.mem_append.1 hmem with h1 | h1
          · exact hns h1
          · exact hxy (List.mem_singleton.1 h1)

/-- Unpack membership in the `all_pairs` scan. -/
lemma mem_all_pairs_scan {g : Grid} {p : Pair} (h : p ∈ g.all_pairs_scan) :
    (∃ i j, i < g.n ∧ j < g.m ∧ j + 1 < g.m ∧
      g.test_pair (i, j) (i, j + 1) = true ∧ p = ((i, j), (i, j + 1))) ∨
    (∃ i j, i < g.n ∧ j < g.m ∧ i + 1 < g.n ∧
      g.test_pair (i, j) (i + 1, j) = true ∧ p = ((i, j), (i + 1, j))) := by
  simp only [Grid.all_pairs_scan, List.mem_flatMap, List.mem_range, List.mem_append,
    mem_ite_singleton] at h
  obtain ⟨i, hi, j, hj, h⟩ := h
  rcases h with ⟨⟨hb, ht⟩, rfl⟩ | ⟨⟨hb, ht⟩, rfl⟩
  · exact Or.inl ⟨i, j, hi, hj, hb, ht, rfl⟩
  · exact Or.inr ⟨i, j, hi, hj, hb, ht, rfl⟩

/-- Conversely, each generated shape is in the scan. -/
lemma right_pair_mem_scan {g : Grid} {i j : Nat} (hi : i < g.n) (hj1 : j + 1 < g.m)
    (ht : g.test_pair (i, j) (i, j + 1) = true) :
    ((i, j), (i, j + 1)) ∈ g.all_pairs_scan := by
  simp only [Grid.all_pairs_scan, List.mem_flatMap, List.mem_range, List.mem_append,
    mem_ite_singleton]
  exact ⟨i, hi, j, by omega, Or.inl ⟨⟨hj1, ht⟩, rfl⟩⟩

lemma below_pair_mem_scan {g : Grid} {i j : Nat} (hi1 : i + 1 < g.n) (hj : j < g.m)
    (ht : g.test_pair (i, j) (i + 1, j) = true) :
    ((i, j), (i + 1, j)) ∈ g.all_pairs_scan := by
  simp only [Grid.all_pairs_scan, List.mem_flatMap, List.mem_range, List.mem_append,
    mem_ite_singleton]
  exact ⟨i, by omega, j, hj, Or.inr ⟨⟨hi1, ht⟩, rfl⟩⟩

lemma count_occ_eq_zero {α : Type} [DecidableEq α] {a : α} {l : List α}
    (h : ¬ a ∈ l) : count_occ a l = 0 := by
  unfold count_occ
  rw [List.length_eq_zero, List.filter_eq_nil_iff]
  intro x hx
  simp only [decide_eq_true_eq]
  intro hxa
  exact h (hxa ▸ hx)

lemma count_occ_eq_one {α : Type} [DecidableEq α] {a : α} {l : List α}
    (hd : l.Nodup) (h : a ∈ l) : count_occ a l = 1 := by
  induction l with
  | nil => cases h
  | cons x xs ih =>
    obtain ⟨hx, hxs⟩ := List.nodup_cons.1 hd
    rcases List.mem_cons.1 h with rfl | h'
    · unfold count_occ
      simp only [List.filter_cons, decide_eq_true_eq, if_pos rfl]
      have : count_occ a xs = 0 := count_occ_eq_zero hx
      unfold count_occ at this
      simp_all
    · have hxa : ¬ (x = a) := fun hh => hx (hh ▸ h')
      unfold count_occ
      simp only [List.filter_cons]
      rw [if_neg (by simpa using hxa)]
      exact ih hxs h'

/-- A valid pair is adjacent: one cell is the right or below neighbor of the
other. -/
lemma test_pair_shape {g : Grid} {c1 c2 : Cell} (ht : g.test_pair c1 c2 = true) :
    (c1.1 = c2.1 ∧ (c2.2 = c1.2 + 1 ∨ c1.2 = c2.2 + 1)) ∨
    (c1.2 = c2.2 ∧ (c2.1 = c1.1 + 1 ∨ c1.1 = c2.1 + 1)) := by
  have hna : g.non_adjacent c1 c2 = false := by
    simp only [Grid.test_pair, Bool.not_or, Bool.and_eq_true, Bool.not_eq_true'] at ht
    exact ht.1.2
  simp only [Grid.non_adjacent] at hna
  split at hna
  · next hcond =>
    rcases hcond with ⟨h1, h2⟩ | ⟨h1, h2⟩
    · exact Or.inr ⟨h1, by omega⟩
    · exact Or.inl ⟨h1, by omega⟩
  · cases hna

/-- C5: every pair returned by `all_pairs` is valid, contains no forbidden
cell, the list has no duplicates, pairs are oriented with the left/upper
cell first, and (on grids with in-range colors) every valid unordered
adjacent pair of in-bounds cells appears exactly once, in its canonical
orientation only. -/
theorem C5_all_pairs_exact (g : Grid)
    (hwf : ∀ i < g.n, ∀ j < g.m, g.colorAt i j < 5) :
    (∀ p ∈ g.all_pairs, g.test_pair p.1 p.2 = true) ∧
    (∀ p ∈ g.all_pairs, g.is_forbidden p.1.1 p.1.2 = false ∧
      g.is_forbidden p.2.1 p.2.2 = false) ∧
    g.all_pairs.Nodup ∧
    (∀ p ∈ g.all_pairs, p.1.1 < p.2.1 ∨ (p.1.1 = p.2.1 ∧ p.1.2 < p.2.2)) ∧
    (∀ c1 c2 : Cell, c1.1 < g.n → c1.2 < g.m → c2.1 < g.n → c2.2 < g.m →
      g.test_pair c1 c2 = true →
      count_occ (canonical_pair c1 c2) g.all_pairs = 1 ∧
      count_occ ((canonical_pair c1 c2).2, (canonical_pair c1 c2).1) g.all_pairs = 0) := by
  have sound : ∀ p ∈ g.all_pairs, g.test_pair p.1 p.2 = true := by
    intro p hp
    rcases mem_all_pairs_scan (py_dedup_subset _ _ _ hp) with
      ⟨i, j, _, _, _, ht, rfl⟩ | ⟨i, j, _, _, _, ht, rfl⟩ <;> exact ht
  have orient : ∀ p ∈ g.all_pairs,
      p.1.1 < p.2.1 ∨ (p.1.1 = p.2.1 ∧ p.1.2 < p.2.2) := by
    intro p hp
    rcases mem_all_pairs_scan (py_dedup_subset _ _ _ hp) with
      ⟨i, j, _, _, _, _, rfl⟩ | ⟨i, j, _, _, _, _, rfl⟩
    · exact Or.inr ⟨rfl, Nat.lt_succ_self j⟩
    · exact Or.inl (Nat.lt_succ_self i)
  refine ⟨sound, ?_, (py_dedup_nodup _ _).1, orient, ?_⟩
  · intro p hp
    have ht := sound p hp
    simp only [Grid.test_pair, Bool.not_or, Bool.and_eq_true, Bool.not_eq_true'] at ht
    exact ⟨ht.1.1.1, ht.1.1.2⟩
  · intro c1 c2 h1n h1m h2n h2m ht
    -- symmetry of `test_pair`, available since all colors are in range
    have hsymm := (C4_color_table g c1 c2 (hwf _ h1n _ h1m) (hwf _ h2n _ h2m)).2
    -- the canonical orientation is in the scan, and is lex-increasing
    have hmem : canonical_pair c1 c2 ∈ g.all_pairs_scan ∧
        ((canonical_pair c1 c2).1.1 < (canonical_pair c1 c2).2.1 ∨
         ((canonical_pair c1 c2).1.1 = (canonical_pair c1 c2).2.1 ∧
          (canonical_pair c1 c2).1.2 < (canonical_pair c1 c2).2.2)) := by
      rcases test_pair_shape ht with ⟨hr, hc | hc⟩ | ⟨hc, hr | hr⟩
      · -- c2 is the right neighbor of c1
        have hcan : canonical_pair c1 c2 = (c1, c2) := by
          unfold canonical_pair
          exact if_pos (Or.inr ⟨hr, by omega⟩)
        rw [hcan]
        have hc2 : c2 = (c1.1, c1.2 + 1) := Prod.ext (by omega) (by omega)
        refine ⟨?_, Or.inr ⟨show c1.1 = c2.1 by omega, show c1.2 < c2.2 by omega⟩⟩
        have := right_pair_mem_scan (g := g) (i := c1.1) (j := c1.2) h1n
          (by omega) (by rw [← hc2]; exact ht)
        simpa [← hc2] using this
      · -- c2 is the left neighbor of c1
        have hcan : canonical_pair c1 c2 = (c2, c1) := by
          unfold canonical_pair
          exact if_neg (by omega)
        rw [hcan]
        have hc1 : c1 = (c2.1, c2.2 + 1) := Prod.ext (by omega) (by omega)
        refine ⟨?_, Or.inr ⟨show c2.1 = c1.1 by omega, show c2.2 < c1.2 by omega⟩⟩
        have := right_pair_mem_scan (g := g) (i := c2.1) (j := c2.2) h2n
          (by omega) (by rw [← hc1]; exact hsymm ▸ ht)
        simpa [← hc1] using this
      · -- c2 is the below neighbor of c1
        have hcan : canonical_pair c1 c2 = (c1, c2) := by
          unfold canonical_pair
          exact if_pos (Or.inl (by omega))
        rw [hcan]
        have hc2 : c2 = (c1.1 + 1, c1.2) := Prod.ext (by omega) (by omega)
        refine ⟨?_, Or.inl (show c1.1 < c2.1 by omega)⟩
        have := below_pair_mem_scan (g := g) (i := c1.1) (j := c1.2)
          (by omega) h1m (by rw [← hc2]; exact ht)
        simpa [← hc2] using this
      · -- c2 is the above neighbor of c1
        have hcan : canonical_pair c1 c2 = (c2, c1) := by
          unfold canonical_pair
          exact if_neg (by omega)
        rw [hcan]
        have hc1 : c1 = (c2.1 + 1, c2.2) := Prod.ext (by omega) (by omega)
        refine ⟨?_, Or.inl (show c2.1 < c1.1 by omega)⟩
        have := below_pair_mem_scan (g := g) (i := c2.1) (j := c2.2)
          (by omega) h2m (by rw [← hc1]; exact hsymm ▸ ht)
        simpa [← hc1] using this
    constructor
    · exact count_occ_eq_one (py_dedup_nodup _ _).1
        (py_dedup_mem _ _ _ hmem.1 (List.not_mem_nil _))
    · refine count_occ_eq_zero ?_
      intro hrev
      have horient := orient _ hrev
      dsimp only at horient
      rcases hmem.2 with h | ⟨h1, h2⟩ <;> rcases horient with h' | ⟨h1', h2'⟩ <;> omega

/-- Witness for C5 at a concrete grid. -/
theorem C5_all_pairs_exact_witness :
    (∀ i < Wgrid.n, ∀ j < Wgrid.m, Wgrid.colorAt i j < 5) ∧
    ((∀ p ∈ Wgrid.all_pairs, Wgrid.test_pair p.1 p.2 = true) ∧
     (∀ p ∈ Wgrid.all_pairs, Wgrid.is_forbidden p.1.1 p.1.2 = false ∧
       Wgrid.is_forbidden p.2.1 p.2.2 = false) ∧
     Wgrid.all_pairs.Nodup ∧
     (∀ p ∈ Wgrid.all_pairs, p.1.1 < p.2.1 ∨ (p.1.1 = p.2.1 ∧ p.1.2 < p.2.2)) ∧
     (∀ c1 c2 : Cell, c1.1 < Wgrid.n → c1.2 < Wgrid.m → c2.1 < Wgrid.n →
       c2.2 < Wgrid.m → Wgrid.test_pair c1 c2 = true →
       count_occ (canonical_pair c1 c2) Wgrid.all_pairs = 1 ∧
       count_occ ((canonical_pair c1 c2).2, (canonical_pair c1 c2).1)
         Wgrid.all_pairs = 0)) :=
  ⟨by decide, C5_all_pairs_exact Wgrid (by decide)⟩

/-! ## Association-list lemmas -/

section AListLemmas

variable {κ ν : Type} [DecidableEq κ]

lemma aget?_aset_self (l : AList κ ν) (k : κ) (v : ν) :
    aget? (aset l k v) k = some v := by
  induction l with
  | nil => simp [aset, aget?]
  | cons p t ih =>
    obtain ⟨k0, v0⟩ := p
    by_cases h : k0 = k
    · subst h; simp [aset, aget?]
    · simpa [aset, aget?, h] using ih

lemma aget?_aset_ne (l : AList κ ν) (k k' : κ) (v : ν) (h : ¬ k = k') :
    aget? (aset l k v) k' = aget? l k' := by
  induction l with
  | nil => simp [aset, aget?, h]
  | cons p t ih =>
    obtain ⟨k0, v0⟩ := p
    by_cases h0 : k0 = k
    · subst h0; simp [aset, aget?, h]
    · by_cases h1 : k0 = k'
      · subst h1; simp [aset, aget?, h0]
      · simpa [aset, aget?, h0, h1] using ih

lemma aget?_isSome_iff_mem (l : AList κ ν) (k : κ) :
    (aget? l k).isSome = true ↔ k ∈ akeys l := by
  induction l with
  | nil => simp [aget?, akeys]
  | cons p t ih =>
    obtain ⟨k0, v0⟩ := p
    by_cases h : k0 = k
    · subst h; simp [aget?, akeys]
    · simp only [aget?, if_neg h, akeys, List.map_cons, List.mem_cons]
      rw [akeys] at ih
      rw [ih]
      constructor
      · exact Or.inr
      · rintro (rfl | hm)
        · exact absurd rfl h
        · exact hm

lemma aget?_eq_none_iff (l : AList κ ν) (k : κ) :
    aget? l k = none ↔ ¬ k ∈ akeys l := by
  rw [← aget?_isSome_iff_mem]
  cases aget? l k <;> simp

lemma akeys_aset_mem (l : AList κ ν) (k : κ) (v : ν) (h : k ∈ akeys l) :
    akeys (aset l k v) = akeys l := by
  induction l with
  | nil => cases h
  | cons p t ih =>
    obtain ⟨k0, v0⟩ := p
    by_cases h0 : k0 = k
    · subst h0; simp [aset, akeys]
    · simp only [akeys, List.map_cons, List.mem_cons] at h
      rcases h with h1 | h1
      · exact absurd h1.symm h0
      · simp only [aset, if_neg h0, akeys, List.map_cons]
        simp only [akeys] at ih
        rw [ih h1]

lemma akeys_aset_not_mem (l : AList κ ν) (k : κ) (v : ν) (h : ¬ k ∈ akeys l) :
    akeys (aset l k v) = akeys l ++ [k] := by
  induction l with
  | nil => simp [aset, akeys]
  | cons p t ih =>
    obtain ⟨k0, v0⟩ := p
    simp only [akeys, List.map_cons, List.mem_cons] at h
    push_neg at h
    simp only [akeys] at ih
    simp only [aset, if_neg (Ne.symm h.1), akeys, List.map_cons, List.cons_append]
    rw [ih h.2]

lemma akeys_aset_nodup (l : AList κ ν) (k : κ) (v : ν) (h : (akeys l).Nodup) :
    (akeys (aset l k v)).Nodup := by
  by_cases hm : k ∈ akeys l
  · rw [akeys_aset_mem l k v hm]; exact h
  · rw [akeys_aset_not_mem l k v hm]
    refine List.Nodup.append h (List.nodup_singleton k) ?_
    intro a ha hb
    rw [List.mem_singleton] at hb
    subst hb
    exact hm ha

lemma aget?_append (l1 l2 : AList κ ν) (k : κ) :
    aget? (l1 ++ l2) k =
      match aget? l1 k with
      | some v => some v
      | none => aget? l2 k := by
  induction l1 with
  | nil => simp [aget?]
  | cons p t ih =>
    obtain ⟨k0, v0⟩ := p
    by_cases h : k0 = k
    · simp [aget?, h]
    · simpa [aget?, h] using ih

lemma mem_of_aget?_eq_some {l : AList κ ν} {k : κ} {v : ν}
    (h : aget? l k = some v) : (k, v) ∈ l := by
  induction l with
  | nil => cases h
  | cons p t ih =>
    obtain ⟨k0, v0⟩ := p
    by_cases h0 : k0 = k
    · rw [aget?, if_pos h0] at h
      cases h
      subst h0
      exact List.mem_cons_self _ _
    · rw [aget?, if_neg h0] at h
      exact List.mem_cons_of_mem _ (ih h)

lemma aget?_eq_some_of_mem_nodup {l : AList κ ν} {k : κ} {v : ν}
    (hnd : (akeys l).Nodup) (h : (k, v) ∈ l) : aget? l k = some v := by
  induction l with
  | nil => cases h
  | cons p t ih =>
    obtain ⟨k0, v0⟩ := p
    simp only [akeys, List.map_cons, List.nodup_cons] at hnd
    rcases List.mem_cons.1 h with h1 | h1
    · cases h1
      rw [aget?, if_pos rfl]
    · by_cases h0 : k0 = k
      · subst h0
        exact absurd (List.mem_map_of_mem Prod.fst h1) hnd.1
      · rw [aget?, if_neg h0]
        exact ih (by simpa [akeys] using hnd.2) h1

/-- `aset` on an existing key shifts the sum of values by the difference. -/
lemma sum_snd_aset (l : AList κ Int) (k : κ) (v x : Int)
    (hnd : (akeys l).Nodup) (h : aget? l k = some x) :
    ((aset l k v).map Prod.snd).sum = (l.map Prod.snd).sum - x + v := by
  induction l with
  | nil => cases h
  | cons p t ih =>
    obtain ⟨k0, v0⟩ := p
    simp only [akeys, List.map_cons, List.nodup_cons] at hnd
    by_cases h0 : k0 = k
    · rw [aget?, if_pos h0] at h
      cases h
      simp only [aset, if_pos h0, List.map_cons, List.sum_cons]
      ring
    · rw [aget?, if_neg h0] at h
      simp only [aset, if_neg h0, List.map_cons, List.sum_cons]
      rw [ih (by simpa [akeys] using hnd.2) h]
      ring

end AListLemmas

lemma sum_snd_zero {κ : Type} {l : AList κ Int} (h : ∀ p ∈ l, p.2 = (0 : Int)) :
    (l.map Prod.snd).sum = 0 := by
  induction l with
  | nil => rfl
  | cons p t ih =>
    simp only [List.map_cons, List.sum_cons]
    rw [h p (List.mem_cons_self _ _), ih fun q hq => h q (List.mem_cons_of_mem _ hq)]
    ring

lemma sum_snd_le_length {κ : Type} {l : AList κ Int} (h : ∀ p ∈ l, p.2 ≤ (1 : Int)) :
    (l.map Prod.snd).sum ≤ l.length := by
  induction l with
  | nil => simp
  | cons p t ih =>
    simp only [List.map_cons, List.sum_cons, List.length_cons]
    have h1 := h p (List.mem_cons_self _ _)
    have h2 := ih fun q hq => h q (List.mem_cons_of_mem _ hq)
    push_cast
    omega

/-! ## Pointwise lemmas for the nested graph dictionaries -/

lemma dget?_append_empty_row (m : AList Node (AList Node Int)) (node : Node)
    (a b : Node) : dget? (m ++ [(node, [])]) a b = dget? m a b := by
  unfold dget?
  rw [aget?_append]
  cases h : aget? m a with
  | some row => rfl
  | none =>
    simp only []
    unfold aget?
    by_cases hn : node = a
    · rw [if_pos hn]; rfl
    · rw [if_neg hn]; rfl

lemma dget?_dset (m : AList Node (AList Node Int)) (u v : Node) (x : Int)
    (a b : Node) :
    dget? (dset m u v x) a b =
      if a = u ∧ b = v then some x else dget? m a b := by
  unfold dget? dset
  by_cases ha : a = u
  · subst ha
    rw [aget?_aset_self]
    by_cases hb : b = v
    · subst hb
      rw [if_pos ⟨rfl, rfl⟩]
      simp [aget?_aset_self]
    · rw [if_neg (fun hc => hb hc.2)]
      simp only [Option.some_bind]
      rw [aget?_aset_ne _ _ _ _ (fun hc => hb hc.symm)]
      cases h : aget? m a with
      | some row => rfl
      | none => simp [aget?]
  · rw [aget?_aset_ne _ _ _ _ (fun hc => ha hc.symm)]
    rw [if_neg (fun hc => ha hc.1)]

lemma dmod?_inv {m m' : AList Node (AList Node Int)} {u v : Node} {f : Int → Int}
    (h : dmod? m u v f = some m') :
    ∃ row x, aget? m u = some row ∧ aget? row v = some x ∧
      m' = aset m u (aset row v (f x)) := by
  unfold dmod? at h
  cases hu : aget? m u with
  | none => simp [hu] at h
  | some row =>
    simp only [hu] at h
    cases hv : aget? row v with
    | none => simp [hv] at h
    | some x =>
      simp only [hv, Option.some.injEq] at h
      exact ⟨row, x, rfl, hv, h.symm⟩

lemma dget?_dmod? {m m' : AList Node (AList Node Int)} {u v : Node} {f : Int → Int}
    (h : dmod? m u v f = some m') (a b : Node) :
    dget? m' a b =
      if a = u ∧ b = v then (dget? m a b).map f else dget? m a b := by
  obtain ⟨row, x, hu, hv, rfl⟩ := dmod?_inv h
  unfold dget?
  by_cases ha : a = u
  · subst ha
    rw [aget?_aset_self, hu]
    by_cases hb : b = v
    · subst hb
      rw [if_pos ⟨rfl, rfl⟩]
      simp [aget?_aset_self, hv]
    · rw [if_neg (fun hc => hb hc.2)]
      simp only [Option.some_bind]
      rw [aget?_aset_ne _ _ _ _ (fun hc => hb hc.symm)]
  · rw [aget?_aset_ne _ _ _ _ (fun hc => ha hc.symm)]
    rw [if_neg (fun hc => ha hc.1)]

lemma dmod?_keys {m m' : AList Node (AList Node Int)} {u v : Node} {f : Int → Int}
    (h : dmod? m u v f = some m') :
    akeys m' = akeys m ∧
    ∀ a, (aget? m' a).map akeys = (aget? m a).map akeys := by
  obtain ⟨row, x, hu, hv, rfl⟩ := dmod?_inv h
  constructor
  · exact akeys_aset_mem _ _ _ ((aget?_isSome_iff_mem m u).1 (by rw [hu]; rfl))
  · intro a
    by_cases ha : a = u
    · subst ha
      rw [aget?_aset_self, hu]
      show some (akeys (aset row v (f x))) = some (akeys row)
      rw [akeys_aset_mem _ _ _ ((aget?_isSome_iff_mem row v).1 (by rw [hv]; rfl))]
    · rw [aget?_aset_ne _ _ _ _ (fun hc => ha hc.symm)]

lemma dmod?_row_sum {m m' : AList Node (AList Node Int)} {u v : Node} {f : Int → Int}
    (h : dmod? m u v f = some m')
    (hnd : ∀ a row, aget? m a = some row → (akeys row).Nodup) :
    ∀ a row' row, aget? m' a = some row' → aget? m a = some row →
      (row'.map Prod.snd).sum =
        if a = u then (row.map Prod.snd).sum - (aget? row v).getD 0 +
          f ((aget? row v).getD 0)
        else (row.map Prod.snd).sum := by
  obtain ⟨row0, x, hu, hv, rfl⟩ := dmod?_inv h
  intro a row' row ha' ha
  by_cases hau : a = u
  · subst hau
    rw [aget?_aset_self] at ha'
    rw [hu] at ha
    cases ha
    cases ha'
    rw [if_pos rfl, hv]
    simp only [Option.getD_some]
    exact sum_snd_aset _ _ _ _ (hnd _ _ hu) hv
  · rw [aget?_aset_ne _ _ _ _ (fun hc => hau hc.symm)] at ha'
    rw [ha'] at ha
    cases ha
    rw [if_neg hau]

/-! Pointwise description of `Graph.add_edge` on the three numeric dicts
(for distinct endpoints; `build_graph` never adds a self-loop). -/

lemma add_edge_capacity (g : Graph) (u v : Node) (cap cost : Int) (hne : ¬ u = v)
    (a b : Node) :
    dget? (g.add_edge u v cap cost).capacity a b =
      if a = u ∧ b = v then some cap
      else if a = v ∧ b = u then some 0
      else dget? g.capacity a b := by
  unfold Graph.add_edge
  dsimp only
  rw [dget?_dset, dget?_dset]
  by_cases h1 : a = v ∧ b = u
  · rw [if_pos h1, if_neg (fun hc : a = u ∧ b = v => hne (hc.1.symm.trans h1.1)), if_pos h1]
  · rw [if_neg h1]
    by_cases h2 : a = u ∧ b = v
    · rw [if_pos h2, if_pos h2]
    · rw [if_neg h2, if_neg h2]
      unfold Graph.ensure_node
      split
      · split
        · rfl
        · exact dget?_append_empty_row _ _ a b
      · split
        · exact dget?_append_empty_row _ _ a b
        · rw [dget?_append_empty_row, dget?_append_empty_row]

lemma add_edge_cost (g : Graph) (u v : Node) (cap cost : Int) (hne : ¬ u = v)
    (a b : Node) :
    dget? (g.add_edge u v cap cost).cost a b =
      if a = u ∧ b = v then some cost
      else if a = v ∧ b = u then some (-cost)
      else dget? g.cost a b := by
  unfold Graph.add_edge
  dsimp only
  rw [dget?_dset, dget?_dset]
  by_cases h1 : a = v ∧ b = u
  · rw [if_pos h1, if_neg (fun hc : a = u ∧ b = v => hne (hc.1.symm.trans h1.1)), if_pos h1]
  · rw [if_neg h1]
    by_cases h2 : a = u ∧ b = v
    · rw [if_pos h2, if_pos h2]
    · rw [if_neg h2, if_neg h2]
      unfold Graph.ensure_node
      split
      · split
        · rfl
        · exact dget?_append_empty_row _ _ a b
      · split
        · exact dget?_append_empty_row _ _ a b
        · rw [dget?_append_empty_row, dget?_append_empty_row]

lemma add_edge_flow (g : Graph) (u v : Node) (cap cost : Int) (hne : ¬ u = v)
    (a b : Node) :
    dget? (g.add_edge u v cap cost).flow a b =
      if a = u ∧ b = v then some 0
      else if a = v ∧ b = u then some 0
      else dget? g.flow a b := by
  unfold Graph.add_edge
  dsimp only
  rw [dget?_dset, dget?_dset]
  by_cases h1 : a = v ∧ b = u
  · rw [if_pos h1, if_neg (fun hc : a = u ∧ b = v => hne (hc.1.symm.trans h1.1)), if_pos h1]
  · rw [if_neg h1]
    by_cases h2 : a = u ∧ b = v
    · rw [if_pos h2, if_pos h2]
    · rw [if_neg h2, if_neg h2]
      unfold Graph.ensure_node
      split
      · split
        · rfl
        · exact dget?_append_empty_row _ _ a b
      · split
        · exact dget?_append_empty_row _ _ a b
        · rw [dget?_append_empty_row, dget?_append_empty_row]

/-! ## Graphs built by a sequence of `add_edge` calls -/

lemma align_empty : AlignInv Graph.empty := by
  constructor <;> simp [Graph.empty, akeys, aget?]

lemma akeys_append {κ ν : Type} (l1 l2 : AList κ ν) :
    akeys (l1 ++ l2) = akeys l1 ++ akeys l2 := by
  simp [akeys]

lemma akeys_append_single {κ ν : Type} (l : AList κ ν) (k : κ) (v : ν) :
    akeys (l ++ [(k, v)]) = akeys l ++ [k] := by
  simp [akeys]

lemma aget?_append_single {ν : Type} (l : AList Node ν) (n : Node) (v : ν)
    (a : Node) :
    aget? (l ++ [(n, v)]) a =
      match aget? l a with
      | some r => some r
      | none => if n = a then some v else none := by
  rw [aget?_append]
  cases aget? l a with
  | some r => rfl
  | none =>
    show aget? [(n, v)] a = _
    by_cases h : n = a
    · simp [aget?, h]
    · simp [aget?, h]

lemma align_ensure (G : Graph) (n : Node) (h : AlignInv G) :
    AlignInv (G.ensure_node n) ∧
    (aget? (G.ensure_node n).capacity n).isSome = true := by
  unfold Graph.ensure_node
  split
  · next hp => exact ⟨h, hp⟩
  · next hp =>
    have hn : ¬ n ∈ akeys G.capacity := by
      rw [← aget?_isSome_iff_mem]
      simpa using hp
    constructor
    · constructor
      · rw [akeys_append_single]
        refine List.Nodup.append h.keys_nodup (List.nodup_singleton n) ?_
        intro a ha hb
        rw [List.mem_singleton] at hb
        subst hb
        exact hn ha
      · rw [akeys_append_single, akeys_append_single, h.keys_flow]
      · rw [akeys_append_single, akeys_append_single, h.keys_cost]
      · rw [akeys_append_single, akeys_append_single, h.keys_adj]
      · intro u
        rw [aget?_append_single, aget?_append_single]
        cases hc : aget? G.capacity u with
        | some row =>
          have := h.adj_align u
          rw [hc] at this
          cases ha : aget? G.adj_list u with
          | some r => rw [ha] at this; exact this
          | none => rw [ha] at this; cases this
        | none =>
          have := h.adj_align u
          rw [hc] at this
          cases ha : aget? G.adj_list u with
          | some r => rw [ha] at this; cases this
          | none =>
            simp only []
            by_cases hna : n = u
            · rw [if_pos hna, if_pos hna]; rfl
            · rw [if_neg hna, if_neg hna]; rfl
      · intro u
        rw [aget?_append_single, aget?_append_single]
        cases hc : aget? G.capacity u with
        | some row =>
          have := h.flow_align u
          rw [hc] at this
          cases ha : aget? G.flow u with
          | some r => rw [ha] at this; exact this
          | none => rw [ha] at this; cases this
        | none =>
          have := h.flow_align u
          rw [hc] at this
          cases ha : aget? G.flow u with
          | some r => rw [ha] at this; cases this
          | none => simp only []
      · intro u
        rw [aget?_append_single, aget?_append_single]
        cases hc : aget? G.capacity u with
        | some row =>
          have := h.cost_align u
          rw [hc] at this
          cases ha : aget? G.cost u with
          | some r => rw [ha] at this; exact this
          | none => rw [ha] at this; cases this
        | none =>
          have := h.cost_align u
          rw [hc] at this
          cases ha : aget? G.cost u with
          | some r => rw [ha] at this; cases this
          | none => simp only []
      · intro u row hrow
        rw [aget?_append_single] at hrow
        cases hc : aget? G.capacity u with
        | some row0 =>
          rw [hc] at hrow
          cases hrow
          exact h.rows_nodup u _ hc
        | none =>
          rw [hc] at hrow
          simp only [] at hrow
          by_cases hna : n = u
          · rw [if_pos hna] at hrow
            cases hrow
            simp [akeys]
          · rw [if_neg hna] at hrow
            cases hrow
    · rw [aget?_append_single]
      cases hc : aget? G.capacity n with
      | some row => rfl
      | none => simp

lemma dget?_ensure_capacity (G : Graph) (n a b : Node) :
    dget? (G.ensure_node n).capacity a b = dget? G.capacity a b := by
  unfold Graph.ensure_node
  split
  · rfl
  · exact dget?_append_empty_row _ _ a b

lemma aget?_ensure_capacity_isSome (G : Graph) (n a : Node)
    (h : (aget? G.capacity a).isSome = true) :
    (aget? (G.ensure_node n).capacity a).isSome = true := by
  unfold Graph.ensure_node
  split
  · exact h
  · rw [aget?_append_single]
    cases hc : aget? G.capacity a with
    | some r => rfl
    | none => rw [hc] at h; cases h

/-- Inserting a fresh directed edge entry `(u, w)` into all per-node maps
preserves the alignment invariant (this is the shape of both halves of
`add_edge`). -/
lemma align_insert (G : Graph) (u w : Node) (c k : Int) (h : AlignInv G)
    (hu : (aget? G.capacity u).isSome = true)
    (hfresh : dget? G.capacity u w = none) :
    AlignInv { G with
      capacity := dset G.capacity u w c
      cost := dset G.cost u w k
      flow := dset G.flow u w 0
      neigh := sadd G.neigh u w
      adj_list := ladd G.adj_list u w } := by
  cases hcap : aget? G.capacity u with
  | none => rw [hcap] at hu; cases hu
  | some row_c =>
  have humem : u ∈ akeys G.capacity := (aget?_isSome_iff_mem _ _).1 (by rw [hcap]; rfl)
  have hwrow : ¬ w ∈ akeys row_c := by
    unfold dget? at hfresh
    rw [hcap] at hfresh
    simp only [Option.some_bind] at hfresh
    rw [← aget?_isSome_iff_mem, hfresh]
    simp
  have hadj : aget? G.adj_list u = some (akeys row_c) := by
    have := h.adj_align u
    rw [hcap] at this
    exact this
  obtain ⟨row_f, hflow, hfkeys⟩ : ∃ r, aget? G.flow u = some r ∧ akeys r = akeys row_c := by
    have := h.flow_align u
    rw [hcap] at this
    cases hf : aget? G.flow u with
    | none => rw [hf] at this; cases this
    | some r =>
      rw [hf] at this
      exact ⟨r, rfl, by simpa using this⟩
  obtain ⟨row_k, hcost, hkkeys⟩ : ∃ r, aget? G.cost u = some r ∧ akeys r = akeys row_c := by
    have := h.cost_align u
    rw [hcap] at this
    cases hf : aget? G.cost u with
    | none => rw [hf] at this; cases this
    | some r =>
      rw [hf] at this
      exact ⟨r, rfl, by simpa using this⟩
  have hwf : ¬ w ∈ akeys row_f := by rw [hfkeys]; exact hwrow
  have hwk : ¬ w ∈ akeys row_k := by rw [hkkeys]; exact hwrow
  have humem_f : u ∈ akeys G.flow := by rw [h.keys_flow]; exact humem
  have humem_k : u ∈ akeys G.cost := by rw [h.keys_cost]; exact humem
  have humem_a : u ∈ akeys G.adj_list := by rw [h.keys_adj]; exact humem
  constructor <;> dsimp only [dset, ladd, sadd]
  · rw [akeys_aset_mem _ _ _ humem]; exact h.keys_nodup
  · rw [akeys_aset_mem _ _ _ humem, akeys_aset_mem _ _ _ humem_f]; exact h.keys_flow
  · rw [akeys_aset_mem _ _ _ humem, akeys_aset_mem _ _ _ humem_k]; exact h.keys_cost
  · show akeys (aset G.adj_list u _) = _
    rw [akeys_aset_mem _ _ _ humem, akeys_aset_mem _ _ _ humem_a]; exact h.keys_adj
  · intro a
    by_cases ha : a = u
    · subst ha
      show aget? (aset G.adj_list a _) a = _
      rw [aget?_aset_self, aget?_aset_self, hadj]
      simp only [hcap, Option.getD_some, Option.map_some']
      rw [akeys_aset_not_mem _ _ _ hwrow]
    · show aget? (aset G.adj_list u _) a = _
      rw [aget?_aset_ne _ _ _ _ (fun hc => ha hc.symm),
          aget?_aset_ne _ _ _ _ (fun hc => ha hc.symm)]
      exact h.adj_align a
  · intro a
    by_cases ha : a = u
    · subst ha
      rw [aget?_aset_self, aget?_aset_self, hflow]
      simp only [hcap, Option.getD_some, Option.map_some']
      rw [akeys_aset_not_mem _ _ _ hwf, akeys_aset_not_mem _ _ _ hwrow, hfkeys]
    · rw [aget?_aset_ne _ _ _ _ (fun hc => ha hc.symm),
          aget?_aset_ne _ _ _ _ (fun hc => ha hc.symm)]
      exact h.flow_align a
  · intro a
    by_cases ha : a = u
    · subst ha
      rw [aget?_aset_self, aget?_aset_self, hcost]
      simp only [hcap, Option.getD_some, Option.map_some']
      rw [akeys_aset_not_mem _ _ _ hwk, akeys_aset_not_mem _ _ _ hwrow, hkkeys]
    · rw [aget?_aset_ne _ _ _ _ (fun hc => ha hc.symm),
          aget?_aset_ne _ _ _ _ (fun hc => ha hc.symm)]
      exact h.cost_align a
  · intro a row hrow
    by_cases ha : a = u
    · subst ha
      rw [aget?_aset_self] at hrow
      rw [hcap] at hrow
      simp only [Option.getD_some] at hrow
      cases hrow
      rw [akeys_aset_not_mem _ _ _ hwrow]
      refine List.Nodup.append (h.rows_nodup _ _ hcap) (List.nodup_singleton w) ?_
      intro x hx hb
      rw [List.mem_singleton] at hb
      subst hb
      exact hwrow hx
    · rw [aget?_aset_ne _ _ _ _ (fun hc => ha hc.symm)] at hrow
      exact h.rows_nodup a row hrow

lemma align_add_edge (G : Graph) (u v : Node) (cap cost : Int) (h : AlignInv G)
    (hne : ¬ u = v) (hfw : dget? G.capacity u v = none)
    (hbw : dget? G.capacity v u = none) :
    AlignInv (G.add_edge u v cap cost) := by
  unfold Graph.add_edge
  dsimp only
  obtain ⟨h1, _⟩ := align_ensure G u h
  obtain ⟨h2, hv2⟩ := align_ensure (G.ensure_node u) v h1
  have hu2 : (aget? ((G.ensure_node u).ensure_node v).capacity u).isSome = true := by
    refine aget?_ensure_capacity_isSome _ v u ?_
    have := (align_ensure G u h).2
    exact this
  have hfw2 : dget? ((G.ensure_node u).ensure_node v).capacity u v = none := by
    rw [dget?_ensure_capacity, dget?_ensure_capacity]; exact hfw
  have hbw2 : dget? ((G.ensure_node u).ensure_node v).capacity v u = none := by
    rw [dget?_ensure_capacity, dget?_ensure_capacity]; exact hbw
  have h3 := align_insert _ u v cap cost h2 hu2 hfw2
  have hv3 : (aget? (dset ((G.ensure_node u).ensure_node v).capacity u v cap) v).isSome
      = true := by
    dsimp only [dset]
    rw [aget?_aset_ne _ _ _ _ hne]
    exact hv2
  have hbw3 : dget? (dset ((G.ensure_node u).ensure_node v).capacity u v cap) v u
      = none := by
    rw [dget?_dset]
    rw [if_neg (fun hc : v = u ∧ u = v => hne hc.2)]
    exact hbw2
  exact align_insert _ v u 0 (-cost) h3 hv3 hbw3

lemma edge_list_ok_prefix {l : List BEdge} {e : BEdge}
    (h : EdgeListOK (l ++ [e])) : EdgeListOK l := by
  obtain ⟨h1, h2⟩ := h
  constructor
  · rw [List.map_append] at h1
    exact (List.nodup_append.1 h1).1
  · intro a ha b hb
    exact h2 a (List.mem_append.2 (Or.inl ha)) b (List.mem_append.2 (Or.inl hb))

theorem apply_edges_facts :
    ∀ (l : List BEdge), EdgeListOK l → BuiltFacts l (apply_edges Graph.empty l) := by
  intro l
  induction l using List.reverseRecOn with
  | nil =>
    intro _
    refine ⟨align_empty, ?_, ?_, ?_⟩ <;>
      simp [apply_edges, Graph.empty, dget?, aget?]
  | append_singleton l e ih =>
    intro hok
    obtain ⟨u, v, cap, k⟩ := e
    have hok' := edge_list_ok_prefix hok
    have ihf := ih hok'
    -- freshness of the new directed pair
    have hne : ¬ u = v := by
      intro he
      exact hok.2 (u, v, cap, k) (List.mem_append.2 (Or.inr (List.mem_singleton.2 rfl)))
        (u, v, cap, k) (List.mem_append.2 (Or.inr (List.mem_singleton.2 rfl)))
        ⟨he, he.symm⟩
    have hfwpair : ¬ ∃ c' k', (u, v, c', k') ∈ l := by
      rintro ⟨c', k', hm⟩
      have h1 := hok.1
      rw [List.map_append] at h1
      have := (List.nodup_append.1 h1).2.2
      exact this (List.mem_map_of_mem _ hm) (by simp)
    have hbwpair : ¬ ∃ c' k', (v, u, c', k') ∈ l := by
      rintro ⟨c', k', hm⟩
      exact hok.2 (u, v, cap, k) (List.mem_append.2 (Or.inr (List.mem_singleton.2 rfl)))
        (v, u, c', k') (List.mem_append.2 (Or.inl hm)) ⟨rfl, rfl⟩
    have hfw : dget? (apply_edges Graph.empty l).capacity u v = none := by
      cases hc : dget? (apply_edges Graph.empty l).capacity u v with
      | none => rfl
      | some x =>
        rcases (ihf.cap_iff u v x).1 hc with ⟨k', hm⟩ | ⟨-, c', k', hm⟩
        · exact absurd ⟨x, k', hm⟩ hfwpair
        · exact absurd ⟨c', k', hm⟩ hbwpair
    have hbw : dget? (apply_edges Graph.empty l).capacity v u = none := by
      cases hc : dget? (apply_edges Graph.empty l).capacity v u with
      | none => rfl
      | some x =>
        rcases (ihf.cap_iff v u x).1 hc with ⟨k', hm⟩ | ⟨-, c', k', hm⟩
        · exact absurd ⟨x, k', hm⟩ hbwpair
        · exact absurd ⟨c', k', hm⟩ hfwpair
    have happ : apply_edges Graph.empty (l ++ [(u, v, cap, k)]) =
        (apply_edges Graph.empty l).add_edge u v cap k := by
      unfold apply_edges
      rw [List.foldl_append]
      rfl
    rw [happ]
    have hmem_e : (u, v, cap, k) ∈ l ++ [(u, v, cap, k)] :=
      List.mem_append.2 (Or.inr (List.mem_singleton.2 rfl))
    refine ⟨align_add_edge _ u v cap k ihf.align hne hfw hbw, ?_, ?_, ?_⟩
    · intro a b x
      rw [add_edge_capacity _ _ _ _ _ hne]
      by_cases h1 : a = u ∧ b = v
      · obtain ⟨rfl, rfl⟩ := h1
        rw [if_pos ⟨rfl, rfl⟩]
        constructor
        · intro hx
          cases hx
          exact Or.inl ⟨k, hmem_e⟩
        · rintro (⟨k', hm⟩ | ⟨hx0, c', k', hm⟩)
          · rcases List.mem_append.1 hm with hm | hm
            · exact absurd ⟨x, k', hm⟩ hfwpair
            · rw [List.mem_singleton] at hm
              simp only [Prod.mk.injEq, true_and] at hm
              rw [hm.1]
          · rcases List.mem_append.1 hm with hm | hm
            · exact absurd ⟨c', k', hm⟩ hbwpair
            · rw [List.mem_singleton] at hm
              simp only [Prod.mk.injEq, true_and] at hm
              exact absurd hm.1.symm hne
      · rw [if_neg h1]
        by_cases h2 : a = v ∧ b = u
        · obtain ⟨rfl, rfl⟩ := h2
          rw [if_pos ⟨rfl, rfl⟩]
          constructor
          · intro hx
            cases hx
            exact Or.inr ⟨rfl, cap, k, hmem_e⟩
          · rintro (⟨k', hm⟩ | ⟨hx0, c', k', hm⟩)
            · rcases List.mem_append.1 hm with hm | hm
              · exact absurd ⟨x, k', hm⟩ hbwpair
              · rw [List.mem_singleton] at hm
                simp only [Prod.mk.injEq, true_and] at hm
                exact absurd hm.1.symm hne
            · rcases List.mem_append.1 hm with hm | hm
              · exact absurd ⟨c', k', hm⟩ hfwpair
              · rw [hx0]
        · rw [if_neg h2]
          rw [ihf.cap_iff a b x]
          constructor
          · rintro (⟨k', hm⟩ | ⟨hx0, c', k', hm⟩)
            · exact Or.inl ⟨k', List.mem_append.2 (Or.inl hm)⟩
            · exact Or.inr ⟨hx0, c', k', List.mem_append.2 (Or.inl hm)⟩
          · rintro (⟨k', hm⟩ | ⟨hx0, c', k', hm⟩)
            · rcases List.mem_append.1 hm with hm | hm
              · exact Or.inl ⟨k', hm⟩
              · rw [List.mem_singleton] at hm
                simp only [Prod.mk.injEq, true_and] at hm
                exact absurd ⟨hm.1, hm.2.1⟩ h1
            · rcases List.mem_append.1 hm with hm | hm
              · exact Or.inr ⟨hx0, c', k', hm⟩
              · rw [List.mem_singleton] at hm
                simp only [Prod.mk.injEq, true_and] at hm
                exact absurd ⟨hm.2.1, hm.1⟩ h2
    · intro a b x
      rw [add_edge_cost _ _ _ _ _ hne]
      by_cases h1 : a = u ∧ b = v
      · obtain ⟨rfl, rfl⟩ := h1
        rw [if_pos ⟨rfl, rfl⟩]
        constructor
        · intro hx
          cases hx
          exact Or.inl ⟨cap, hmem_e⟩
        · rintro (⟨c', hm⟩ | ⟨c', k', hm, hx0⟩)
          · rcases List.mem_append.1 hm with hm | hm
            · exact absurd ⟨c', x, hm⟩ hfwpair
            · rw [List.mem_singleton] at hm
              simp only [Prod.mk.injEq, true_and] at hm
              rw [hm.2]
          · rcases List.mem_append.1 hm with hm | hm
            · exact absurd ⟨c', k', hm⟩ hbwpair
            · rw [List.mem_singleton] at hm
              simp only [Prod.mk.injEq, true_and] at hm
              exact absurd hm.1.symm hne
      · rw [if_neg h1]
        by_cases h2 : a = v ∧ b = u
        · obtain ⟨rfl, rfl⟩ := h2
          rw [if_pos ⟨rfl, rfl⟩]
          constructor
          · intro hx
            cases hx
            exact Or.inr ⟨cap, k, hmem_e, rfl⟩
          · rintro (⟨c', hm⟩ | ⟨c', k', hm, hx0⟩)
            · rcases List.mem_append.1 hm with hm | hm
              · exact absurd ⟨c', x, hm⟩ hbwpair
              · rw [List.mem_singleton] at hm
                simp only [Prod.mk.injEq, true_and] at hm
                exact absurd hm.1.symm hne
            · rcases List.mem_append.1 hm with hm | hm
              · exact absurd ⟨c', k', hm⟩ hfwpair
              · rw [List.mem_singleton] at hm
                simp only [Prod.mk.injEq, true_and] at hm
                rw [hx0, hm.2]
        · rw [if_neg h2]
          rw [ihf.cost_iff a b x]
          constructor
          · rintro (⟨c', hm⟩ | ⟨c', k', hm, hx0⟩)
            · exact Or.inl ⟨c', List.mem_append.2 (Or.inl hm)⟩
            · exact Or.inr ⟨c', k', List.mem_append.2 (Or.inl hm), hx0⟩
          · rintro (⟨c', hm⟩ | ⟨c', k', hm, hx0⟩)
            · rcases List.mem_append.1 hm with hm | hm
              · exact Or.inl ⟨c', hm⟩
              · rw [List.mem_singleton] at hm
                simp only [Prod.mk.injEq, true_and] at hm
                exact absurd ⟨hm.1, hm.2.1⟩ h1
            · rcases List.mem_append.1 hm with hm | hm
              · exact Or.inr ⟨c', k', hm, hx0⟩
              · rw [List.mem_singleton] at hm
                simp only [Prod.mk.injEq, true_and] at hm
                exact absurd ⟨hm.2.1, hm.1⟩ h2
    · intro a b x
      rw [add_edge_flow _ _ _ _ _ hne]
      by_cases h1 : a = u ∧ b = v
      · obtain ⟨rfl, rfl⟩ := h1
        rw [if_pos ⟨rfl, rfl⟩]
        constructor
        · intro hx
          cases hx
          exact ⟨rfl, Or.inl ⟨cap, k, hmem_e⟩⟩
        · rintro ⟨rfl, -⟩
          rfl
      · rw [if_neg h1]
        by_cases h2 : a = v ∧ b = u
        · obtain ⟨rfl, rfl⟩ := h2
          rw [if_pos ⟨rfl, rfl⟩]
          constructor
          · intro hx
            cases hx
            exact ⟨rfl, Or.inr ⟨cap, k, hmem_e⟩⟩
          · rintro ⟨rfl, -⟩
            rfl
        · rw [if_neg h2]
          rw [ihf.flow_iff a b x]
          constructor
          · rintro ⟨rfl, ⟨c', k', hm⟩ | ⟨c', k', hm⟩⟩
            · exact ⟨rfl, Or.inl ⟨c', k', List.mem_append.2 (Or.inl hm)⟩⟩
            · exact ⟨rfl, Or.inr ⟨c', k', List.mem_append.2 (Or.inl hm)⟩⟩
          · rintro ⟨rfl, ⟨c', k', hm⟩ | ⟨c', k', hm⟩⟩
            · rcases List.mem_append.1 hm with hm | hm
              · exact ⟨rfl, Or.inl ⟨c', k', hm⟩⟩
              · rw [List.mem_singleton] at hm
                simp only [Prod.mk.injEq, true_and] at hm
                exact absurd ⟨hm.1, hm.2.1⟩ h1
            · rcases List.mem_append.1 hm with hm | hm
              · exact ⟨rfl, Or.inr ⟨c', k', hm⟩⟩
              · rw [List.mem_singleton] at hm
                simp only [Prod.mk.injEq, true_and] at hm
                exact absurd ⟨hm.2.1, hm.1⟩ h2

/-! ## Dynamic invariants of `min_cost_flow` -/

/-! ## Properties of predecessor chains -/

lemma count_occ_cons {α : Type} [DecidableEq α] (a x : α) (l : List α) :
    count_occ a (x :: l) = (if x = a then 1 else 0) + count_occ a l := by
  unfold count_occ
  rw [List.filter_cons]
  by_cases h : x = a
  · rw [if_pos h, if_pos (by simpa using h), List.length_cons]
    omega
  · rw [if_neg h, if_neg (by simpa using h)]
    omega

lemma predchain_unique {pred : AList Node (Option Node)} {source v : Node}
    {l1 l2 : List (Node × Node)} (h1 : PredChain pred source v l1)
    (h2 : PredChain pred source v l2) : l1 = l2 := by
  induction h1 generalizing l2 with
  | nil =>
    cases h2 with
    | nil => rfl
    | cons hne hp hch => exact absurd rfl hne
  | cons hne hp hch ih =>
    cases h2 with
    | nil => exact absurd rfl hne
    | cons hne' hp' hch' =>
      rw [hp] at hp'
      cases hp'
      rw [ih hch']

lemma predchain_suffix {pred : AList Node (Option Node)} {source v : Node}
    {l : List (Node × Node)} (h : PredChain pred source v l) :
    ∀ e ∈ l, ∃ l', PredChain pred source e.1 l' ∧ l'.length < l.length := by
  induction h with
  | nil => intro e he; cases he
  | cons hne hp hch ih =>
    intro e he
    rcases List.mem_cons.1 he with rfl | he'
    · exact ⟨_, hch, Nat.lt_succ_self _⟩
    · obtain ⟨l', hch', hlt⟩ := ih e he'
      exact ⟨l', hch', Nat.lt_succ_of_lt hlt⟩

lemma predchain_nodes_nodup {pred : AList Node (Option Node)} {source v : Node}
    {l : List (Node × Node)} (h : PredChain pred source v l) :
    (v :: l.map Prod.fst).Nodup := by
  induction h with
  | nil => exact List.nodup_singleton _
  | cons hne hp hch ih =>
    next v u rest =>
    refine List.nodup_cons.2 ⟨?_, by simpa using ih⟩
    intro hv
    have hfull : PredChain pred source v ((u, v) :: rest) :=
      PredChain.cons hne hp hch
    simp only [List.map_cons, List.mem_cons] at hv
    rcases hv with rfl | hv'
    · have := predchain_unique hch hfull
      have hlen := congrArg List.length this
      simp at hlen
    · obtain ⟨e, he, hfst⟩ := List.mem_map.1 hv'
      obtain ⟨l', hch', hlt⟩ := predchain_suffix hch e he
      rw [hfst] at hch'
      have := predchain_unique hch' hfull
      rw [this] at hlt
      simp at hlt

lemma predchain_ends {pred : AList Node (Option Node)} {source v : Node}
    {l : List (Node × Node)} (h : PredChain pred source v l) :
    ∀ e ∈ l, e.1 ∈ l.map Prod.fst ∧ e.2 ∈ v :: l.map Prod.fst := by
  induction h with
  | nil => intro e he; cases he
  | cons hne hp hch ih =>
    next v u rest =>
    intro e he
    rcases List.mem_cons.1 he with rfl | he'
    · exact ⟨by simp, by simp⟩
    · obtain ⟨h1, h2⟩ := ih e he'
      refine ⟨by simp [h1], ?_⟩
      simp only [List.map_cons, List.mem_cons] at h2 ⊢
      tauto

lemma predchain_path_facts {pred : AList Node (Option Node)} {source v : Node}
    {l : List (Node × Node)} (h : PredChain pred source v l)
    (hnd : (v :: l.map Prod.fst).Nodup) :
    l.Nodup ∧ ∀ e ∈ l, ¬ (e.2, e.1) ∈ l ∧ ¬ e.1 = e.2 := by
  induction h with
  | nil => exact ⟨List.nodup_nil, by intro e he; cases he⟩
  | cons hne hp hch ih =>
    next v u rest =>
    simp only [List.map_cons, List.nodup_cons, List.mem_cons] at hnd
    push_neg at hnd
    obtain ⟨⟨hvu, hvrest⟩, hund, hrestnd⟩ := hnd
    obtain ⟨ihnd, ihrev⟩ := ih (List.nodup_cons.2 ⟨hund, hrestnd⟩)
    have hsnd_rest : ∀ e ∈ rest, ¬ e.2 = v := by
      intro e he hev
      have := (predchain_ends hch e he).2
      rw [hev] at this
      rcases List.mem_cons.1 this with h' | h'
      · exact hvu h'
      · exact hvrest (by simpa using h')
    have hfst_rest : ∀ e ∈ rest, ¬ e.1 = v := by
      intro e he hev
      have := (predchain_ends hch e he).1
      rw [hev] at this
      rcases List.mem_map.1 this with ⟨e', he', hfst⟩
      exact hvrest (by
        rw [← hfst]
        exact List.mem_map_of_mem Prod.fst he')
    constructor
    · refine List.nodup_cons.2 ⟨?_, ihnd⟩
      intro hm
      exact hsnd_rest _ hm rfl
    · intro e he
      rcases List.mem_cons.1 he with rfl | he'
      · constructor
        · intro hm
          rcases List.mem_cons.1 hm with hm' | hm'
          · have h1 : v = u := congrArg Prod.fst hm'
            exact hvu h1
          · exact hfst_rest _ hm' rfl
        · intro hm
          exact hvu hm.symm
      · constructor
        · intro hm
          rcases List.mem_cons.1 hm with hm' | hm'
          · have h2 : e.1 = v := congrArg Prod.snd hm'
            exact hfst_rest e he' h2
          · exact (ihrev e he').1 hm'
        · exact (ihrev e he').2

/-- Every edge of a chain has a non-source second component (the walk stops
at the source). -/
lemma predchain_snd_ne_source {pred : AList Node (Option Node)} {source v : Node}
    {l : List (Node × Node)} (h : PredChain pred source v l) :
    ∀ e ∈ l, ¬ e.2 = source := by
  induction h with
  | nil => intro e he; cases he
  | cons hne hp hch ih =>
    intro e he
    rcases List.mem_cons.1 he with rfl | he'
    · exact hne
    · exact ih e he'

/-- A nonempty chain has the source as first component of exactly one edge,
and the source never occurs as a second component. -/
lemma predchain_source_counts {pred : AList Node (Option Node)} {source v : Node}
    {l : List (Node × Node)} (h : PredChain pred source v l) (hl : ¬ l = []) :
    count_occ source (l.map Prod.fst) = 1 ∧
    count_occ source (l.map Prod.snd) = 0 := by
  constructor
  · induction h with
    | nil => exact absurd rfl hl
    | cons hne hp hch ih =>
      next v u rest =>
      rw [List.map_cons]
      dsimp only
      rw [count_occ_cons]
      cases hch with
      | nil => simp [count_occ]
      | cons hne' hp' hch' =>
        rw [if_neg hne']
        simpa using ih (by simp)
  · refine count_occ_eq_zero ?_
    intro hm
    obtain ⟨e, he, hsnd⟩ := List.mem_map.1 hm
    exact predchain_snd_ne_source h e he hsnd

/-- The top node of a chain never occurs as a first component, and occurs as
a second component exactly once (when the chain is nonempty). -/
lemma predchain_top_counts {pred : AList Node (Option Node)} {source v : Node}
    {l : List (Node × Node)} (h : PredChain pred source v l) :
    count_occ v (l.map Prod.fst) = 0 ∧
    (l = [] ∨ count_occ v (l.map Prod.snd) = 1) := by
  have hnd := predchain_nodes_nodup h
  obtain ⟨hv, -⟩ := List.nodup_cons.1 hnd
  constructor
  · exact count_occ_eq_zero hv
  · cases h with
    | nil => exact Or.inl rfl
    | cons hne hp hch =>
      next u rest =>
      refine Or.inr ?_
      rw [List.map_cons]
      dsimp only
      rw [count_occ_cons, if_pos rfl]
      have : count_occ v (rest.map Prod.snd) = 0 := by
        refine count_occ_eq_zero ?_
        intro hm
        obtain ⟨e, he, hsnd⟩ := List.mem_map.1 hm
        have := (predchain_ends hch e he).2
        rw [hsnd] at this
        simp only [List.map_cons, List.mem_cons] at hv
        rcases List.mem_cons.1 this with h' | h'
        · exact hv (Or.inl h')
        · exact hv (Or.inr (by simpa using h'))
      omega

/-- Interior nodes occur equally often as first and second components. -/
lemma predchain_interior_counts {pred : AList Node (Option Node)} {source v : Node}
    {l : List (Node × Node)} (h : PredChain pred source v l) :
    ∀ w, ¬ w = v → ¬ w = source →
      count_occ w (l.map Prod.fst) = count_occ w (l.map Prod.snd) := by
  induction h with
  | nil => intro w _ _; rfl
  | cons hne hp hch ih =>
    next v u rest =>
    intro w hwv hws
    rw [List.map_cons, List.map_cons]
    dsimp only
    rw [count_occ_cons, count_occ_cons]
    have hv_if : (if v = w then 1 else 0) = 0 := if_neg (fun hc => hwv hc.symm)
    by_cases hwu : w = u
    · subst hwu
      rw [hv_if, if_pos rfl]
      obtain ⟨hfst0, hsnd⟩ := predchain_top_counts hch
      rcases hsnd with rfl | hsnd1
      · cases hch with
        | nil => exact absurd rfl hws
      · rw [hfst0, hsnd1]
    · have hu_if : (if u = w then 1 else 0) = 0 := if_neg (fun hc => hwu hc.symm)
      rw [hv_if, hu_if]
      simpa using ih w hwu hws

/-- Nodes not on the chain occur in neither component list. -/
lemma predchain_absent_counts {pred : AList Node (Option Node)} {source v : Node}
    {l : List (Node × Node)} (h : PredChain pred source v l) :
    ∀ w, ¬ w ∈ v :: l.map Prod.fst →
      count_occ w (l.map Prod.fst) = 0 ∧ count_occ w (l.map Prod.snd) = 0 := by
  intro w hw
  constructor
  · refine count_occ_eq_zero ?_
    intro hm
    exact hw (List.mem_cons_of_mem _ hm)
  · refine count_occ_eq_zero ?_
    intro hm
    obtain ⟨e, he, hsnd⟩ := List.mem_map.1 hm
    have := (predchain_ends h e he).2
    rw [hsnd] at this
    exact hw this

/-! ## What `bellman_ford` guarantees about its predecessor map -/

lemma relax_neighbors_pred {g : Graph} {u : Node} :
    ∀ (adj queue : List Node) (in_q : AList Node Bool)
      (dist : AList Node (Option Int)) (pred : AList Node (Option Node)) res,
      relax_neighbors g u adj queue in_q dist pred = .ok res →
      PredInv g pred → PredInv g res.2.2.2 := by
  intro adj
  induction adj with
  | nil =>
    intro queue in_q dist pred res h hp
    unfold relax_neighbors at h
    cases h
    exact hp
  | cons v vs ih =>
    intro queue in_q dist pred res h hp
    unfold relax_neighbors at h
    cases hcap : dget? g.capacity u v with
    | none => simp only [hcap] at h; cases h
    | some cap =>
      simp only [hcap] at h
      cases hfl : dget? g.flow u v with
      | none => simp only [hfl] at h; cases h
      | some fl =>
        simp only [hfl] at h
        by_cases hlt : cap > fl
        · rw [if_pos hlt] at h
          cases hdu : aget? dist u with
          | none => simp only [hdu] at h; cases h
          | some du =>
            simp only [hdu] at h
            cases hco : dget? g.cost u v with
            | none => simp only [hco] at h; cases h
            | some c =>
              simp only [hco] at h
              cases hdv : aget? dist v with
              | none => simp only [hdv] at h; cases h
              | some dv =>
                simp only [hdv] at h
                by_cases him : einf_lt (du.map (· + c)) dv = true
                · rw [if_pos him] at h
                  have hpred' : PredInv g (aset pred v (some u)) := by
                    intro w z hw
                    by_cases hwv : w = v
                    · subst hwv
                      rw [aget?_aset_self] at hw
                      cases hw
                      exact ⟨cap, fl, hcap, hfl, hlt⟩
                    · rw [aget?_aset_ne _ _ _ _ (fun hc => hwv hc.symm)] at hw
                      exact hp w z hw
                  cases hib : aget? in_q v with
                  | none => simp only [hib] at h; cases h
                  | some b =>
                    simp only [hib] at h
                    split at h
                    · exact ih _ _ _ _ _ h hpred'
                    · exact ih _ _ _ _ _ h hpred'
                · rw [if_neg him] at h
                  exact ih _ _ _ _ _ h hp
        · rw [if_neg hlt] at h
          exact ih _ _ _ _ _ h hp

lemma bf_loop_pred {g : Graph} {sink : Node} :
    ∀ (fuel : Nat) (queue : List Node) (in_q : AList Node Bool)
      (dist : AList Node (Option Int)) (pred : AList Node (Option Node))
      (dist' : AList Node (Option Int)) (pred' : AList Node (Option Node)),
      bf_loop g sink fuel queue in_q dist pred = .ok (dist', pred') →
      PredInv g pred → PredInv g pred' := by
  intro fuel
  induction fuel with
  | zero => intro _ _ _ _ _ _ h; cases h
  | succ fuel ih =>
    intro queue in_q dist pred dist' pred' h hp
    cases queue with
    | nil =>
      unfold bf_loop at h
      cases h
      exact hp
    | cons u queue =>
      unfold bf_loop at h
      cases hadj : aget? g.adj_list u with
      | none => simp only [hadj] at h; cases h
      | some adj =>
        simp only [hadj] at h
        cases hr : relax_neighbors g u adj queue (aset in_q u false) dist pred with
        | error e => rw [hr] at h; cases h
        | ok res =>
          obtain ⟨q2, iq2, d2, p2⟩ := res
          rw [hr] at h
          simp only [] at h
          have hp2 : PredInv g p2 := relax_neighbors_pred _ _ _ _ _ _ hr hp
          by_cases hq : q2.isEmpty = true
          · rw [if_pos hq] at h
            cases hds : aget? d2 sink with
            | none => simp only [hds] at h; cases h
            | some d =>
              simp only [hds] at h
              cases h
              exact hp2
          · rw [if_neg hq] at h
            exact ih _ _ _ _ _ _ h hp2

lemma init_pred_none (ns : List Node) (w z : Node) :
    ¬ aget? (ns.map fun n => (n, (none : Option Node))) w = some (some z) := by
  induction ns with
  | nil => intro h; cases h
  | cons n ns ih =>
    intro h
    simp only [List.map_cons] at h
    by_cases hn : n = w
    · rw [aget?, if_pos hn] at h
      cases h
    · rw [aget?, if_neg hn] at h
      exact ih h

/-- The predecessor map returned by `bellman_ford` records only residual
edges. -/
lemma bellman_ford_pred {g : Graph} {source sink : Node} {fuel : Nat}
    {dist : AList Node (Option Int)} {pred : AList Node (Option Node)}
    (h : g.bellman_ford source sink fuel = .ok (dist, pred)) :
    PredInv g pred := by
  unfold Graph.bellman_ford at h
  refine bf_loop_pred _ _ _ _ _ _ _ h ?_
  intro w z hw
  exact absurd hw (init_pred_none _ w z)

/-! ## What the predecessor walk of `min_cost_flow` produces -/

lemma walk_path_spec {g : Graph} {pred : AList Node (Option Node)} {source : Node}
    (hpred : PredInv g pred) :
    ∀ (fuel : Nat) (v : Node) (acc path : List (Node × Node)) (b bot : Option Int),
      walk_path g pred source fuel v acc b = .ok (path, bot) →
      ¬ bot = some 0 →
      (b = none ∨ ∃ y, b = some y ∧ 1 ≤ y) →
      ∃ tail, path = acc ++ tail ∧ PredChain pred source v tail ∧
        ((bot = b ∧ tail = []) ∨ ∃ f, bot = some f ∧ 1 ≤ f) ∧
        (∀ x, bot = some x →
          (∀ y, b = some y → x ≤ y) ∧
          ∀ e ∈ tail, ∃ c fl, dget? g.capacity e.1 e.2 = some c ∧
            dget? g.flow e.1 e.2 = some fl ∧ fl < c ∧ x ≤ c - fl) := by
  intro fuel
  induction fuel with
  | zero => intro v acc path b bot h; cases h
  | succ fuel ih =>
    intro v acc path b bot h hbot hb
    unfold walk_path at h
    by_cases hvs : v = source
    · rw [if_pos hvs] at h
      cases h
      subst hvs
      refine ⟨[], by simp, PredChain.nil, Or.inl ⟨rfl, rfl⟩, ?_⟩
      intro x hx
      refine ⟨?_, by intro e he; cases he⟩
      intro y hy
      rw [hx] at hy
      cases hy
      exact le_refl x
    · rw [if_neg hvs] at h
      cases hpv : aget? pred v with
      | none => simp only [hpv] at h; cases h
      | some po =>
        cases po with
        | none =>
          simp only [hpv] at h
          cases h
          exact absurd rfl hbot
        | some u =>
          simp only [hpv] at h
          cases hcap : dget? g.capacity u v with
          | none => simp only [hcap] at h; cases h
          | some cap =>
            simp only [hcap] at h
            cases hfl : dget? g.flow u v with
            | none => simp only [hfl] at h; cases h
            | some fl =>
              simp only [hfl] at h
              -- residual positivity from the predecessor invariant
              obtain ⟨c0, fl0, hc0, hfl0, hlt0⟩ := hpred v u hpv
              rw [hcap] at hc0
              cases hc0
              rw [hfl] at hfl0
              cases hfl0
              have hres : 1 ≤ cap - fl := by omega
              rcases hb with rfl | ⟨y, rfl, hy⟩
              · have hb' : (some (cap - fl) : Option Int) = none ∨
                    ∃ z, (some (cap - fl) : Option Int) = some z ∧ 1 ≤ z :=
                  Or.inr ⟨cap - fl, rfl, hres⟩
                obtain ⟨tail', hpath, hch, hdisj, hmin⟩ :=
                  ih u (acc ++ [(u, v)]) path (some (cap - fl)) bot h hbot hb'
                refine ⟨(u, v) :: tail', by simpa using hpath,
                  PredChain.cons hvs hpv hch, ?_, ?_⟩
                · rcases hdisj with ⟨hbb, -⟩ | ⟨f, hf, hf1⟩
                  · exact Or.inr ⟨cap - fl, hbb, hres⟩
                  · exact Or.inr ⟨f, hf, hf1⟩
                · intro x hx
                  obtain ⟨hle, hedges⟩ := hmin x hx
                  have hxcf : x ≤ cap - fl := hle (cap - fl) rfl
                  refine ⟨(by rintro y hy; cases hy), ?_⟩
                  intro e he
                  rcases List.mem_cons.1 he with rfl | he'
                  · exact ⟨cap, fl, hcap, hfl, by omega, hxcf⟩
                  · exact hedges e he'
              · have hb' : (some (min y (cap - fl)) : Option Int) = none ∨
                    ∃ z, (some (min y (cap - fl)) : Option Int) = some z ∧ 1 ≤ z :=
                  Or.inr ⟨min y (cap - fl), rfl, le_min hy hres⟩
                obtain ⟨tail', hpath, hch, hdisj, hmin⟩ :=
                  ih u (acc ++ [(u, v)]) path (some (min y (cap - fl))) bot h hbot hb'
                refine ⟨(u, v) :: tail', by simpa using hpath,
                  PredChain.cons hvs hpv hch, ?_, ?_⟩
                · rcases hdisj with ⟨hbb, -⟩ | ⟨f, hf, hf1⟩
                  · exact Or.inr ⟨min y (cap - fl), hbb, le_min hy hres⟩
                  · exact Or.inr ⟨f, hf, hf1⟩
                · intro x hx
                  obtain ⟨hle, hedges⟩ := hmin x hx
                  have hxm : x ≤ min y (cap - fl) := hle (min y (cap - fl)) rfl
                  refine ⟨?_, ?_⟩
                  · rintro y' hy'
                    cases hy'
                    exact le_trans hxm (min_le_left _ _)
                  · intro e he
                    rcases List.mem_cons.1 he with rfl | he'
                    · exact ⟨cap, fl, hcap, hfl, by omega,
                        le_trans hxm (min_le_right _ _)⟩
                    · exact hedges e he'

/-! ## Effect of the flow-update loop `augment_edges` -/

lemma dmod?_rows_nodup {m m' : AList Node (AList Node Int)} {u v : Node}
    {f : Int → Int} (h : dmod? m u v f = some m')
    (hnd : ∀ a row, aget? m a = some row → (akeys row).Nodup) :
    ∀ a row, aget? m' a = some row → (akeys row).Nodup := by
  intro a row ha
  have := (dmod?_keys h).2 a
  rw [ha] at this
  cases hma : aget? m a with
  | none => rw [hma] at this; cases this
  | some row0 =>
    rw [hma] at this
    simp only [Option.map_some'] at this
    have heq : akeys row = akeys row0 := Option.some.inj this
    rw [heq]
    exact hnd a row0 hma

lemma augment_edges_rows_nodup :
    ∀ (path : List (Node × Node)) (g : Graph) (f tc : Int) (g' : Graph) (tc' : Int),
      augment_edges g f path tc = some (g', tc') → RowsNodupF g → RowsNodupF g' := by
  intro path
  induction path with
  | nil =>
    intro g f tc g' tc' h hnd
    cases h
    exact hnd
  | cons e rest ih =>
    obtain ⟨u, v⟩ := e
    intro g f tc g' tc' h hnd
    unfold augment_edges at h
    cases hm1 : dmod? g.flow u v (· + f) with
    | none => rw [hm1] at h; cases h
    | some flow1 =>
      rw [hm1] at h
      dsimp only at h
      cases hm2 : dmod? flow1 v u (· - f) with
      | none => rw [hm2] at h; cases h
      | some flow2 =>
        rw [hm2] at h
        dsimp only at h
        cases hco : dget? g.cost u v with
        | none => rw [hco] at h; cases h
        | some c =>
          rw [hco] at h
          dsimp only at h
          have hnd1 : ∀ a row, aget? flow1 a = some row → (akeys row).Nodup :=
            dmod?_rows_nodup hm1 hnd
          have hnd2 : ∀ a row, aget? flow2 a = some row → (akeys row).Nodup :=
            dmod?_rows_nodup hm2 hnd1
          exact ih _ _ _ _ _ h hnd2

lemma augment_edges_row_keys :
    ∀ (path : List (Node × Node)) (g : Graph) (f tc : Int) (g' : Graph) (tc' : Int),
      augment_edges g f path tc = some (g', tc') →
      akeys g'.flow = akeys g.flow ∧
      ∀ a, (aget? g'.flow a).map akeys = (aget? g.flow a).map akeys := by
  intro path
  induction path with
  | nil =>
    intro g f tc g' tc' h
    cases h
    exact ⟨rfl, fun _ => rfl⟩
  | cons e rest ih =>
    obtain ⟨u, v⟩ := e
    intro g f tc g' tc' h
    unfold augment_edges at h
    cases hm1 : dmod? g.flow u v (· + f) with
    | none => rw [hm1] at h; cases h
    | some flow1 =>
      rw [hm1] at h
      dsimp only at h
      cases hm2 : dmod? flow1 v u (· - f) with
      | none => rw [hm2] at h; cases h
      | some flow2 =>
        rw [hm2] at h
        dsimp only at h
        cases hco : dget? g.cost u v with
        | none => rw [hco] at h; cases h
        | some c =>
          rw [hco] at h
          dsimp only at h
          obtain ⟨hk1, hr1⟩ := dmod?_keys hm1
          obtain ⟨hk2, hr2⟩ := dmod?_keys hm2
          obtain ⟨hk3, hr3⟩ := ih _ _ _ _ _ h
          refine ⟨by rw [hk3]; dsimp only; rw [hk2, hk1], ?_⟩
          intro a
          rw [hr3 a]
          dsimp only
          rw [hr2 a, hr1 a]

/-- Row sums of the flow after `augment_edges`: each row `w` changes by
`f` times (occurrences of `w` as an edge tail minus occurrences as a head). -/
lemma augment_edges_row_sum :
    ∀ (path : List (Node × Node)) (g : Graph) (f tc : Int) (g' : Graph) (tc' : Int),
      augment_edges g f path tc = some (g', tc') →
      RowsNodupF g →
      ∀ w row row', aget? g.flow w = some row → aget? g'.flow w = some row' →
        (row'.map Prod.snd).sum = (row.map Prod.snd).sum
          + f * (count_occ w (path.map Prod.fst) : Int)
          - f * (count_occ w (path.map Prod.snd) : Int) := by
  intro path
  induction path with
  | nil =>
    intro g f tc g' tc' h hnd w row row' hrow hrow'
    cases h
    rw [hrow] at hrow'
    cases hrow'
    simp [count_occ]
  | cons e rest ih =>
    obtain ⟨u, v⟩ := e
    intro g f tc g' tc' h hnd w row row' hrow hrow'
    unfold augment_edges at h
    cases hm1 : dmod? g.flow u v (· + f) with
    | none => rw [hm1] at h; cases h
    | some flow1 =>
      rw [hm1] at h
      dsimp only at h
      cases hm2 : dmod? flow1 v u (· - f) with
      | none => rw [hm2] at h; cases h
      | some flow2 =>
        rw [hm2] at h
        dsimp only at h
        cases hco : dget? g.cost u v with
        | none => rw [hco] at h; cases h
        | some c =>
          rw [hco] at h
          dsimp only at h
          have hnd1 : ∀ a r, aget? flow1 a = some r → (akeys r).Nodup :=
            dmod?_rows_nodup hm1 hnd
          have hnd2 : RowsNodupF { g with flow := flow2 } :=
            fun a r hr => dmod?_rows_nodup hm2 hnd1 a r hr
          -- the intermediate rows at w exist
          have hrow1 : ∃ r1, aget? flow1 w = some r1 := by
            have := (dmod?_keys hm1).2 w
            rw [hrow] at this
            cases hx : aget? flow1 w with
            | none => rw [hx] at this; cases this
            | some r1 => exact ⟨r1, rfl⟩
          obtain ⟨r1, hr1⟩ := hrow1
          have hrow2 : ∃ r2, aget? flow2 w = some r2 := by
            have := (dmod?_keys hm2).2 w
            rw [hr1] at this
            cases hx : aget? flow2 w with
            | none => rw [hx] at this; cases this
            | some r2 => exact ⟨r2, rfl⟩
          obtain ⟨r2, hr2⟩ := hrow2
          have hsum1 := dmod?_row_sum hm1 hnd w r1 row hr1 hrow
          have hsum2 := dmod?_row_sum hm2 hnd1 w r2 r1 hr2 hr1
          have hsum3 := ih _ f _ g' tc' h hnd2 w r2 row' hr2 hrow'
          rw [List.map_cons, List.map_cons, count_occ_cons, count_occ_cons]
          by_cases hu : w = u <;> by_cases hv : w = v
          · rw [if_pos hu] at hsum1
            rw [if_pos hv] at hsum2
            rw [if_pos hu.symm, if_pos hv.symm, hsum3, hsum2, hsum1]
            push_cast
            ring
          · rw [if_pos hu] at hsum1
            rw [if_neg hv] at hsum2
            rw [if_pos hu.symm, if_neg (fun hc : v = w => hv hc.symm),
              hsum3, hsum2, hsum1]
            push_cast
            ring
          · rw [if_neg hu] at hsum1
            rw [if_pos hv] at hsum2
            rw [if_neg (fun hc : u = w => hu hc.symm), if_pos hv.symm,
              hsum3, hsum2, hsum1]
            push_cast
            ring
          · rw [if_neg hu] at hsum1
            rw [if_neg hv] at hsum2
            rw [if_neg (fun hc : u = w => hu hc.symm),
              if_neg (fun hc : v = w => hv hc.symm),
              hsum3, hsum2, hsum1]
            push_cast
            ring
lemma augment_edges_char :
    ∀ (path : List (Node × Node)) (g : Graph) (f tc : Int) (g' : Graph) (tc' : Int),
      path.Nodup → (∀ e ∈ path, ¬ (e.2, e.1) ∈ path) →
      augment_edges g f path tc = some (g', tc') →
      g'.capacity = g.capacity ∧ g'.cost = g.cost ∧ g'.adj_list = g.adj_list ∧
      ∀ a b, dget? g'.flow a b =
        if (a, b) ∈ path then (dget? g.flow a b).map (· + f)
        else if (b, a) ∈ path then (dget? g.flow a b).map (· - f)
        else dget? g.flow a b := by
  intro path
  induction path with
  | nil =>
    intro g f tc g' tc' hnd hrev h
    cases h
    refine ⟨rfl, rfl, rfl, ?_⟩
    intro a b
    simp
  | cons e rest ih =>
    obtain ⟨u, v⟩ := e
    intro g f tc g' tc' hnd hrev h
    have hne : ¬ u = v := by
      intro he
      exact hrev (u, v) (List.mem_cons_self _ _)
        (by simpa [he] using List.mem_cons_self (u, v) rest)
    have huv_rest : ¬ (u, v) ∈ rest := (List.nodup_cons.1 hnd).1
    have hvu_path : ¬ (v, u) ∈ (u, v) :: rest :=
      hrev (u, v) (List.mem_cons_self _ _)
    have hvu_rest : ¬ (v, u) ∈ rest := fun hm => hvu_path (List.mem_cons_of_mem _ hm)
    unfold augment_edges at h
    cases hm1 : dmod? g.flow u v (· + f) with
    | none => rw [hm1] at h; cases h
    | some flow1 =>
      rw [hm1] at h
      dsimp only at h
      cases hm2 : dmod? flow1 v u (· - f) with
      | none => rw [hm2] at h; cases h
      | some flow2 =>
        rw [hm2] at h
        dsimp only at h
        cases hco : dget? g.cost u v with
        | none => rw [hco] at h; cases h
        | some c =>
          rw [hco] at h
          dsimp only at h
          have hrev' : ∀ e ∈ rest, ¬ (e.2, e.1) ∈ rest := by
            intro e he hm
            exact (hrev e (List.mem_cons_of_mem _ he)) (List.mem_cons_of_mem _ hm)
          obtain ⟨hcap', hcost', hadj', hflow'⟩ :=
            ih _ f _ g' tc' (List.nodup_cons.1 hnd).2 hrev' h
          refine ⟨hcap', hcost', hadj', ?_⟩
          intro a b
          rw [hflow' a b]
          dsimp only
          have h1 := dget?_dmod? hm1 a b
          have h2 := dget?_dmod? hm2 a b
          by_cases hab : (a, b) = (u, v)
          · have hau : a = u := congrArg Prod.fst hab
            have hbv : b = v := congrArg Prod.snd hab
            rw [if_neg (fun hm : (a, b) ∈ rest => huv_rest (hab ▸ hm)),
              if_neg (fun hm : (b, a) ∈ rest => hvu_rest
                ((show (b, a) = (v, u) by rw [hau, hbv]) ▸ hm)),
              if_pos (List.mem_cons.2 (Or.inl hab))]
            rw [h2, if_neg (fun hc : a = v ∧ b = u => hne (hau.symm.trans hc.1)),
              h1, if_pos ⟨hau, hbv⟩]
          · by_cases hba : (a, b) = (v, u)
            · have hav : a = v := congrArg Prod.fst hba
              have hbu : b = u := congrArg Prod.snd hba
              rw [if_neg (fun hm : (a, b) ∈ rest => hvu_rest (hba ▸ hm)),
                if_neg (fun hm : (b, a) ∈ rest =>
                  huv_rest ((show (b, a) = (u, v) by rw [hav, hbu]) ▸ hm)),
                if_neg (fun hm : (a, b) ∈ (u, v) :: rest => by
                  rcases List.mem_cons.1 hm with hm' | hm'
                  · exact hne ((congrArg Prod.fst hm').symm.trans hav)
                  · exact hvu_rest (hba ▸ hm')),
                if_pos (List.mem_cons.2 (Or.inl (show (b, a) = (u, v) by rw [hav, hbu])))]
              rw [h2, if_pos ⟨hav, hbu⟩, h1,
                if_neg (fun hc : a = u ∧ b = v => hne (hc.1.symm.trans hav))]
            · have hab1 : ¬ (a = u ∧ b = v) := fun hc => hab (by
                rw [hc.1, hc.2])
              have hba1 : ¬ (a = v ∧ b = u) := fun hc => hba (by
                rw [hc.1, hc.2])
              rw [h2, if_neg hba1, h1, if_neg hab1]
              by_cases hmem : (a, b) ∈ rest
              · rw [if_pos hmem, if_pos (List.mem_cons_of_mem (u, v) hmem)]
              · rw [if_neg hmem,
                  if_neg (fun hm : (a, b) ∈ (u, v) :: rest => by
                    rcases List.mem_cons.1 hm with hm' | hm'
                    · exact hab hm'
                    · exact hmem hm')]
                by_cases hmem2 : (b, a) ∈ rest
                · rw [if_pos hmem2, if_pos (List.mem_cons_of_mem (u, v) hmem2)]
                · rw [if_neg hmem2,
                    if_neg (fun hm : (b, a) ∈ (u, v) :: rest => by
                      rcases List.mem_cons.1 hm with hm' | hm'
                      · refine hba ?_
                        have h1' : b = u := congrArg Prod.fst hm'
                        have h2' : a = v := congrArg Prod.snd hm'
                        rw [h1', h2']
                      · exact hmem2 hm')]

/-! ## Invariant preservation through one augmentation step -/

/-- A successful (non-break) `mcf_step` preserves the flow invariants, leaves
the static part of the graph unchanged, and strictly increases the flow out
of the source by the (positive) bottleneck of the augmenting path. -/
lemma mcf_step_preserves {source sink : Node} {bfF wF : Nat} {g : Graph}
    {tc tc' : Int} {g' : Graph}
    (hss : ¬ sink = source)
    (hinv : FlowInvs source sink g)
    (h : mcf_step source sink bfF wF g tc = .ok (some (g', tc'))) :
    FlowInvs source sink g' ∧
    g'.capacity = g.capacity ∧ g'.cost = g.cost ∧ g'.adj_list = g.adj_list ∧
    (∀ a, (aget? g'.flow a).map akeys = (aget? g.flow a).map akeys) ∧
    (∃ row, aget? g.flow source = some row) ∧
    ∀ row row', aget? g.flow source = some row → aget? g'.flow source = some row' →
      ∃ f : Int, 1 ≤ f ∧
        (row'.map Prod.snd).sum = (row.map Prod.snd).sum + f := by
  unfold mcf_step at h
  cases hbf : g.bellman_ford source sink bfF with
  | error e => rw [hbf] at h; cases h
  | ok dp =>
    obtain ⟨dist, pred⟩ := dp
    rw [hbf] at h
    dsimp only at h
    have hpred : PredInv g pred := bellman_ford_pred hbf
    cases hds : aget? dist sink with
    | none => rw [hds] at h; cases h
    | some od =>
      rw [hds] at h
      cases od with
      | none => dsimp only at h; cases h
      | some d =>
        dsimp only at h
        cases hwalk : walk_path g pred source wF sink [] none with
        | error e => rw [hwalk] at h; cases h
        | ok pf =>
          obtain ⟨path, flow⟩ := pf
          rw [hwalk] at h
          dsimp only at h
          by_cases hf0 : flow = some 0
          · rw [if_pos hf0] at h; cases h
          · rw [if_neg hf0] at h
            cases haug : augment_edges g (flow.getD 0) path tc with
            | none => rw [haug] at h; cases h
            | some r =>
              rw [haug] at h
              dsimp only at h
              cases h
              obtain ⟨tail, hpath, hchain, hcase, hmin⟩ :=
                walk_path_spec hpred wF sink [] path none flow hwalk hf0
                  (Or.inl rfl)
              simp only [List.nil_append] at hpath
              subst hpath
              obtain ⟨f, hfeq, hf1⟩ : ∃ f, flow = some f ∧ 1 ≤ f := by
                rcases hcase with ⟨-, htail⟩ | hex
                · subst htail
                  cases hchain
                  exact absurd rfl hss
                · exact hex
              subst hfeq
              have hgetD : (some f).getD 0 = f := rfl
              rw [hgetD] at haug
              have htail : ¬ path = [] := by
                intro hte
                subst hte
                cases hchain
                exact absurd rfl hss
              have hnodes := predchain_nodes_nodup hchain
              obtain ⟨hpnd, hprev⟩ := predchain_path_facts hchain hnodes
              obtain ⟨hcap, hcost, hadj, hflowpt⟩ :=
                augment_edges_char path g f tc g' tc' hpnd
                  (fun e he => (hprev e he).1) haug
              have hrowsum := augment_edges_row_sum path g f tc g' tc' haug
                hinv.nodup
              have hrownd := augment_edges_rows_nodup path g f tc g' tc' haug
                hinv.nodup
              have hrowkeys := (augment_edges_row_keys path g f tc g' tc' haug).2
              obtain ⟨-, hedges⟩ := hmin f rfl
              have hsrc_row : ∃ row, aget? g.flow source = some row := by
                obtain ⟨hcf, -⟩ := predchain_source_counts hchain htail
                have : ∃ e ∈ path, e.1 = source := by
                  by_contra hno
                  push_neg at hno
                  have : count_occ source (path.map Prod.fst) = 0 := by
                    refine count_occ_eq_zero ?_
                    intro hm
                    obtain ⟨e, he, hfst⟩ := List.mem_map.1 hm
                    exact hno e he hfst
                  omega
                obtain ⟨e, he, hfst⟩ := this
                obtain ⟨c, fl, -, hfl, -, -⟩ := hedges e he
                rw [hfst] at hfl
                unfold dget? at hfl
                cases hr : aget? g.flow source with
                | none => rw [hr] at hfl; cases hfl
                | some row => exact ⟨row, rfl⟩
              refine ⟨⟨?_, ?_, ?_, hrownd⟩, hcap, hcost, hadj, hrowkeys,
                hsrc_row, ?_⟩
              · -- skew symmetry
                intro u v x hx
                rw [hflowpt u v] at hx
                rw [hflowpt v u]
                by_cases h1 : (u, v) ∈ path
                · have h2 : ¬ (v, u) ∈ path := (hprev (u, v) h1).1
                  rw [if_pos h1] at hx
                  obtain ⟨x0, hx0, hxval⟩ := Option.map_eq_some'.1 hx
                  rw [if_neg h2, if_pos h1]
                  rw [hinv.skew u v x0 hx0]
                  show some (-x0 - f) = some (-x)
                  rw [← hxval]
                  congr 1
                  ring
                · rw [if_neg h1] at hx
                  by_cases h2 : (v, u) ∈ path
                  · rw [if_pos h2] at hx
                    obtain ⟨x0, hx0, hxval⟩ := Option.map_eq_some'.1 hx
                    rw [if_pos h2]
                    rw [hinv.skew u v x0 hx0]
                    show some (-x0 + f) = some (-x)
                    rw [← hxval]
                    congr 1
                    ring
                  · rw [if_neg h2] at hx
                    rw [if_neg h2, if_neg h1]
                    exact hinv.skew u v x hx
              · -- capacity bound
                intro u v x hx
                rw [hflowpt u v] at hx
                rw [hcap]
                by_cases h1 : (u, v) ∈ path
                · rw [if_pos h1] at hx
                  obtain ⟨x0, hx0, hxval⟩ := Option.map_eq_some'.1 hx
                  obtain ⟨c, fl, hc, hfl, -, hres⟩ := hedges (u, v) h1
                  rw [hx0] at hfl
                  have : x0 = fl := Option.some.inj hfl
                  refine ⟨c, hc, ?_⟩
                  subst this
                  omega
                · rw [if_neg h1] at hx
                  by_cases h2 : (v, u) ∈ path
                  · rw [if_pos h2] at hx
                    obtain ⟨x0, hx0, hxval⟩ := Option.map_eq_some'.1 hx
                    obtain ⟨c, hc, hle⟩ := hinv.bound u v x0 hx0
                    refine ⟨c, hc, ?_⟩
                    omega
                  · rw [if_neg h2] at hx
                    exact hinv.bound u v x hx
              · -- conservation at non-terminal nodes
                intro w row' hws hwt hrow'
                have hex : ∃ row, aget? g.flow w = some row := by
                  have := hrowkeys w
                  rw [hrow'] at this
                  cases hx : aget? g.flow w with
                  | none => rw [hx] at this; cases this
                  | some row => exact ⟨row, rfl⟩
                obtain ⟨row, hrow⟩ := hex
                have hsum := hrowsum w row row' hrow hrow'
                have hcnt := predchain_interior_counts hchain w hwt hws
                rw [hcnt] at hsum
                rw [hsum, hinv.conserve w row hws hwt hrow]
                ring
              · -- flow out of the source grows by the bottleneck
                intro row row' hrow hrow'
                have hsum := hrowsum source row row' hrow hrow'
                obtain ⟨hcf, hcs⟩ := predchain_source_counts hchain htail
                rw [hcf, hcs] at hsum
                refine ⟨f, hf1, ?_⟩
                rw [hsum]
                push_cast
                ring

/-! ## The caches are transparent: `build_graph` as an `add_edge` call list -/

lemma is_forbidden_cached_spec {s : SolverBellmanFord} (h : CacheOK s)
    (i j : Nat) :
    (s.is_forbidden_cached i j).1 = s.grid.is_forbidden i j ∧
    (s.is_forbidden_cached i j).2.grid = s.grid ∧
    (s.is_forbidden_cached i j).2.graph = s.graph ∧
    (s.is_forbidden_cached i j).2.pairs = s.pairs ∧
    CacheOK (s.is_forbidden_cached i j).2 := by
  unfold SolverBellmanFord.is_forbidden_cached
  cases hc : aget? s.forbidden_cache (i, j) with
  | some b =>
    exact ⟨h.2 (i, j) b hc, rfl, rfl, rfl, h⟩
  | none =>
    refine ⟨rfl, rfl, rfl, rfl, h.1, ?_⟩
    intro ij b hb
    by_cases hij : ij = (i, j)
    · subst hij
      rw [aget?_aset_self] at hb
      cases hb
      rfl
    · rw [aget?_aset_ne _ _ _ _ (fun hc' => hij hc'.symm)] at hb
      exact h.2 ij b hb

lemma get_cost_cached_spec {s : SolverBellmanFord} (h : CacheOK s)
    (pair : Pair) :
    (s.get_cost_cached pair).1 = s.grid.cost pair ∧
    (s.get_cost_cached pair).2.grid = s.grid ∧
    (s.get_cost_cached pair).2.graph = s.graph ∧
    (s.get_cost_cached pair).2.pairs = s.pairs ∧
    CacheOK (s.get_cost_cached pair).2 := by
  unfold SolverBellmanFord.get_cost_cached
  cases hc : aget? s.cost_cache pair with
  | some c =>
    exact ⟨h.1 pair c hc, rfl, rfl, rfl, h⟩
  | none =>
    refine ⟨rfl, rfl, rfl, rfl, ?_, h.2⟩
    intro p c hp
    by_cases hpp : p = pair
    · subst hpp
      rw [aget?_aset_self] at hp
      cases hp
      rfl
    · rw [aget?_aset_ne _ _ _ _ (fun hc' => hpp hc'.symm)] at hp
      exact h.1 p c hp

lemma apply_edges_append (g : Graph) (l1 l2 : List BEdge) :
    apply_edges g (l1 ++ l2) = apply_edges (apply_edges g l1) l2 :=
  List.foldl_append _ _ _ _

lemma add_edge_step_spec {s : SolverBellmanFord} (h : CacheOK s)
    (cell : Cell) (d : Int × Int) :
    (add_edge_step cell s d).graph =
      apply_edges s.graph (step_edge s.grid cell d) ∧
    (add_edge_step cell s d).grid = s.grid ∧
    (add_edge_step cell s d).pairs = s.pairs ∧
    CacheOK (add_edge_step cell s d) := by
  unfold add_edge_step step_edge
  dsimp only
  by_cases hb : 0 ≤ (cell.1 : Int) + d.1 ∧ (cell.1 : Int) + d.1 < (s.grid.n : Int) ∧
      0 ≤ (cell.2 : Int) + d.2 ∧ (cell.2 : Int) + d.2 < (s.grid.m : Int)
  · rw [if_pos hb, if_pos hb]
    obtain ⟨hf1, hf2, hf3, hf4, hf5⟩ :=
      is_forbidden_cached_spec h (((cell.1 : Int) + d.1).toNat)
        (((cell.2 : Int) + d.2).toNat)
    rw [hf1, hf2]
    by_cases ht : (!s.grid.is_forbidden (((cell.1 : Int) + d.1).toNat)
        (((cell.2 : Int) + d.2).toNat) &&
        s.grid.test_pair cell ((((cell.1 : Int) + d.1).toNat),
          (((cell.2 : Int) + d.2).toNat))) = true
    · rw [if_pos ht, if_pos ht]
      obtain ⟨hc1, hc2, hc3, hc4, hc5⟩ := get_cost_cached_spec hf5
        (cell, ((((cell.1 : Int) + d.1).toNat), (((cell.2 : Int) + d.2).toNat)))
      refine ⟨?_, hc2.trans hf2, hc4.trans hf4, hc5⟩
      show _ = apply_edges s.graph [_]
      rw [hc1, hc3, hf3, hf2]
      rfl
    · rw [if_neg ht, if_neg ht]
      exact ⟨hf3.symm ▸ rfl, hf2, hf4, hf5⟩
  · rw [if_neg hb, if_neg hb]
    exact ⟨rfl, rfl, rfl, h⟩

lemma foldl_add_edge_step_spec :
    ∀ (ds : List (Int × Int)) (s : SolverBellmanFord) (cell : Cell),
      CacheOK s →
      (ds.foldl (add_edge_step cell) s).graph =
        apply_edges s.graph (ds.flatMap (step_edge s.grid cell)) ∧
      (ds.foldl (add_edge_step cell) s).grid = s.grid ∧
      (ds.foldl (add_edge_step cell) s).pairs = s.pairs ∧
      CacheOK (ds.foldl (add_edge_step cell) s) := by
  intro ds
  induction ds with
  | nil => intro s cell h; exact ⟨rfl, rfl, rfl, h⟩
  | cons d ds ih =>
    intro s cell h
    obtain ⟨hg, hgr, hp, hok⟩ := add_edge_step_spec h cell d
    obtain ⟨ihg, ihgr, ihp, ihok⟩ := ih (add_edge_step cell s d) cell hok
    rw [List.foldl_cons]
    refine ⟨?_, ihgr.trans hgr, ihp.trans hp, ihok⟩
    rw [ihg, hg, hgr, List.flatMap_cons, apply_edges_append]

lemma add_edges_from_spec {s : SolverBellmanFord} (h : CacheOK s)
    (cell : Cell) :
    (s.add_edges_from cell).graph =
      apply_edges s.graph (cell_edges s.grid cell) ∧
    (s.add_edges_from cell).grid = s.grid ∧
    (s.add_edges_from cell).pairs = s.pairs ∧
    CacheOK (s.add_edges_from cell) :=
  foldl_add_edge_step_spec directions s cell h

lemma partition_foldl_spec :
    ∀ (cs : List Cell) (s : SolverBellmanFord) (acc1 acc2 : List Cell),
      CacheOK s →
      ∃ s', cs.foldl
          (fun acc c =>
            let fs := acc.1.is_forbidden_cached c.1 c.2
            if fs.1 then (fs.2, acc.2.1, acc.2.2)
            else if (c.1 + c.2) % 2 = 0 then (fs.2, acc.2.1 ++ [c], acc.2.2)
            else (fs.2, acc.2.1, acc.2.2 ++ [c]))
          (s, acc1, acc2) =
        (s', acc1 ++ cs.filter (fun c =>
            !s.grid.is_forbidden c.1 c.2 && decide ((c.1 + c.2) % 2 = 0)),
         acc2 ++ cs.filter (fun c =>
            !s.grid.is_forbidden c.1 c.2 && !decide ((c.1 + c.2) % 2 = 0))) ∧
        s'.grid = s.grid ∧ s'.graph = s.graph ∧ s'.pairs = s.pairs ∧
        CacheOK s' := by
  intro cs
  induction cs with
  | nil =>
    intro s acc1 acc2 h
    exact ⟨s, by simp, rfl, rfl, rfl, h⟩
  | cons c cs ih =>
    intro s acc1 acc2 h
    rw [List.foldl_cons]
    obtain ⟨hf1, hf2, hf3, hf4, hf5⟩ := is_forbidden_cached_spec h c.1 c.2
    dsimp only
    rw [hf1]
    rw [List.filter_cons, List.filter_cons]
    cases hforb : s.grid.is_forbidden c.1 c.2 with
    | true =>
      rw [if_pos rfl]
      simp only [hforb, Bool.not_true, Bool.false_and, Bool.false_eq_true,
        if_false]
      obtain ⟨s', heq, hg2, hg3, hg4, hok⟩ :=
        ih (s.is_forbidden_cached c.1 c.2).2 acc1 acc2 hf5
      rw [hf2] at heq
      exact ⟨s', heq, hg2.trans hf2, hg3.trans hf3, hg4.trans hf4, hok⟩
    | false =>
      rw [if_neg (by simp)]
      simp only [hforb, Bool.not_false, Bool.true_and]
      by_cases hpar : (c.1 + c.2) % 2 = 0
      · rw [if_pos hpar]
        rw [if_pos (by simpa using hpar), if_neg (by simpa using hpar)]
        obtain ⟨s', heq, hg2, hg3, hg4, hok⟩ :=
          ih (s.is_forbidden_cached c.1 c.2).2 (acc1 ++ [c]) acc2 hf5
        rw [hf2] at heq
        rw [heq, List.append_assoc]
        exact ⟨s', by simp, hg2.trans hf2, hg3.trans hf3, hg4.trans hf4, hok⟩
      · rw [if_neg hpar]
        rw [if_neg (by simpa using hpar), if_pos (by simpa using hpar)]
        obtain ⟨s', heq, hg2, hg3, hg4, hok⟩ :=
          ih (s.is_forbidden_cached c.1 c.2).2 acc1 (acc2 ++ [c]) hf5
        rw [hf2] at heq
        rw [heq, List.append_assoc]
        exact ⟨s', by simp, hg2.trans hf2, hg3.trans hf3, hg4.trans hf4, hok⟩

lemma partition_cells_spec {s : SolverBellmanFord} (h : CacheOK s) :
    ∃ s', s.partition_cells = (s', even_cells s.grid, odd_cells s.grid) ∧
      s'.grid = s.grid ∧ s'.graph = s.graph ∧ s'.pairs = s.pairs ∧
      CacheOK s' := by
  unfold SolverBellmanFord.partition_cells
  obtain ⟨s', heq, hg2, hg3, hg4, hok⟩ :=
    partition_foldl_spec (grid_cells s.grid) s [] [] h
  refine ⟨s', ?_, hg2, hg3, hg4, hok⟩
  rw [heq]
  rfl

lemma even_foldl_spec :
    ∀ (cs : List Cell) (s : SolverBellmanFord), CacheOK s →
      (cs.foldl
        (fun s cell =>
          let s' : SolverBellmanFord :=
            { s with graph := s.graph.add_edge Node.S (Node.cell cell.1 cell.2) 1 0 }
          s'.add_edges_from cell) s).graph =
        apply_edges s.graph (cs.flatMap fun c =>
          (Node.S, Node.cell c.1 c.2, 1, 0) :: cell_edges s.grid c) ∧
      (cs.foldl
        (fun s cell =>
          let s' : SolverBellmanFord :=
            { s with graph := s.graph.add_edge Node.S (Node.cell cell.1 cell.2) 1 0 }
          s'.add_edges_from cell) s).grid = s.grid ∧
      (cs.foldl
        (fun s cell =>
          let s' : SolverBellmanFord :=
            { s with graph := s.graph.add_edge Node.S (Node.cell cell.1 cell.2) 1 0 }
          s'.add_edges_from cell) s).pairs = s.pairs ∧
      CacheOK (cs.foldl
        (fun s cell =>
          let s' : SolverBellmanFord :=
            { s with graph := s.graph.add_edge Node.S (Node.cell cell.1 cell.2) 1 0 }
          s'.add_edges_from cell) s) := by
  intro cs
  induction cs with
  | nil => intro s h; exact ⟨by simp [apply_edges], rfl, rfl, h⟩
  | cons c cs ih =>
    intro s h
    rw [List.foldl_cons]
    dsimp only
    have hmid : CacheOK
        { s with graph := s.graph.add_edge Node.S (Node.cell c.1 c.2) 1 0 } := h
    obtain ⟨ha1, ha2, ha3, ha4⟩ := add_edges_from_spec hmid c
    obtain ⟨ih1, ih2, ih3, ih4⟩ := ih _ ha4
    refine ⟨?_, ih2.trans ha2, ih3.trans ha3, ih4⟩
    rw [ih1, ha1, ha2, List.flatMap_cons, apply_edges_append]
    rfl

lemma odd_foldl_spec :
    ∀ (cs : List Cell) (s : SolverBellmanFord),
      (cs.foldl
        (fun s cell =>
          { s with graph := s.graph.add_edge (Node.cell cell.1 cell.2) Node.T 1 0 }) s).graph =
        apply_edges s.graph (cs.map fun c => (Node.cell c.1 c.2, Node.T, 1, 0)) ∧
      (cs.foldl
        (fun s cell =>
          { s with graph := s.graph.add_edge (Node.cell cell.1 cell.2) Node.T 1 0 }) s).grid = s.grid ∧
      (cs.foldl
        (fun s cell =>
          { s with graph := s.graph.add_edge (Node.cell cell.1 cell.2) Node.T 1 0 }) s).pairs = s.pairs := by
  intro cs
  induction cs with
  | nil => intro s; exact ⟨by simp [apply_edges], rfl, rfl⟩
  | cons c cs ih =>
    intro s
    rw [List.foldl_cons]
    obtain ⟨ih1, ih2, ih3⟩ := ih _
    exact ⟨ih1, ih2, ih3⟩

lemma build_graph_spec {s : SolverBellmanFord} (h : CacheOK s) :
    (s.build_graph).graph = apply_edges s.graph (build_edge_list s.grid) ∧
    (s.build_graph).grid = s.grid ∧
    (s.build_graph).pairs = s.pairs := by
  unfold SolverBellmanFord.build_graph
  obtain ⟨s', heq, hg2, hg3, hg4, hok⟩ := partition_cells_spec h
  rw [heq]
  dsimp only
  obtain ⟨he1, he2, he3, he4⟩ := even_foldl_spec (even_cells s.grid) s' hok
  obtain ⟨ho1, ho2, ho3⟩ := odd_foldl_spec (odd_cells s.grid) _
  refine ⟨?_, ho2.trans (he2.trans hg2), ho3.trans (he3.trans hg4)⟩
  rw [ho1, he1, hg3, hg2, ← apply_edges_append]
  rfl

/-! ## Static shape of the built edge list -/

lemma mem_grid_cells {g : Grid} {c : Cell} :
    c ∈ grid_cells g ↔ c.1 < g.n ∧ c.2 < g.m := by
  unfold grid_cells
  rw [List.mem_flatMap]
  constructor
  · rintro ⟨i, hi, hc⟩
    rw [List.mem_map] at hc
    obtain ⟨j, hj, rfl⟩ := hc
    exact ⟨List.mem_range.1 hi, List.mem_range.1 hj⟩
  · rintro ⟨h1, h2⟩
    exact ⟨c.1, List.mem_range.2 h1,
      List.mem_map.2 ⟨c.2, List.mem_range.2 h2, rfl⟩⟩

lemma grid_cells_nodup (g : Grid) : (grid_cells g).Nodup := by
  unfold grid_cells
  rw [List.nodup_flatMap]
  constructor
  · intro i _
    exact (List.nodup_range _).map fun a b hab => congrArg Prod.snd hab
  · refine List.Pairwise.imp ?_ (List.nodup_range g.n)
    intro i j hij x hx1 hx2
    rw [List.mem_map] at hx1 hx2
    obtain ⟨a, -, rfl⟩ := hx1
    obtain ⟨b, -, hb⟩ := hx2
    exact hij (congrArg Prod.fst hb).symm

lemma even_cells_nodup (g : Grid) : (even_cells g).Nodup :=
  (grid_cells_nodup g).filter _

lemma odd_cells_nodup (g : Grid) : (odd_cells g).Nodup :=
  (grid_cells_nodup g).filter _

lemma mem_even_cells {g : Grid} {c : Cell} :
    c ∈ even_cells g ↔
      c.1 < g.n ∧ c.2 < g.m ∧ g.is_forbidden c.1 c.2 = false ∧
      (c.1 + c.2) % 2 = 0 := by
  unfold even_cells
  rw [List.mem_filter, mem_grid_cells]
  simp [Bool.and_eq_true]
  tauto

lemma mem_odd_cells {g : Grid} {c : Cell} :
    c ∈ odd_cells g ↔
      c.1 < g.n ∧ c.2 < g.m ∧ g.is_forbidden c.1 c.2 = false ∧
      ¬ (c.1 + c.2) % 2 = 0 := by
  unfold odd_cells
  rw [List.mem_filter, mem_grid_cells]
  simp [Bool.and_eq_true]
  tauto

/-- Membership shape of `step_edge`: a unit-capacity edge to an in-bounds,
non-forbidden, `test_pair`-compatible neighbor at offset `d`, whose parity
is opposite to the cell's. -/
lemma mem_step_edge {g : Grid} {c : Cell} {d : Int × Int} {e : BEdge}
    (hd : d ∈ directions) (he : e ∈ step_edge g c d) :
    ∃ nb : Cell, e = (Node.cell c.1 c.2, Node.cell nb.1 nb.2, 1, g.cost (c, nb)) ∧
      nb.1 < g.n ∧ nb.2 < g.m ∧ g.is_forbidden nb.1 nb.2 = false ∧
      g.test_pair c nb = true ∧
      ¬ (nb.1 + nb.2) % 2 = (c.1 + c.2) % 2 ∧
      (nb.1 : Int) = (c.1 : Int) + d.1 ∧ (nb.2 : Int) = (c.2 : Int) + d.2 := by
  unfold step_edge at he
  dsimp only at he
  by_cases hb : 0 ≤ (c.1 : Int) + d.1 ∧ (c.1 : Int) + d.1 < (g.n : Int) ∧
      0 ≤ (c.2 : Int) + d.2 ∧ (c.2 : Int) + d.2 < (g.m : Int)
  · rw [if_pos hb] at he
    by_cases ht : (!g.is_forbidden ((c.1 : Int) + d.1).toNat ((c.2 : Int) + d.2).toNat &&
        g.test_pair c (((c.1 : Int) + d.1).toNat, ((c.2 : Int) + d.2).toNat)) = true
    · rw [if_pos ht] at he
      rcases List.mem_singleton.1 he with rfl
      rw [Bool.and_eq_true, Bool.not_eq_true'] at ht
      refine ⟨(((c.1 : Int) + d.1).toNat, ((c.2 : Int) + d.2).toNat),
        rfl, by omega, by omega, ht.1, ht.2, ?_, by omega, by omega⟩
      fin_cases hd <;> simp only [] <;> omega
    · rw [if_neg ht] at he
      cases he
  · rw [if_neg hb] at he
    cases he

/-- Decomposition of the built call list: every call is a source edge to an
even cell, a valid even→odd cell edge, or an odd cell's sink edge. -/
lemma build_mem {g : Grid} {e : BEdge} (he : e ∈ build_edge_list g) :
    (∃ c ∈ even_cells g, e = (Node.S, Node.cell c.1 c.2, 1, 0)) ∨
    (∃ c ∈ even_cells g, ∃ nb ∈ odd_cells g,
      g.test_pair c nb = true ∧
      e = (Node.cell c.1 c.2, Node.cell nb.1 nb.2, 1, g.cost (c, nb))) ∨
    (∃ c ∈ odd_cells g, e = (Node.cell c.1 c.2, Node.T, 1, 0)) := by
  unfold build_edge_list at he
  rcases List.mem_append.1 he with h | h
  · rw [List.mem_flatMap] at h
    obtain ⟨c, hc, hm⟩ := h
    rcases List.mem_cons.1 hm with rfl | hm'
    · exact Or.inl ⟨c, hc, rfl⟩
    · rw [cell_edges, List.mem_flatMap] at hm'
      obtain ⟨d, hd, hm''⟩ := hm'
      obtain ⟨nb, heq, hn1, hn2, hn3, hn4, hn5, -, -⟩ := mem_step_edge hd hm''
      refine Or.inr (Or.inl ⟨c, hc, nb, ?_, hn4, heq⟩)
      rw [mem_odd_cells]
      have hpar := (mem_even_cells.1 hc).2.2.2
      refine ⟨hn1, hn2, hn3, ?_⟩
      omega
  · rw [List.mem_map] at h
    obtain ⟨c, hc, rfl⟩ := h
    exact Or.inr (Or.inr ⟨c, hc, rfl⟩)

/-- Every capacity in the built call list is 1. -/
lemma build_caps_one {g : Grid} {e : BEdge} (he : e ∈ build_edge_list g) :
    e.2.2.1 = 1 := by
  rcases build_mem he with ⟨c, -, rfl⟩ | ⟨c, -, nb, -, -, rfl⟩ | ⟨c, -, rfl⟩ <;> rfl

lemma step_edge_short (g : Grid) (c : Cell) (d : Int × Int) :
    step_edge g c d = [] ∨ ∃ e, step_edge g c d = [e] := by
  unfold step_edge
  dsimp only
  split
  · split
    · exact Or.inr ⟨_, rfl⟩
    · exact Or.inl rfl
  · exact Or.inl rfl

lemma mem_cell_edges_pr {g : Grid} {c : Cell} {x : Node × Node}
    (hx : x ∈ (cell_edges g c).map fun e => (e.1, e.2.1)) :
    ∃ nb : Cell, x = (Node.cell c.1 c.2, Node.cell nb.1 nb.2) := by
  rw [List.mem_map] at hx
  obtain ⟨e, he, rfl⟩ := hx
  rw [cell_edges, List.mem_flatMap] at he
  obtain ⟨d, hd, he'⟩ := he
  obtain ⟨nb, rfl, -⟩ := mem_step_edge hd he'
  exact ⟨nb, rfl⟩

lemma cell_edges_prs_nodup (g : Grid) (c : Cell) :
    ((cell_edges g c).map fun e => (e.1, e.2.1)).Nodup := by
  rw [cell_edges, List.map_flatMap _ _ _, List.nodup_flatMap]
  constructor
  · intro d _
    rcases step_edge_short g c d with h | ⟨e, h⟩ <;> rw [h] <;> simp
  · have hnd : directions.Pairwise (· ≠ ·) := by decide
    refine hnd.imp_of_mem ?_
    intro d1 d2 h1 h2 hne x hx1 hx2
    rw [List.mem_map] at hx1 hx2
    obtain ⟨e1, he1, rfl⟩ := hx1
    obtain ⟨e2, he2, hpr⟩ := hx2
    obtain ⟨nb1, rfl, -, -, -, -, -, ha1, ha2⟩ := mem_step_edge h1 he1
    obtain ⟨nb2, rfl, -, -, -, -, -, hb1, hb2⟩ := mem_step_edge h2 he2
    simp only [Prod.mk.injEq, Node.cell.injEq] at hpr
    obtain ⟨-, h1', h2'⟩ := hpr
    refine hne (Prod.ext ?_ ?_) <;> omega

lemma build_edge_list_ok (g : Grid) : EdgeListOK (build_edge_list g) := by
  constructor
  · unfold build_edge_list
    rw [List.map_append, List.nodup_append]
    refine ⟨?_, ?_, ?_⟩
    · rw [List.map_flatMap _ _ _, List.nodup_flatMap]
      constructor
      · intro c _
        rw [List.map_cons]
        refine List.nodup_cons.2 ⟨?_, cell_edges_prs_nodup g c⟩
        intro hmem
        obtain ⟨nb, hnb⟩ := mem_cell_edges_pr hmem
        simp at hnb
      · have hnd : (even_cells g).Pairwise (· ≠ ·) := even_cells_nodup g
        refine hnd.imp_of_mem ?_
        intro c1 c2 h1 h2 hne x hx1 hx2
        rcases List.mem_cons.1 hx1 with rfl | hx1' <;>
          rcases List.mem_cons.1 hx2 with h2eq | hx2'
        · simp only [Prod.mk.injEq, Node.cell.injEq] at h2eq
          exact hne (Prod.ext h2eq.2.1 h2eq.2.2)
        · obtain ⟨nb, hnb⟩ := mem_cell_edges_pr hx2'
          simp at hnb
        · obtain ⟨nb, hnb⟩ := mem_cell_edges_pr hx1'
          rw [hnb] at hx2
          rcases List.mem_cons.1 hx2 with h' | h'
          · simp at h'
          · obtain ⟨nb', hnb'⟩ := mem_cell_edges_pr h'
            simp only [Prod.mk.injEq, Node.cell.injEq] at hnb'
            exact hne (Prod.ext hnb'.1.1 hnb'.1.2)
        · obtain ⟨nb, hnb⟩ := mem_cell_edges_pr hx1'
          rw [hnb] at hx2'
          obtain ⟨nb', hnb'⟩ := mem_cell_edges_pr hx2'
          simp only [Prod.mk.injEq, Node.cell.injEq] at hnb'
          exact hne (Prod.ext hnb'.1.1 hnb'.1.2)
    · rw [List.map_map]
      refine (odd_cells_nodup g).map ?_
      intro a b hab
      simp only [Function.comp, Prod.mk.injEq, Node.cell.injEq] at hab
      exact Prod.ext hab.1.1 hab.1.2
    · intro x hx1 hx2
      rw [List.map_map, List.mem_map] at hx2
      obtain ⟨c', -, hc'⟩ := hx2
      rw [List.map_flatMap _ _ _, List.mem_flatMap] at hx1
      obtain ⟨c, -, hm⟩ := hx1
      rcases List.mem_cons.1 hm with rfl | hm'
      · simp only [Function.comp, Prod.mk.injEq] at hc'
        exact Node.noConfusion hc'.2
      · obtain ⟨nb, hnb⟩ := mem_cell_edges_pr hm'
        rw [hnb] at hc'
        simp only [Function.comp, Prod.mk.injEq] at hc'
        exact Node.noConfusion hc'.2
  · intro e he e' he' hrev
    obtain ⟨hh1, hh2⟩ := hrev
    rcases build_mem he with ⟨c, hc, rfl⟩ | ⟨c, hc, nb, hnb, ht, rfl⟩ |
        ⟨c, hc, rfl⟩ <;>
      rcases build_mem he' with ⟨c', hc', rfl⟩ | ⟨c', hc', nb', hnb', ht', rfl⟩ |
        ⟨c', hc', rfl⟩ <;>
      simp only [] at hh1 hh2
    · exact Node.noConfusion hh1
    · exact Node.noConfusion hh1
    · exact Node.noConfusion hh1
    · exact Node.noConfusion hh2
    · rw [Node.cell.injEq] at hh1
      have hpc := (mem_even_cells.1 hc).2.2.2
      have hpn := (mem_odd_cells.1 hnb').2.2.2
      omega
    · exact Node.noConfusion hh1
    · exact Node.noConfusion hh2
    · exact Node.noConfusion hh2
    · exact Node.noConfusion hh1

/-! ## Initial invariants of a freshly built graph -/

lemma align_rows_nodup_flow {G : Graph} (h : AlignInv G) : RowsNodupF G := by
  intro u row hrow
  have := h.flow_align u
  rw [hrow] at this
  cases hc : aget? G.capacity u with
  | none => rw [hc] at this; cases this
  | some crow =>
    rw [hc] at this
    simp only [Option.map_some'] at this
    have heq : akeys row = akeys crow := Option.some.inj this
    rw [heq]
    exact h.rows_nodup u crow hc

/-- In a freshly built graph every flow row sums to 0 (all entries are 0). -/
lemma built_flow_rows_zero {l : List BEdge} (hok : EdgeListOK l) :
    ∀ u row, aget? (apply_edges Graph.empty l).flow u = some row →
      (row.map Prod.snd).sum = 0 := by
  have bf := apply_edges_facts l hok
  have hnd : RowsNodupF (apply_edges Graph.empty l) :=
    align_rows_nodup_flow bf.align
  intro u row hrow
  refine sum_snd_zero ?_
  intro p hp
  have hget : aget? row p.1 = some p.2 :=
    aget?_eq_some_of_mem_nodup (hnd u row hrow) (by
      cases p
      exact hp)
  have hflow : dget? (apply_edges Graph.empty l).flow u p.1 = some p.2 := by
    unfold dget?
    rw [hrow]
    exact hget
  exact ((bf.flow_iff u p.1 p.2).1 hflow).1

lemma built_flow_invs {l : List BEdge} (hok : EdgeListOK l)
    (hcap : ∀ e ∈ l, 0 ≤ e.2.2.1) (source sink : Node) :
    FlowInvs source sink (apply_edges Graph.empty l) := by
  have bf := apply_edges_facts l hok
  have hnd : RowsNodupF (apply_edges Graph.empty l) :=
    align_rows_nodup_flow bf.align
  refine ⟨?_, ?_, ?_, hnd⟩
  · intro u v x hx
    obtain ⟨hx0, hdir⟩ := (bf.flow_iff u v x).1 hx
    subst hx0
    rw [show (-(0 : Int)) = 0 by ring]
    exact (bf.flow_iff v u 0).2 ⟨rfl, hdir.symm⟩
  · intro u v x hx
    obtain ⟨hx0, hdir⟩ := (bf.flow_iff u v x).1 hx
    subst hx0
    rcases hdir with ⟨c, k, hm⟩ | ⟨c, k, hm⟩
    · exact ⟨c, (bf.cap_iff u v c).2 (Or.inl ⟨k, hm⟩), hcap _ hm⟩
    · exact ⟨0, (bf.cap_iff u v 0).2 (Or.inr ⟨rfl, c, k, hm⟩), le_refl 0⟩
  · intro u row _ _ hrow
    exact built_flow_rows_zero hok u row hrow

/-- Accumulated effect of `k` successful augmentation steps: the invariants
still hold, the static dictionaries and the flow's key structure are
unchanged, and the flow out of the source has grown to at least `k`. -/
lemma aug_steps_facts {source sink : Node} {bfF wF : Nat} {g0 : Graph}
    {tc0 : Int} {k : Nat} {g' : Graph} {tc' : Int}
    (hss : ¬ sink = source)
    (hinv0 : FlowInvs source sink g0)
    (hzero : ∀ row, aget? g0.flow source = some row →
      (row.map Prod.snd).sum = 0)
    (h : AugSteps source sink bfF wF g0 tc0 k g' tc') :
    FlowInvs source sink g' ∧
    g'.capacity = g0.capacity ∧ g'.cost = g0.cost ∧ g'.adj_list = g0.adj_list ∧
    (∀ a, (aget? g'.flow a).map akeys = (aget? g0.flow a).map akeys) ∧
    ((k = 0 ∧ g' = g0) ∨ ∃ row', aget? g'.flow source = some row') ∧
    ∀ row', aget? g'.flow source = some row' →
      (k : Int) ≤ (row'.map Prod.snd).sum := by
  induction h with
  | refl =>
    refine ⟨hinv0, rfl, rfl, rfl, fun a => rfl, Or.inl ⟨rfl, rfl⟩, ?_⟩
    intro row' hrow'
    rw [hzero row' hrow']
    simp
  | step hprev hstep ih =>
    next k g1 g2 tc1 tc2 =>
    obtain ⟨hinv1, hc1, hco1, ha1, hk1, -, hsum1⟩ := ih
    obtain ⟨hinv2, hc2, hco2, ha2, hk2, ⟨row1, hrow1⟩, hsum2⟩ :=
      mcf_step_preserves hss hinv1 hstep
    refine ⟨hinv2, hc2.trans hc1, hco2.trans hco1, ha2.trans ha1,
      fun a => (hk2 a).trans (hk1 a), ?_, ?_⟩
    · have := hk2 source
      rw [hrow1] at this
      cases hr2 : aget? g2.flow source with
      | none => rw [hr2] at this; cases this
      | some row2 => exact Or.inr ⟨row2, rfl⟩
    · intro row2 hrow2
      obtain ⟨f, hf1, hfsum⟩ := hsum2 row1 row2 hrow1 hrow2
      have h1 := hsum1 row1 hrow1
      rw [hfsum]
      push_cast
      omega

/-! ## The source row of the built network -/

lemma build_no_edge_into_source {g : Grid} {e : BEdge}
    (he : e ∈ build_edge_list g) : ¬ e.2.1 = Node.S := by
  rcases build_mem he with ⟨c, -, rfl⟩ | ⟨c, -, nb, -, -, rfl⟩ | ⟨c, -, rfl⟩ <;>
    exact fun hc => Node.noConfusion hc

lemma build_cap_source {g : Grid} {v : Node} {x : Int}
    (h : dget? (apply_edges Graph.empty (build_edge_list g)).capacity
      Node.S v = some x) :
    x = 1 ∧ ∃ c ∈ even_cells g, v = Node.cell c.1 c.2 := by
  have bf := apply_edges_facts _ (build_edge_list_ok g)
  rcases (bf.cap_iff Node.S v x).1 h with ⟨k, hm⟩ | ⟨-, c, k, hm⟩
  · rcases build_mem hm with ⟨c, hc, heq⟩ | ⟨c, -, nb, -, -, heq⟩ | ⟨c, -, heq⟩
    · simp only [Prod.mk.injEq] at heq
      exact ⟨heq.2.2.1, c, hc, heq.2.1⟩
    · simp at heq
    · simp at heq
  · exact absurd rfl (build_no_edge_into_source hm)

lemma build_cap_source_mem {g : Grid} {c : Cell} (hc : c ∈ even_cells g) :
    dget? (apply_edges Graph.empty (build_edge_list g)).capacity
      Node.S (Node.cell c.1 c.2) = some 1 := by
  have bf := apply_edges_facts _ (build_edge_list_ok g)
  refine (bf.cap_iff Node.S (Node.cell c.1 c.2) 1).2 (Or.inl ⟨0, ?_⟩)
  unfold build_edge_list
  refine List.mem_append.2 (Or.inl (List.mem_flatMap.2 ⟨c, hc, ?_⟩))
  exact List.mem_cons_self _ _

/-- The source's capacity row has exactly one (unit) entry per even cell. -/
lemma build_source_row_len {g : Grid} {row : AList Node Int}
    (hrow : aget? (apply_edges Graph.empty (build_edge_list g)).capacity
      Node.S = some row) :
    row.length = (even_cells g).length := by
  have bf := apply_edges_facts _ (build_edge_list_ok g)
  have hnd : (akeys row).Nodup := bf.align.rows_nodup Node.S row hrow
  have hmem : ∀ v, v ∈ akeys row ↔
      v ∈ (even_cells g).map fun c => Node.cell c.1 c.2 := by
    intro v
    constructor
    · intro hv
      have hs : (aget? row v).isSome = true := (aget?_isSome_iff_mem row v).2 hv
      obtain ⟨x, hx⟩ := Option.isSome_iff_exists.1 hs
      have hcap : dget? (apply_edges Graph.empty (build_edge_list g)).capacity
          Node.S v = some x := by
        unfold dget?
        rw [hrow]
        exact hx
      obtain ⟨-, c, hc, rfl⟩ := build_cap_source hcap
      exact List.mem_map.2 ⟨c, hc, rfl⟩
    · intro hv
      obtain ⟨c, hc, rfl⟩ := List.mem_map.1 hv
      have hcap := build_cap_source_mem hc
      unfold dget? at hcap
      rw [hrow] at hcap
      simp only [Option.some_bind] at hcap
      exact (aget?_isSome_iff_mem row _).1 (by rw [hcap]; rfl)
  have hnd2 : ((even_cells g).map fun c => Node.cell c.1 c.2).Nodup := by
    refine (even_cells_nodup g).map ?_
    intro a b hab
    rw [Node.cell.injEq] at hab
    exact Prod.ext hab.1 hab.2
  have hlen : (akeys row).length =
      ((even_cells g).map fun c => Node.cell c.1 c.2).length :=
    ((List.perm_ext_iff_of_nodup hnd hnd2).2 hmem).length_eq
  rw [List.length_map] at hlen
  rw [← hlen]
  exact (List.length_map _ _).symm

lemma init_cache_ok (g : Grid) : CacheOK (SolverBellmanFord.init g) := by
  constructor
  · intro p c hc
    simp [SolverBellmanFord.init, aget?] at hc
  · intro ij b hb
    simp [SolverBellmanFord.init, aget?] at hb

lemma init_build_graph_eq (g : Grid) :
    ((SolverBellmanFord.init g).build_graph).graph =
      apply_edges Graph.empty (build_edge_list g) := by
  obtain ⟨h1, -, -⟩ := build_graph_spec (init_cache_ok g)
  exact h1

/-- C6: on the network built by `build_graph`, any run of successful
augmentation steps is bounded in length by the number of even cells, and
every further iteration of the `min_cost_flow` loop either stops (breaks)
or pushes at least one more unit of flow out of the source. -/
theorem C6_augmentation_terminates (g : Grid) (bfF wF : Nat)
    (k : Nat) (g' : Graph) (tc' : Int)
    (h : AugSteps Node.S Node.T bfF wF
      ((SolverBellmanFord.init g).build_graph).graph 0 k g' tc') :
    k ≤ (even_cells g).length ∧
    ∀ r, mcf_step Node.S Node.T bfF wF g' tc' = .ok r →
      r = none ∨
      ∃ g'' tc'', r = some (g'', tc'') ∧
        ∀ row row', aget? g'.flow Node.S = some row →
          aget? g''.flow Node.S = some row' →
          ∃ f : Int, 1 ≤ f ∧
            (row'.map Prod.snd).sum = (row.map Prod.snd).sum + f := by
  rw [init_build_graph_eq] at h
  have hok := build_edge_list_ok g
  have bf := apply_edges_facts _ hok
  have hss : ¬ Node.T = Node.S := fun hc => Node.noConfusion hc
  have hinv0 := built_flow_invs hok
    (fun e he => by rw [build_caps_one he]; decide) Node.S Node.T
  have hzero := fun row hrow => built_flow_rows_zero hok Node.S row hrow
  obtain ⟨hinv, hcap', -, -, hkeys, hex, hsum⟩ :=
    aug_steps_facts hss hinv0 hzero h
  constructor
  · -- the step count is bounded by the number of even cells
    cases Nat.eq_zero_or_pos k with
    | inl hk0 => rw [hk0]; exact Nat.zero_le _
    | inr hkpos =>
      obtain ⟨row', hrow'⟩ : ∃ row', aget? g'.flow Node.S = some row' := by
        rcases hex with ⟨hk0, -⟩ | hx
        · omega
        · exact hx
      have hklo := hsum row' hrow'
      -- every entry of the source's flow row is at most 1
      have hub : ∀ p ∈ row', p.2 ≤ (1 : Int) := by
        intro p hp
        have hget : aget? row' p.1 = some p.2 :=
          aget?_eq_some_of_mem_nodup (hinv.nodup Node.S row' hrow') (by
            cases p
            exact hp)
        have hflow : dget? g'.flow Node.S p.1 = some p.2 := by
          unfold dget?
          rw [hrow']
          exact hget
        obtain ⟨c, hc, hle⟩ := hinv.bound Node.S p.1 p.2 hflow
        rw [hcap'] at hc
        obtain ⟨hc1, -⟩ := build_cap_source hc
        omega
      have hsle := sum_snd_le_length hub
      -- the row has one entry per even cell
      obtain ⟨crow, hcrow⟩ :
          ∃ crow, aget? (apply_edges Graph.empty (build_edge_list g)).capacity
            Node.S = some crow := by
        have h1 := hkeys Node.S
        rw [hrow'] at h1
        have h2 := bf.align.flow_align Node.S
        rw [← h2] at *
        cases hcc : aget? (apply_edges Graph.empty (build_edge_list g)).flow
            Node.S with
        | none =>
          rw [hcc] at h1
          cases h1
        | some frow =>
          have h3 := bf.align.flow_align Node.S
          rw [hcc] at h3
          cases hcap2 : aget? (apply_edges Graph.empty
              (build_edge_list g)).capacity Node.S with
          | none => rw [hcap2] at h3; cases h3
          | some crow => exact ⟨crow, rfl⟩
      have hlen : row'.length = (even_cells g).length := by
        have h1 := hkeys Node.S
        rw [hrow'] at h1
        have h2 := bf.align.flow_align Node.S
        rw [hcrow] at h2
        cases hcc : aget? (apply_edges Graph.empty (build_edge_list g)).flow
            Node.S with
        | none => rw [hcc] at h1; cases h1
        | some frow =>
          rw [hcc] at h1 h2
          simp only [Option.map_some'] at h1 h2
          have e1 : akeys row' = akeys frow := Option.some.inj h1
          have e2 : akeys frow = akeys crow := Option.some.inj h2
          have e3 : row'.length = crow.length := by
            have := congrArg List.length (e1.trans e2)
            simpa [akeys] using this
          rw [e3]
          exact build_source_row_len hcrow
      rw [hlen] at hsle
      omega
  · intro r hr
    cases r with
    | none => exact Or.inl rfl
    | some p =>
      obtain ⟨g'', tc''⟩ := p
      refine Or.inr ⟨g'', tc'', rfl, ?_⟩
      obtain ⟨-, -, -, -, -, -, hstep⟩ := mcf_step_preserves hss hinv hr
      exact hstep

/-- Witness for C6: the empty run of augmentation steps on the network built
from a concrete 2×2 grid satisfies the bound and the step alternative. -/
theorem C6_augmentation_terminates_witness :
    0 ≤ (even_cells Wgrid).length ∧
    ∀ r, mcf_step Node.S Node.T 9 9
        ((SolverBellmanFord.init Wgrid).build_graph).graph 0 = .ok r →
      r = none ∨
      ∃ g'' tc'', r = some (g'', tc'') ∧
        ∀ row row',
          aget? ((SolverBellmanFord.init Wgrid).build_graph).graph.flow
            Node.S = some row →
          aget? g''.flow Node.S = some row' →
          ∃ f : Int, 1 ≤ f ∧
            (row'.map Prod.snd).sum = (row.map Prod.snd).sum + f :=
  C6_augmentation_terminates Wgrid 9 9 0 _ 0 AugSteps.refl

/-- Counterexample to C7 as stated: if a sequence of `add_edge` calls adds
both directions of the same pair, the later call's reciprocal edge clobbers
the earlier principal edge's reverse metadata.  After
`add_edge(a, b, 1, 5); add_edge(b, a, 1, 7)` the reverse of the first edge
`(a→b)` has capacity 1 (not 0) and cost 7 (not −5). -/
theorem C7_reverse_edge_counterexample :
    (Node.cell 0 0, Node.cell 0 1, 1, 5) ∈
      ([(Node.cell 0 0, Node.cell 0 1, 1, 5),
        (Node.cell 0 1, Node.cell 0 0, 1, 7)] : List BEdge) ∧
    dget? (apply_edges Graph.empty
        [(Node.cell 0 0, Node.cell 0 1, 1, 5),
         (Node.cell 0 1, Node.cell 0 0, 1, 7)]).capacity
      (Node.cell 0 1) (Node.cell 0 0) = some 1 ∧
    ¬ (1 : Int) = 0 ∧
    dget? (apply_edges Graph.empty
        [(Node.cell 0 0, Node.cell 0 1, 1, 5),
         (Node.cell 0 1, Node.cell 0 0, 1, 7)]).cost
      (Node.cell 0 1) (Node.cell 0 0) = some 7 ∧
    ¬ (7 : Int) = -5 :=
  ⟨by decide, rfl, by decide, rfl, by decide⟩

/-- C7 (amended): for a call sequence that never adds the same ordered pair
twice nor both directions of a pair (as `build_graph`'s sequences do), after
any number of augmentation steps every added edge's reverse has capacity 0
and negated cost, and the flows of the two directions are always negatives
of each other. -/
theorem C7_reverse_edge_invariant (l : List BEdge) (source sink : Node)
    (bfF wF : Nat) (k : Nat) (g' : Graph) (tc' : Int)
    (hok : EdgeListOK l) (hcap : ∀ e ∈ l, 0 ≤ e.2.2.1)
    (hss : ¬ sink = source)
    (h : AugSteps source sink bfF wF (apply_edges Graph.empty l) 0 k g' tc') :
    (∀ e ∈ l, dget? g'.capacity e.2.1 e.1 = some 0 ∧
      dget? g'.cost e.2.1 e.1 = some (-e.2.2.2)) ∧
    ∀ u v x, dget? g'.flow u v = some x → dget? g'.flow v u = some (-x) := by
  have bf := apply_edges_facts l hok
  have hinv0 := built_flow_invs hok hcap source sink
  have hzero := fun row hrow => built_flow_rows_zero hok source row hrow
  obtain ⟨hinv, hcap', hcost', -, -, -, -⟩ :=
    aug_steps_facts hss hinv0 hzero h
  constructor
  · intro e he
    constructor
    · rw [hcap']
      exact (bf.cap_iff e.2.1 e.1 0).2 (Or.inr ⟨rfl, e.2.2.1, e.2.2.2, he⟩)
    · rw [hcost']
      exact (bf.cost_iff e.2.1 e.1 (-e.2.2.2)).2
        (Or.inr ⟨e.2.2.1, e.2.2.2, he, rfl⟩)
  · exact hinv.skew

/-- Witness for C7 (amended): a concrete well-formed single-edge call list
with the empty run of augmentation steps. -/
theorem C7_reverse_edge_invariant_witness :
    EdgeListOK [(Node.cell 0 0, Node.cell 0 1, 1, 5)] ∧
    (∀ e ∈ ([(Node.cell 0 0, Node.cell 0 1, 1, 5)] : List BEdge),
      (0 : Int) ≤ e.2.2.1) ∧
    ¬ Node.T = Node.S ∧
    ((∀ e ∈ ([(Node.cell 0 0, Node.cell 0 1, 1, 5)] : List BEdge),
      dget? (apply_edges Graph.empty
        [(Node.cell 0 0, Node.cell 0 1, 1, 5)]).capacity e.2.1 e.1 = some 0 ∧
      dget? (apply_edges Graph.empty
        [(Node.cell 0 0, Node.cell 0 1, 1, 5)]).cost e.2.1 e.1 =
          some (-e.2.2.2)) ∧
    ∀ u v x, dget? (apply_edges Graph.empty
        [(Node.cell 0 0, Node.cell 0 1, 1, 5)]).flow u v = some x →
      dget? (apply_edges Graph.empty
        [(Node.cell 0 0, Node.cell 0 1, 1, 5)]).flow v u = some (-x)) :=
  ⟨⟨by decide, by decide⟩, by decide, by decide,
    C7_reverse_edge_invariant [(Node.cell 0 0, Node.cell 0 1, 1, 5)]
      Node.S Node.T 9 9 0 _ 0 ⟨by decide, by decide⟩ (by decide) (by decide)
      AugSteps.refl⟩

/-! ## Decomposing a terminated `mcf_loop` into augmentation steps -/

lemma aug_steps_prepend {source sink : Node} {bfF wF : Nat}
    {g0 g1 : Graph} {tc0 tc1 : Int} {k : Nat} {g' : Graph} {tc' : Int}
    (hstep : mcf_step source sink bfF wF g0 tc0 = .ok (some (g1, tc1)))
    (h : AugSteps source sink bfF wF g1 tc1 k g' tc') :
    AugSteps source sink bfF wF g0 tc0 (k + 1) g' tc' := by
  induction h with
  | refl => exact AugSteps.step AugSteps.refl hstep
  | step hprev hs ih => exact AugSteps.step ih hs

lemma mcf_loop_steps {source sink : Node} {bfF wF : Nat} :
    ∀ {fuel : Nat} {g : Graph} {tc : Int} {g' : Graph} {tc' : Int},
      mcf_loop source sink bfF wF fuel g tc = .ok (g', tc') →
      ∃ k, AugSteps source sink bfF wF g tc k g' tc' ∧
        mcf_step source sink bfF wF g' tc' = .ok none := by
  intro fuel
  induction fuel with
  | zero => intro g tc g' tc' h; cases h
  | succ fuel ih =>
    intro g tc g' tc' h
    unfold mcf_loop at h
    cases hstep : mcf_step source sink bfF wF g tc with
    | error e => rw [hstep] at h; cases h
    | ok r =>
      rw [hstep] at h
      cases r with
      | none =>
        dsimp only at h
        cases h
        exact ⟨0, AugSteps.refl, hstep⟩
      | some p =>
        obtain ⟨g1, tc1⟩ := p
        dsimp only at h
        obtain ⟨k, hsteps, hbreak⟩ := ih h
        exact ⟨k + 1, aug_steps_prepend hstep hsteps, hbreak⟩

/-! ## What the pair extraction collects -/

lemma collect_row_mem {g : Graph} {source sink u : Node} :
    ∀ {vs : List Node} {r : List (Node × Node)},
      collect_row g source sink u vs = .ok r →
      ∀ x, x ∈ r ↔ ∃ v, x = (u, v) ∧ v ∈ vs ∧ ¬ (v = source ∨ v = sink) ∧
        dget? g.flow u v = some 1 := by
  intro vs
  induction vs with
  | nil =>
    intro r h x
    cases h
    simp
  | cons v vs ih =>
    intro r h x
    unfold collect_row at h
    by_cases hs : v = source ∨ v = sink
    · rw [if_pos hs] at h
      rw [ih h x]
      constructor
      · rintro ⟨v', hx, hv', hns, hfl⟩
        exact ⟨v', hx, List.mem_cons_of_mem _ hv', hns, hfl⟩
      · rintro ⟨v', hx, hv', hns, hfl⟩
        rcases List.mem_cons.1 hv' with rfl | hv''
        · exact absurd hs hns
        · exact ⟨v', hx, hv'', hns, hfl⟩
    · rw [if_neg hs] at h
      cases hfl : dget? g.flow u v with
      | none => rw [hfl] at h; cases h
      | some fl =>
        rw [hfl] at h
        dsimp only at h
        cases hrest : collect_row g source sink u vs with
        | error e => rw [hrest] at h; cases h
        | ok rest =>
          rw [hrest] at h
          dsimp only at h
          cases h
          by_cases h1 : fl = 1
          · rw [if_pos h1]
            subst h1
            rw [List.mem_cons, ih hrest x]
            constructor
            · rintro (rfl | ⟨v', hx, hv', hns, hfl'⟩)
              · exact ⟨v, rfl, List.mem_cons_self _ _, hs, hfl⟩
              · exact ⟨v', hx, List.mem_cons_of_mem _ hv', hns, hfl'⟩
            · rintro ⟨v', hx, hv', hns, hfl'⟩
              rcases List.mem_cons.1 hv' with rfl | hv''
              · exact Or.inl hx
              · exact Or.inr ⟨v', hx, hv'', hns, hfl'⟩
          · rw [if_neg h1]
            rw [ih hrest x]
            constructor
            · rintro ⟨v', hx, hv', hns, hfl'⟩
              exact ⟨v', hx, List.mem_cons_of_mem _ hv', hns, hfl'⟩
            · rintro ⟨v', hx, hv', hns, hfl'⟩
              rcases List.mem_cons.1 hv' with rfl | hv''
              · rw [hfl] at hfl'
                exact absurd (Option.some.inj hfl') (fun hc => h1 hc)
              · exact ⟨v', hx, hv'', hns, hfl'⟩

lemma collect_row_nodup {g : Graph} {source sink u : Node} :
    ∀ {vs : List Node} {r : List (Node × Node)},
      collect_row g source sink u vs = .ok r →
      vs.Nodup → r.Nodup := by
  intro vs
  induction vs with
  | nil =>
    intro r h _
    cases h
    exact List.nodup_nil
  | cons v vs ih =>
    intro r h hnd
    unfold collect_row at h
    obtain ⟨hv, hvs⟩ := List.nodup_cons.1 hnd
    by_cases hs : v = source ∨ v = sink
    · rw [if_pos hs] at h
      exact ih h hvs
    · rw [if_neg hs] at h
      cases hfl : dget? g.flow u v with
      | none => rw [hfl] at h; cases h
      | some fl =>
        rw [hfl] at h
        dsimp only at h
        cases hrest : collect_row g source sink u vs with
        | error e => rw [hrest] at h; cases h
        | ok rest =>
          rw [hrest] at h
          dsimp only at h
          cases h
          by_cases h1 : fl = 1
          · rw [if_pos h1]
            refine List.nodup_cons.2 ⟨?_, ih hrest hvs⟩
            intro hmem
            obtain ⟨v', hx, hv', -, -⟩ := (collect_row_mem hrest _).1 hmem
            have : v = v' := congrArg Prod.snd hx
            rw [this] at hv
            exact hv hv'
          · rw [if_neg h1]
            exact ih hrest hvs

lemma collect_pairs_mem {g : Graph} {source sink : Node} :
    ∀ {us : List Node} {r : List (Node × Node)},
      collect_pairs g source sink us = .ok r →
      ∀ x, x ∈ r ↔ ∃ u, x.1 = u ∧ u ∈ us ∧ ¬ (u = source ∨ u = sink) ∧
        ∃ adj, aget? g.adj_list u = some adj ∧ ∃ v, x = (u, v) ∧ v ∈ adj ∧
          ¬ (v = source ∨ v = sink) ∧ dget? g.flow u v = some 1 := by
  intro us
  induction us with
  | nil =>
    intro r h x
    cases h
    simp
  | cons u us ih =>
    intro r h x
    unfold collect_pairs at h
    by_cases hs : u = source ∨ u = sink
    · rw [if_pos hs] at h
      rw [ih h x]
      constructor
      · rintro ⟨u', hx, hu', rest⟩
        exact ⟨u', hx, List.mem_cons_of_mem _ hu', rest⟩
      · rintro ⟨u', hx, hu', hns, rest⟩
        rcases List.mem_cons.1 hu' with rfl | hu''
        · exact absurd hs hns
        · exact ⟨u', hx, hu'', hns, rest⟩
    · rw [if_neg hs] at h
      cases hadj : aget? g.adj_list u with
      | none => rw [hadj] at h; cases h
      | some adj =>
        rw [hadj] at h
        dsimp only at h
        cases hrow : collect_row g source sink u adj with
        | error e => rw [hrow] at h; cases h
        | ok rr =>
          rw [hrow] at h
          cases hrest : collect_pairs g source sink us with
          | error e => rw [hrest] at h; cases h
          | ok rest =>
            rw [hrest] at h
            dsimp only at h
            cases h
            rw [List.mem_append, collect_row_mem hrow x, ih hrest x]
            constructor
            · rintro (⟨v, hx, hv, hns, hfl⟩ | ⟨u', hx, hu', rest'⟩)
              · refine ⟨u, ?_, List.mem_cons_self _ _, hs, adj, hadj,
                  v, hx, hv, hns, hfl⟩
                rw [hx]
              · exact ⟨u', hx, List.mem_cons_of_mem _ hu', rest'⟩
            · rintro ⟨u', hx, hu', hns, adj', hadj', v, hxv, hv, hnsv, hfl⟩
              rcases List.mem_cons.1 hu' with rfl | hu''
              · rw [hadj] at hadj'
                cases hadj'
                exact Or.inl ⟨v, hxv, hv, hnsv, hfl⟩
              · exact Or.inr ⟨u', hx, hu'', hns, adj', hadj', v, hxv, hv,
                  hnsv, hfl⟩

lemma collect_pairs_nodup {g : Graph} {source sink : Node} :
    ∀ {us : List Node} {r : List (Node × Node)},
      collect_pairs g source sink us = .ok r →
      us.Nodup → (∀ u, u ∈ us → ∀ adj, aget? g.adj_list u = some adj →
        adj.Nodup) →
      r.Nodup := by
  intro us
  induction us with
  | nil =>
    intro r h _ _
    cases h
    exact List.nodup_nil
  | cons u us ih =>
    intro r h hnd hadjnd
    unfold collect_pairs at h
    obtain ⟨hu, hus⟩ := List.nodup_cons.1 hnd
    by_cases hs : u = source ∨ u = sink
    · rw [if_pos hs] at h
      exact ih h hus fun u' hu' => hadjnd u' (List.mem_cons_of_mem _ hu')
    · rw [if_neg hs] at h
      cases hadj : aget? g.adj_list u with
      | none => rw [hadj] at h; cases h
      | some adj =>
        rw [hadj] at h
        dsimp only at h
        cases hrow : collect_row g source sink u adj with
        | error e => rw [hrow] at h; cases h
        | ok rr =>
          rw [hrow] at h
          cases hrest : collect_pairs g source sink us with
          | error e => rw [hrest] at h; cases h
          | ok rest =>
            rw [hrest] at h
            dsimp only at h
            cases h
            rw [List.nodup_append]
            refine ⟨collect_row_nodup hrow
              (hadjnd u (List.mem_cons_self _ _) adj hadj),
              ih hrest hus (fun u' hu' => hadjnd u' (List.mem_cons_of_mem _ hu')),
              ?_⟩
            intro x hx1 hx2
            obtain ⟨v, hxv, -, -, -⟩ := (collect_row_mem hrow _).1 hx1
            obtain ⟨u', hx', hu', -⟩ := (collect_pairs_mem hrest _).1 hx2
            rw [hxv] at hx'
            dsimp only at hx'
            rw [hx'] at hu
            exact hu hu'

/-! ## Row-sum bounds used for pairwise disjointness of the pairing -/

lemma row_sum_nonneg {row : AList Node Int}
    (h : ∀ p ∈ row, 0 ≤ p.2) : 0 ≤ (row.map Prod.snd).sum := by
  refine List.sum_nonneg ?_
  intro x hx
  obtain ⟨p, hp, rfl⟩ := List.mem_map.1 hx
  exact h p hp

lemma row_sum_ge1 {row : AList Node Int} {k1 : Node}
    (h : ∀ p ∈ row, 0 ≤ p.2) (h1 : (k1, (1 : Int)) ∈ row) :
    1 ≤ (row.map Prod.snd).sum := by
  refine List.single_le_sum ?_ 1 (List.mem_map.2 ⟨(k1, 1), h1, rfl⟩)
  intro x hx
  obtain ⟨p, hp, rfl⟩ := List.mem_map.1 hx
  exact h p hp

lemma row_sum_ge2 :
    ∀ (row : AList Node Int) (k1 k2 : Node),
      (∀ p ∈ row, 0 ≤ p.2) → (k1, (1 : Int)) ∈ row →
      (k2, (1 : Int)) ∈ row → ¬ k1 = k2 →
      2 ≤ (row.map Prod.snd).sum := by
  intro row
  induction row with
  | nil => intro k1 k2 _ h1 _ _; cases h1
  | cons p t ih =>
    intro k1 k2 hpos h1 h2 hne
    have hpos' : ∀ q ∈ t, 0 ≤ q.2 := fun q hq =>
      hpos q (List.mem_cons_of_mem _ hq)
    rw [List.map_cons, List.sum_cons]
    rcases List.mem_cons.1 h1 with rfl | h1'
    · rcases List.mem_cons.1 h2 with h2h | h2'
      · exact absurd (congrArg Prod.fst h2h.symm) hne
      · have := row_sum_ge1 hpos' h2'
        omega
    · rcases List.mem_cons.1 h2 with rfl | h2'
      · have := row_sum_ge1 hpos' h1'
        omega
      · have hp0 := hpos p (List.mem_cons_self _ _)
        have := ih k1 k2 hpos' h1' h2' hne
        omega

lemma row_sum_lb0 :
    ∀ (row : AList Node Int) (s : Node),
      (akeys row).Nodup →
      (∀ p ∈ row, 0 ≤ p.2 ∨ (p.1 = s ∧ -1 ≤ p.2)) →
      -1 ≤ (row.map Prod.snd).sum := by
  intro row
  induction row with
  | nil => intro s _ _; simp
  | cons p t ih =>
    intro s hnd hlb
    obtain ⟨hk, hnd'⟩ := List.nodup_cons.1 hnd
    have hlb' : ∀ q ∈ t, 0 ≤ q.2 ∨ (q.1 = s ∧ -1 ≤ q.2) := fun q hq =>
      hlb q (List.mem_cons_of_mem _ hq)
    rw [List.map_cons, List.sum_cons]
    rcases hlb p (List.mem_cons_self _ _) with hp | ⟨hps, hp1⟩
    · have := ih s hnd' hlb'
      omega
    · have htpos : ∀ q ∈ t, 0 ≤ q.2 := by
        intro q hq
        rcases hlb' q hq with h | ⟨hqs, -⟩
        · exact h
        · exfalso
          apply hk
          rw [hps, ← hqs]
          exact List.mem_map.2 ⟨q, hq, rfl⟩
      have := row_sum_nonneg htpos
      omega

lemma row_sum_lb1 :
    ∀ (row : AList Node Int) (s k1 : Node),
      (akeys row).Nodup →
      (∀ p ∈ row, 0 ≤ p.2 ∨ (p.1 = s ∧ -1 ≤ p.2)) →
      (k1, (1 : Int)) ∈ row → ¬ k1 = s →
      0 ≤ (row.map Prod.snd).sum := by
  intro row
  induction row with
  | nil => intro s k1 _ _ h1 _; cases h1
  | cons p t ih =>
    intro s k1 hnd hlb h1 hk1s
    obtain ⟨hk, hnd'⟩ := List.nodup_cons.1 hnd
    have hlb' : ∀ q ∈ t, 0 ≤ q.2 ∨ (q.1 = s ∧ -1 ≤ q.2) := fun q hq =>
      hlb q (List.mem_cons_of_mem _ hq)
    rw [List.map_cons, List.sum_cons]
    rcases List.mem_cons.1 h1 with rfl | h1'
    · have := row_sum_lb0 t s hnd' hlb'
      simp only [] at *
      omega
    · rcases hlb p (List.mem_cons_self _ _) with hp | ⟨hps, hp1⟩
      · have := ih s k1 hnd' hlb' h1' hk1s
        omega
      · have htpos : ∀ q ∈ t, 0 ≤ q.2 := by
          intro q hq
          rcases hlb' q hq with h | ⟨hqs, -⟩
          · exact h
          · exfalso
            apply hk
            rw [hps, ← hqs]
            exact List.mem_map.2 ⟨q, hq, rfl⟩
        have := row_sum_ge1 htpos h1'
        omega

lemma row_sum_lb2 :
    ∀ (row : AList Node Int) (s k1 k2 : Node),
      (akeys row).Nodup →
      (∀ p ∈ row, 0 ≤ p.2 ∨ (p.1 = s ∧ -1 ≤ p.2)) →
      (k1, (1 : Int)) ∈ row → (k2, (1 : Int)) ∈ row →
      ¬ k1 = k2 → ¬ k1 = s → ¬ k2 = s →
      1 ≤ (row.map Prod.snd).sum := by
  intro row
  induction row with
  | nil => intro s k1 k2 _ _ h1 _ _ _ _; cases h1
  | cons p t ih =>
    intro s k1 k2 hnd hlb h1 h2 hne hk1s hk2s
    obtain ⟨hk, hnd'⟩ := List.nodup_cons.1 hnd
    have hlb' : ∀ q ∈ t, 0 ≤ q.2 ∨ (q.1 = s ∧ -1 ≤ q.2) := fun q hq =>
      hlb q (List.mem_cons_of_mem _ hq)
    rw [List.map_cons, List.sum_cons]
    rcases List.mem_cons.1 h1 with rfl | h1'
    · rcases List.mem_cons.1 h2 with h2h | h2'
      · exact absurd (congrArg Prod.fst h2h.symm) hne
      · have := row_sum_lb1 t s k2 hnd' hlb' h2' hk2s
        simp only [] at *
        omega
    · rcases List.mem_cons.1 h2 with rfl | h2'
      · have := row_sum_lb1 t s k1 hnd' hlb' h1' hk1s
        simp only [] at *
        omega
      · rcases hlb p (List.mem_cons_self _ _) with hp | ⟨hps, hp1⟩
        · have := ih s k1 k2 hnd' hlb' h1' h2' hne hk1s hk2s
          omega
        · have htpos : ∀ q ∈ t, 0 ≤ q.2 := by
            intro q hq
            rcases hlb' q hq with h | ⟨hqs, -⟩
            · exact h
            · exfalso
              apply hk
              rw [hps, ← hqs]
              exact List.mem_map.2 ⟨q, hq, rfl⟩
          have := row_sum_ge2 t k1 k2 htpos h1' h2' hne
          omega

lemma sum_map_neg : ∀ (l : List Int), (l.map fun x => -x).sum = -l.sum := by
  intro l
  induction l with
  | nil => simp
  | cons x t ih =>
    rw [List.map_cons, List.sum_cons, List.sum_cons, ih]
    ring

/-! ## Classifying the final network's flow entries -/

lemma flow_entry_base {g : Grid} {gf : Graph}
    (hkeys : ∀ a, (aget? gf.flow a).map akeys =
      (aget? (apply_edges Graph.empty (build_edge_list g)).flow a).map akeys)
    {u w : Node} {x : Int} (hx : dget? gf.flow u w = some x) :
    ∃ y, dget? (apply_edges Graph.empty (build_edge_list g)).flow u w
      = some y := by
  unfold dget? at hx ⊢
  cases hrow : aget? gf.flow u with
  | none => rw [hrow] at hx; cases hx
  | some row =>
    rw [hrow] at hx
    simp only [Option.some_bind] at hx
    have h1 := hkeys u
    rw [hrow] at h1
    cases hrow0 : aget? (apply_edges Graph.empty (build_edge_list g)).flow u with
    | none => rw [hrow0] at h1; cases h1
    | some row0 =>
      rw [hrow0] at h1
      simp only [Option.map_some'] at h1
      have hkeq : akeys row = akeys row0 := Option.some.inj h1
      have hw : w ∈ akeys row0 := by
        rw [← hkeq]
        exact (aget?_isSome_iff_mem row w).1 (by rw [hx]; rfl)
      obtain ⟨y, hy⟩ := Option.isSome_iff_exists.1
        ((aget?_isSome_iff_mem row0 w).2 hw)
      exact ⟨y, by simp only [Option.some_bind]; exact hy⟩

lemma build_fwd_cap {g : Grid} {u w : Node} {cc kk : Int}
    (hm : (u, w, cc, kk) ∈ build_edge_list g) :
    dget? (apply_edges Graph.empty (build_edge_list g)).capacity u w
      = some cc :=
  ((apply_edges_facts _ (build_edge_list_ok g)).cap_iff u w cc).2
    (Or.inl ⟨kk, hm⟩)

lemma build_rev_cap_zero {g : Grid} {u w : Node} {cc kk : Int}
    (hm : (u, w, cc, kk) ∈ build_edge_list g) :
    dget? (apply_edges Graph.empty (build_edge_list g)).capacity w u
      = some 0 :=
  ((apply_edges_facts _ (build_edge_list_ok g)).cap_iff w u 0).2
    (Or.inr ⟨rfl, cc, kk, hm⟩)

/-- An entry of an even cell's flow row is nonnegative unless it is the
(source) entry, which is at least −1. -/
lemma even_row_lb {g : Grid} {gf : Graph}
    (hinv : FlowInvs Node.S Node.T gf)
    (hcap : gf.capacity = (apply_edges Graph.empty (build_edge_list g)).capacity)
    (hkeys : ∀ a, (aget? gf.flow a).map akeys =
      (aget? (apply_edges Graph.empty (build_edge_list g)).flow a).map akeys)
    {c : Cell} (hc : c ∈ even_cells g) {row : AList Node Int}
    (hrow : aget? gf.flow (Node.cell c.1 c.2) = some row) :
    ∀ p ∈ row, 0 ≤ p.2 ∨ (p.1 = Node.S ∧ -1 ≤ p.2) := by
  have bf := apply_edges_facts _ (build_edge_list_ok g)
  intro p hp
  have hget : aget? row p.1 = some p.2 :=
    aget?_eq_some_of_mem_nodup (hinv.nodup _ row hrow) (by
      cases p
      exact hp)
  have hflow : dget? gf.flow (Node.cell c.1 c.2) p.1 = some p.2 := by
    unfold dget?
    rw [hrow]
    exact hget
  obtain ⟨y, hy⟩ := flow_entry_base hkeys hflow
  obtain ⟨-, hdir⟩ := (bf.flow_iff _ _ y).1 hy
  rcases hdir with ⟨cc, kk, hm⟩ | ⟨cc, kk, hm⟩
  · -- forward edge out of the even cell: its reverse has capacity 0
    left
    have hskew := hinv.skew _ _ _ hflow
    obtain ⟨c2, hc2, hle⟩ := hinv.bound _ _ _ hskew
    rw [hcap, build_rev_cap_zero hm] at hc2
    have : c2 = 0 := (Option.some.inj hc2).symm
    omega
  · -- edge into the even cell: it can only be the source edge
    rcases build_mem hm with ⟨c', hc', heq⟩ | ⟨c', hc', nb, hnb, -, heq⟩ |
        ⟨c', hc', heq⟩
    · -- source edge: flow at least −1
      simp only [Prod.mk.injEq] at heq
      right
      refine ⟨heq.1, ?_⟩
      have hskew := hinv.skew _ _ _ hflow
      obtain ⟨c2, hc2, hle⟩ := hinv.bound _ _ _ hskew
      rw [hcap, build_fwd_cap hm] at hc2
      have : c2 = cc := (Option.some.inj hc2).symm
      have hcc : cc = 1 := build_caps_one hm
      omega
    · -- a cell edge into the cell would make it odd: parity contradiction
      exfalso
      simp only [Prod.mk.injEq, Node.cell.injEq] at heq
      obtain ⟨-, ⟨hn1, hn2⟩, -, -⟩ := heq
      have h1 := (mem_even_cells.1 hc).2.2.2
      have h2 := (mem_odd_cells.1 hnb).2.2.2
      omega
    · -- a sink edge's target is T, not a cell
      exfalso
      simp only [Prod.mk.injEq] at heq
      exact Node.noConfusion heq.2.1

/-- An entry of an odd cell's flow row is nonpositive unless it is the
(sink) entry, which is at most 1. -/
lemma odd_row_ub {g : Grid} {gf : Graph}
    (hinv : FlowInvs Node.S Node.T gf)
    (hcap : gf.capacity = (apply_edges Graph.empty (build_edge_list g)).capacity)
    (hkeys : ∀ a, (aget? gf.flow a).map akeys =
      (aget? (apply_edges Graph.empty (build_edge_list g)).flow a).map akeys)
    {c : Cell} (hc : c ∈ odd_cells g) {row : AList Node Int}
    (hrow : aget? gf.flow (Node.cell c.1 c.2) = some row) :
    ∀ p ∈ row, p.2 ≤ 0 ∨ (p.1 = Node.T ∧ p.2 ≤ 1) := by
  have bf := apply_edges_facts _ (build_edge_list_ok g)
  intro p hp
  have hget : aget? row p.1 = some p.2 :=
    aget?_eq_some_of_mem_nodup (hinv.nodup _ row hrow) (by
      cases p
      exact hp)
  have hflow : dget? gf.flow (Node.cell c.1 c.2) p.1 = some p.2 := by
    unfold dget?
    rw [hrow]
    exact hget
  obtain ⟨y, hy⟩ := flow_entry_base hkeys hflow
  obtain ⟨-, hdir⟩ := (bf.flow_iff _ _ y).1 hy
  rcases hdir with ⟨cc, kk, hm⟩ | ⟨cc, kk, hm⟩
  · -- forward edge out of the odd cell: it can only be the sink edge
    rcases build_mem hm with ⟨c', hc', heq⟩ | ⟨c', hc', nb, hnb, -, heq⟩ |
        ⟨c', hc', heq⟩
    · exfalso
      simp only [Prod.mk.injEq] at heq
      exact Node.noConfusion heq.1
    · -- a cell edge out of the cell would make it even: parity contradiction
      exfalso
      simp only [Prod.mk.injEq, Node.cell.injEq] at heq
      obtain ⟨⟨hn1, hn2⟩, -, -, -⟩ := heq
      have h1 := (mem_odd_cells.1 hc).2.2.2
      have h2 := (mem_even_cells.1 hc').2.2.2
      omega
    · -- sink edge: flow at most its unit capacity
      simp only [Prod.mk.injEq] at heq
      right
      refine ⟨heq.2.1, ?_⟩
      obtain ⟨c2, hc2, hle⟩ := hinv.bound _ _ _ hflow
      rw [hcap, build_fwd_cap hm] at hc2
      have : c2 = cc := (Option.some.inj hc2).symm
      have hcc : cc = 1 := build_caps_one hm
      omega
  · -- edge into the odd cell: its reverse (our direction) has capacity 0
    left
    obtain ⟨c2, hc2, hle⟩ := hinv.bound _ _ _ hflow
    rw [hcap, build_rev_cap_zero hm] at hc2
    have : c2 = 0 := (Option.some.inj hc2).symm
    omega

/-- A unit of forward flow between two cells identifies a valid even→odd
pair edge of the built network. -/
lemma flow_one_classify {g : Grid} {gf : Graph}
    (hinv : FlowInvs Node.S Node.T gf)
    (hcap : gf.capacity = (apply_edges Graph.empty (build_edge_list g)).capacity)
    {c1 c2 : Cell}
    (hflow : dget? gf.flow (Node.cell c1.1 c1.2) (Node.cell c2.1 c2.2)
      = some 1) :
    c1 ∈ even_cells g ∧ c2 ∈ odd_cells g ∧ g.test_pair c1 c2 = true := by
  have bf := apply_edges_facts _ (build_edge_list_ok g)
  obtain ⟨cc, hc2', hle⟩ := hinv.bound _ _ _ hflow
  rw [hcap] at hc2'
  rcases (bf.cap_iff _ _ cc).1 hc2' with ⟨kk, hm⟩ | ⟨hcc0, -⟩
  · rcases build_mem hm with ⟨c', hc', heq⟩ | ⟨c', hc', nb, hnb, ht, heq⟩ |
        ⟨c', hc', heq⟩
    · exfalso
      simp only [Prod.mk.injEq] at heq
      exact Node.noConfusion heq.1
    · simp only [Prod.mk.injEq, Node.cell.injEq] at heq
      obtain ⟨⟨he1, he2⟩, ⟨he3, he4⟩, -, -⟩ := heq
      have hc1c : c1 = c' := Prod.ext he1 he2
      have hc2c : c2 = nb := Prod.ext he3 he4
      rw [hc1c, hc2c]
      exact ⟨hc', hnb, ht⟩
    · exfalso
      simp only [Prod.mk.injEq] at heq
      exact Node.noConfusion heq.2.1
  · omega

/-! ## Decoding node pairs back to cell pairs -/

lemma node_pairs_to_cells_mem {np : List (Node × Node)} {c1 c2 : Cell} :
    (c1, c2) ∈ node_pairs_to_cells np ↔
      (Node.cell c1.1 c1.2, Node.cell c2.1 c2.2) ∈ np := by
  unfold node_pairs_to_cells
  rw [List.mem_filterMap]
  constructor
  · rintro ⟨⟨u, v⟩, huv, hdec⟩
    cases u with
    | S => cases hdec
    | T => cases hdec
    | cell i j =>
      cases v with
      | S => cases hdec
      | T => cases hdec
      | cell a b =>
        simp only [Option.some.injEq, Prod.mk.injEq] at hdec
        obtain ⟨h1, h2⟩ := hdec
        rw [← h1, ← h2]
        exact huv
  · intro hm
    exact ⟨(Node.cell c1.1 c1.2, Node.cell c2.1 c2.2), hm, rfl⟩

lemma node_pairs_to_cells_nodup {np : List (Node × Node)}
    (h : np.Nodup) : (node_pairs_to_cells np).Nodup := by
  refine h.filterMap ?_
  rintro ⟨u, v⟩ ⟨u', v'⟩ b hb hb'
  cases u with
  | S => cases hb
  | T => cases hb
  | cell i j =>
    cases v with
    | S => cases hb
    | T => cases hb
    | cell a b2 =>
      cases u' with
      | S => cases hb'
      | T => cases hb'
      | cell i' j' =>
        cases v' with
        | S => cases hb'
        | T => cases hb'
        | cell a' b2' =>
          simp only [Option.mem_def, Option.some.injEq] at hb hb'
          rw [← hb'] at hb
          simp only [Prod.mk.injEq, Prod.ext_iff] at hb
          obtain ⟨⟨h1, h2⟩, h3, h4⟩ := hb
          simp only [Prod.mk.injEq, Node.cell.injEq]
          exact ⟨⟨h1, h2⟩, h3, h4⟩

lemma reset_cache_ok (s : SolverBellmanFord) : CacheOK s.reset := by
  constructor
  · intro p c hc
    simp [SolverBellmanFord.reset, aget?] at hc
  · intro ij b hb
    simp [SolverBellmanFord.reset, aget?] at hb

/-- C3: a successful `SolverBellmanFord.run` stores a valid pairing: every
pair passes `test_pair`, the pairs are pairwise cell-disjoint, and they are
exactly the non-sentinel node pairs of the final network carrying forward
flow 1. -/
theorem C3_run_pairs_valid (s : SolverBellmanFord) (bfF wF mcfF : Nat)
    (sc : Int) (s' : SolverBellmanFord)
    (h : SolverBellmanFord.run s bfF wF mcfF = .ok (sc, s')) :
    (∀ p ∈ s'.pairs, s.grid.test_pair p.1 p.2 = true) ∧
    List.Pairwise (fun p q : Pair =>
      ¬ p.1 = q.1 ∧ ¬ p.1 = q.2 ∧ ¬ p.2 = q.1 ∧ ¬ p.2 = q.2) s'.pairs ∧
    (∀ c1 c2 : Cell, (c1, c2) ∈ s'.pairs ↔
      ((∃ adj, aget? s'.graph.adj_list (Node.cell c1.1 c1.2) = some adj ∧
          Node.cell c2.1 c2.2 ∈ adj) ∧
        dget? s'.graph.flow (Node.cell c1.1 c1.2) (Node.cell c2.1 c2.2)
          = some 1)) := by
  unfold SolverBellmanFord.run at h
  dsimp only at h
  cases hmcf : (s.reset.build_graph).graph.min_cost_flow Node.S Node.T
      bfF wF mcfF with
  | error e => rw [hmcf] at h; cases h
  | ok r =>
    rw [hmcf] at h
    dsimp only at h
    cases h
    unfold Graph.min_cost_flow at hmcf
    cases hloop : mcf_loop Node.S Node.T bfF wF mcfF
        (s.reset.build_graph).graph 0 with
    | error e => rw [hloop] at hmcf; cases hmcf
    | ok gt =>
      obtain ⟨gf, tcf⟩ := gt
      rw [hloop] at hmcf
      dsimp only at hmcf
      cases hcol : collect_pairs gf Node.S Node.T (akeys gf.capacity) with
      | error e => rw [hcol] at hmcf; cases hmcf
      | ok np =>
        rw [hcol] at hmcf
        dsimp only at hmcf
        cases hmcf
        -- the built graph is the edge-list application
        have hbg : (s.reset.build_graph).graph =
            apply_edges Graph.empty (build_edge_list s.grid) :=
          (build_graph_spec (reset_cache_ok s)).1
        rw [hbg] at hloop
        obtain ⟨k, hsteps, -⟩ := mcf_loop_steps hloop
        have hok := build_edge_list_ok s.grid
        have bf := apply_edges_facts _ hok
        have hss : ¬ Node.T = Node.S := fun hc => Node.noConfusion hc
        have hinv0 := built_flow_invs hok
          (fun e he => by rw [build_caps_one he]; decide) Node.S Node.T
        have hzero := fun row hrow =>
          built_flow_rows_zero hok Node.S row hrow
        obtain ⟨hinv, hcapf, -, hadjf, hkeysf, -, -⟩ :=
          aug_steps_facts hss hinv0 hzero hsteps
        -- facts shared by all three parts
        have hmemf : ∀ r1 r2 : Cell,
            (r1, r2) ∈ node_pairs_to_cells np →
            dget? gf.flow (Node.cell r1.1 r1.2) (Node.cell r2.1 r2.2)
                = some 1 ∧
              r1 ∈ even_cells s.grid ∧ r2 ∈ odd_cells s.grid ∧
              s.grid.test_pair r1 r2 = true := by
          intro r1 r2 hm
          have hm' := node_pairs_to_cells_mem.1 hm
          obtain ⟨u, hx, -, -, adj, -, v, hxv, -, -, hfl⟩ :=
            (collect_pairs_mem hcol _).1 hm'
          have hu : u = Node.cell r1.1 r1.2 := hx.symm
          have hv : v = Node.cell r2.1 r2.2 := (congrArg Prod.snd hxv).symm
          rw [hu, hv] at hfl
          obtain ⟨he, ho, ht⟩ := flow_one_classify hinv hcapf hfl
          exact ⟨hfl, he, ho, ht⟩
        refine ⟨?_, ?_, ?_⟩
        · -- every stored pair passes test_pair
          intro p hp
          obtain ⟨p1, p2⟩ := p
          exact (hmemf p1 p2 hp).2.2.2
        · -- pairwise cell-disjointness
          have hnp_nd : np.Nodup := by
            refine collect_pairs_nodup hcol ?_ ?_
            · rw [hcapf]
              exact bf.align.keys_nodup
            · intro u _ adj hadj
              rw [hadjf] at hadj
              have := bf.align.adj_align u
              rw [hadj] at this
              cases hcrow : aget? (apply_edges Graph.empty
                  (build_edge_list s.grid)).capacity u with
              | none => rw [hcrow] at this; cases this
              | some crow =>
                rw [hcrow] at this
                simp only [Option.map_some'] at this
                rw [Option.some.inj this]
                exact bf.align.rows_nodup u crow hcrow
          refine (node_pairs_to_cells_nodup hnp_nd).pairwise_of_forall_ne ?_
          intro p hp q hq hne
          obtain ⟨p1, p2⟩ := p
          obtain ⟨q1, q2⟩ := q
          obtain ⟨hfp, hpe, hpo, -⟩ := hmemf p1 p2 hp
          obtain ⟨hfq, hqe, hqo, -⟩ := hmemf q1 q2 hq
          have hparity : ∀ a : Cell, a ∈ even_cells s.grid →
              ∀ b : Cell, b ∈ odd_cells s.grid → ¬ a = b := by
            intro a ha b hb hab
            have h1 := (mem_even_cells.1 ha).2.2.2
            have h2 := (mem_odd_cells.1 hb).2.2.2
            rw [hab] at h1
            exact h2 h1
          refine ⟨?_, hparity p1 hpe q2 hqo, fun hc =>
            hparity q1 hqe p2 hpo hc.symm, ?_⟩
          · -- two pairs cannot share their even cell
            intro heq
            dsimp only at heq
            by_cases hpq2 : p2 = q2
            · exact hne (by rw [heq, hpq2])
            · subst heq
              unfold dget? at hfp hfq
              cases hrow : aget? gf.flow (Node.cell p1.1 p1.2) with
              | none => rw [hrow] at hfp; cases hfp
              | some row =>
                rw [hrow] at hfp hfq
                simp only [Option.some_bind] at hfp hfq
                have hm1 : (Node.cell p2.1 p2.2, (1 : Int)) ∈ row :=
                  mem_of_aget?_eq_some hfp
                have hm2 : (Node.cell q2.1 q2.2, (1 : Int)) ∈ row :=
                  mem_of_aget?_eq_some hfq
                have hlb := even_row_lb hinv hcapf hkeysf hpe hrow
                have hsum := row_sum_lb2 row Node.S _ _
                  (hinv.nodup _ row hrow) hlb hm1 hm2
                  (fun hc => by
                    rw [Node.cell.injEq] at hc
                    exact hpq2 (Prod.ext hc.1 hc.2))
                  (fun hc => Node.noConfusion hc)
                  (fun hc => Node.noConfusion hc)
                have hcons := hinv.conserve _ row
                  (fun hc => Node.noConfusion hc)
                  (fun hc => Node.noConfusion hc) hrow
                omega
          · -- two pairs cannot share their odd cell
            intro heq
            dsimp only at heq
            by_cases hpq1 : p1 = q1
            · exact hne (by rw [heq, hpq1])
            · subst heq
              have hsp := hinv.skew _ _ _ hfp
              have hsq := hinv.skew _ _ _ hfq
              unfold dget? at hsp hsq
              cases hrow : aget? gf.flow (Node.cell p2.1 p2.2) with
              | none => rw [hrow] at hsp; cases hsp
              | some row =>
                rw [hrow] at hsp hsq
                simp only [Option.some_bind] at hsp hsq
                have hm1 : (Node.cell p1.1 p1.2, (-1 : Int)) ∈ row :=
                  mem_of_aget?_eq_some hsp
                have hm2 : (Node.cell q1.1 q1.2, (-1 : Int)) ∈ row :=
                  mem_of_aget?_eq_some hsq
                have hub := odd_row_ub hinv hcapf hkeysf hpo hrow
                -- pass to the negated row
                have hm1' : (Node.cell p1.1 p1.2, (1 : Int)) ∈
                    row.map fun pr => (pr.1, -pr.2) :=
                  List.mem_map.2 ⟨(Node.cell p1.1 p1.2, -1), hm1, by norm_num⟩
                have hm2' : (Node.cell q1.1 q1.2, (1 : Int)) ∈
                    row.map fun pr => (pr.1, -pr.2) :=
                  List.mem_map.2 ⟨(Node.cell q1.1 q1.2, -1), hm2, by norm_num⟩
                have hkeys' : akeys (row.map fun pr => (pr.1, -pr.2))
                    = akeys row := by
                  simp [akeys, List.map_map, Function.comp]
                have hlb' : ∀ pp ∈ row.map fun pr => (pr.1, -pr.2),
                    0 ≤ pp.2 ∨ (pp.1 = Node.T ∧ -1 ≤ pp.2) := by
                  intro pp hpp
                  obtain ⟨pr, hpr, rfl⟩ := List.mem_map.1 hpp
                  rcases hub pr hpr with h | ⟨h1, h2⟩
                  · left
                    dsimp only
                    omega
                  · right
                    exact ⟨h1, by dsimp only; omega⟩
                have hsum := row_sum_lb2 (row.map fun pr => (pr.1, -pr.2))
                  Node.T _ _
                  (by rw [hkeys']; exact hinv.nodup _ row hrow) hlb' hm1' hm2'
                  (fun hc => by
                    rw [Node.cell.injEq] at hc
                    exact hpq1 (Prod.ext hc.1 hc.2))
                  (fun hc => Node.noConfusion hc)
                  (fun hc => Node.noConfusion hc)
                have hcons := hinv.conserve _ row
                  (fun hc => Node.noConfusion hc)
                  (fun hc => Node.noConfusion hc) hrow
                have hnegsum : ((row.map fun pr => (pr.1, -pr.2)).map
                    Prod.snd).sum = -((row.map Prod.snd).sum) := by
                  rw [List.map_map]
                  have h2 := sum_map_neg (row.map Prod.snd)
                  rw [List.map_map] at h2
                  exact h2
                rw [hnegsum, hcons] at hsum
                omega
        · -- exact characterization by forward flow 1
          intro c1 c2
          rw [node_pairs_to_cells_mem, collect_pairs_mem hcol]
          constructor
          · rintro ⟨u, hx, -, -, adj, hadj, v, hxv, hvadj, -, hfl⟩
            have hu : u = Node.cell c1.1 c1.2 := hx.symm
            have hv : v = Node.cell c2.1 c2.2 := (congrArg Prod.snd hxv).symm
            subst hu
            subst hv
            exact ⟨⟨adj, hadj, hvadj⟩, hfl⟩
          · rintro ⟨⟨adj, hadj, hvadj⟩, hfl⟩
            refine ⟨Node.cell c1.1 c1.2, rfl, ?_, ?_, adj, hadj,
              Node.cell c2.1 c2.2, rfl, hvadj, ?_, hfl⟩
            · -- the cell is a registered node of the network
              have hmem : Node.cell c1.1 c1.2 ∈ akeys gf.adj_list :=
                (aget?_isSome_iff_mem _ _).1 (by rw [hadj]; rfl)
              rw [hadjf] at hmem
              rw [bf.align.keys_adj] at hmem
              rw [hcapf]
              exact hmem
            · rintro (hc | hc) <;> exact Node.noConfusion hc
            · rintro (hc | hc) <;> exact Node.noConfusion hc

/-- Witness for C3: a concrete successful run on a 2×2 grid. -/
theorem C3_run_pairs_valid_witness :
    (∀ p ∈ (run_state (SolverBellmanFord.init Wgrid) 100 100 100).pairs,
      (SolverBellmanFord.init Wgrid).grid.test_pair p.1 p.2 = true) ∧
    List.Pairwise (fun p q : Pair =>
      ¬ p.1 = q.1 ∧ ¬ p.1 = q.2 ∧ ¬ p.2 = q.1 ∧ ¬ p.2 = q.2)
      (run_state (SolverBellmanFord.init Wgrid) 100 100 100).pairs ∧
    (∀ c1 c2 : Cell,
      (c1, c2) ∈ (run_state (SolverBellmanFord.init Wgrid) 100 100 100).pairs ↔
      ((∃ adj, aget? (run_state (SolverBellmanFord.init Wgrid)
            100 100 100).graph.adj_list (Node.cell c1.1 c1.2) = some adj ∧
          Node.cell c2.1 c2.2 ∈ adj) ∧
        dget? (run_state (SolverBellmanFord.init Wgrid) 100 100 100).graph.flow
          (Node.cell c1.1 c1.2) (Node.cell c2.1 c2.2) = some 1)) :=
  C3_run_pairs_valid (SolverBellmanFord.init Wgrid) 100 100 100 6
    (run_state (SolverBellmanFord.init Wgrid) 100 100 100) rfl

end GridPairing
